import Mathlib

/-!
EWOC histogram accumulation (`write/src/ewocs.cc`).

A shallow embedding of `main` of `ewocs.cc`: the subjet pair loop, the jet
selection, the event loop and the normalised output, with theorems about them.

Conventions of the embedding.
* C `double`/`float` values are exact rationals (`ℚ`); rounding is not modelled.
  A pairwise observable value, a weight computed through a division by zero and
  the value of a histogram bin are `Val`s: a rational, one of the two infinities
  or NaN.
* FastJet, Pythia, libm and the helper headers of the repository that are not
  part of `ewocs.cc` are a parameter, the structure `Kernel`, over an abstract
  jet type `J` (the class `PseudoJet`).
* A C++ exception stops the program; the model keeps the state reached at the
  throw (`Outcome`). Indexing a vector outside its bounds, undefined in C++,
  stops the model the same way with `Err.bad_index`.
* A histogram bin is a `double` that can become `inf` or NaN: for a jet with
  `pow(jet.e(), 2.) = 0` the weight is computed through a division by zero.
  The state holds the rational content of the bins (`ewoc_hists`) and, apart, the
  amounts that were computed through a division by zero (`spills`); the value of
  a bin is the IEEE sum of the two (`World.value`), and it is this value that the
  output divides.
* `int` counters are unbounded integers.
-/

namespace Ewocs

/-! ## Values and errors -/

/-- A `double` holding an observable value: finite, `+inf`, `-inf` or NaN. -/
inductive Val where
  | fin (q : ℚ)
  | posInf
  | negInf
  | nan
  deriving DecidableEq, Repr

/-- IEEE division `a / b` of two finite values, exact when `b ≠ 0`. -/
def Val.div (a b : ℚ) : Val :=
  if b = 0 then
    (if 0 < a then Val.posInf else if a < 0 then Val.negInf else Val.nan)
  else Val.fin (a / b)

/-- IEEE addition, exact on finite values: `inf + (-inf)` and every sum with a
NaN are NaN. -/
def Val.add : Val → Val → Val
  | Val.fin a, Val.fin b => Val.fin (a + b)
  | Val.fin _, Val.posInf => Val.posInf
  | Val.fin _, Val.negInf => Val.negInf
  | Val.posInf, Val.fin _ => Val.posInf
  | Val.posInf, Val.posInf => Val.posInf
  | Val.negInf, Val.fin _ => Val.negInf
  | Val.negInf, Val.negInf => Val.negInf
  | _, _ => Val.nan

/-- IEEE product `c * x` of a finite value and a value: `0 * inf` is NaN. -/
def Val.scale (c : ℚ) : Val → Val
  | Val.fin b => Val.fin (c * b)
  | Val.posInf => if 0 < c then Val.posInf else if c < 0 then Val.negInf else Val.nan
  | Val.negInf => if 0 < c then Val.negInf else if c < 0 then Val.posInf else Val.nan
  | Val.nan => Val.nan

/-- IEEE division `x / b` of a value by a finite value (a zero divisor is taken
as positive, as in `Val.div`). -/
def Val.over (x : Val) (b : ℚ) : Val :=
  match x with
  | Val.fin a => Val.div a b
  | Val.posInf => if b < 0 then Val.negInf else Val.posInf
  | Val.negInf => if b < 0 then Val.posInf else Val.negInf
  | Val.nan => Val.nan

instance : Add Val := ⟨Val.add⟩

instance : Zero Val := ⟨Val.fin 0⟩

/-- The values with IEEE addition are a commutative monoid: the order in which
amounts are added to a bin does not matter. -/
instance : AddCommMonoid Val where
  add_assoc := by
    intro a b c
    show Val.add (Val.add a b) c = Val.add a (Val.add b c)
    cases a <;> cases b <;> cases c <;> simp [Val.add, add_assoc]
  zero_add := by
    intro a
    show Val.add (Val.fin 0) a = a
    cases a <;> simp [Val.add]
  add_zero := by
    intro a
    show Val.add a (Val.fin 0) = a
    cases a <;> simp [Val.add]
  add_comm := by
    intro a b
    show Val.add a b = Val.add b a
    cases a <;> cases b <;> simp [Val.add, add_comm]
  nsmul := nsmulRec

/-- The exceptions `main` can raise, and the out-of-bounds vector access. -/
inductive Err where
  /-- thrown as `std::runtime_error("Cannot create an EWOC histogram without ...")` -/
  | no_terms
  /-- thrown as `std::runtime_error("Invalid pair_obs " + pair_obs)` -/
  | invalid_pair_obs (name : String)
  /-- thrown as `std::runtime_error("Found theta = nan, from ...")` -/
  | theta_nan
  /-- thrown as `std::invalid_argument("To use CMS Open Data, must ask for AKT5 jets ...")` -/
  | opendata_radius
  /-- thrown as `std::runtime_error("File for EWOC output was expected to be open ...")` -/
  | file_not_open
  /-- an access `v[i]` outside the bounds of the vector `v` -/
  | bad_index
  /-- a `std::vector` constructed with a negative size (`std::length_error`) -/
  | length_error
  deriving DecidableEq, Repr

/-- A jet definition: algorithm name, radius, recombination scheme name. -/
structure JetDefinition where
  alg : String
  R : ℚ
  recomb : String
  deriving DecidableEq, Repr

/-- The operations of FastJet, libm and the helper headers that `main` calls,
over the jet type `J`. -/
structure Kernel (J : Type) where
  /-- the function `PseudoJet::e()`, `PseudoJet::E()` -/
  e : J → ℚ
  /-- the function `PseudoJet::pt()` -/
  pt : J → ℚ
  /-- the function `PseudoJet::eta()` -/
  eta : J → ℚ
  /-- the function `PseudoJet::m()` -/
  m : J → ℚ
  /-- the function `PseudoJet::m2()` -/
  m2 : J → ℚ
  /-- the function `PseudoJet::modp()` -/
  modp : J → ℚ
  /-- the function `operator+` of two `PseudoJet`s -/
  add : J → J → J
  /-- the default-constructed `PseudoJet` -/
  zero : J
  /-- the function `join(jet, part)` -/
  join : J → J → J
  /-- the function `PseudoJet::constituents()` -/
  constituents : J → List J
  /-- the function `PseudoJet::delta_R` -/
  delta_R : J → J → ℚ
  /-- the function `theta(p1, p2)` on the three-momenta of two jets; `none` is NaN -/
  theta : J → J → Option ℚ
  /-- the function `ClusterSequence(particles, def).inclusive_jets()` -/
  inclusive_jets : List J → JetDefinition → List J
  /-- the function `sorted_by_E` -/
  sorted_by_E : List J → List J
  /-- the function `sorted_by_pt` -/
  sorted_by_pt : List J → List J
  /-- the function `pow(x, y)` of libm -/
  pow : ℚ → ℚ → ℚ
  /-- the function `pow(x, y)` of libm for an argument `x` that is `+inf`, `-inf`
  or NaN -/
  pow_nonfinite : Val → ℚ → Val
  /-- the function `bin_position(val, minbin, maxbin, nbins, bin_scheme, uflow, oflow)` -/
  bin_position : Val → ℚ → ℚ → Int → String → Bool → Bool → Int
  /-- the function `get_bin_edges(minbin, maxbin, nbins, uflow, oflow)` -/
  get_bin_edges : ℚ → ℚ → Int → Bool → Bool → List ℚ
  /-- the function `get_bin_centers(minbin, maxbin, nbins, uflow, oflow)` -/
  get_bin_centers : ℚ → ℚ → Int → Bool → Bool → List ℚ

/-- Modelled from the spec: `str_eq` of `general_utils.h` is not part of
`ewocs.cc`; the catalog of observable names is matched by string equality. -/
def str_eq (a b : String) : Bool := a == b

/-- Modelled from the spec: `process_JetDef` of `jet_utils.h` is not part of
`ewocs.cc`; the jet definition it builds carries the radius it is given. -/
def process_JetDef (alg : String) (rad : ℚ) (recomb : String) : JetDefinition :=
  ⟨alg, rad, recomb⟩

/-! ## Settings read from the command line -/

/-- The values `main` reads from the command line, already parsed. -/
structure Settings where
  n_events : Int
  pid_1 : Int
  pid_2 : Int
  jet_alg : String
  sub_alg : String
  /-- the list `radius_pairs`: the (jet radius, subjet radius) pairs, in order -/
  radius_pairs : List (ℚ × ℚ)
  jet_recomb : String
  sub_recomb : String
  n_exclusive_jets : Int
  pt_min : ℚ
  pt_max : ℚ
  eta_cut : ℚ
  pair_obs : String
  e_weight : ℚ
  pair_terms : Bool
  contact_terms : Bool
  nbins : Int
  minbin : ℚ
  maxbin : ℚ
  lin_bins : Bool
  use_opendata : Bool

/-- the flag `is_proton_collision = (pid_1 == 2212 and pid_2 == 2212)` -/
def Settings.is_proton_collision (s : Settings) : Bool :=
  s.pid_1 == 2212 && s.pid_2 == 2212

/-- the string `bin_scheme = lin_bins ? "linear" : "logarithmic"` -/
def Settings.bin_scheme (s : Settings) : String :=
  if s.lin_bins then "linear" else "logarithmic"

/-- the flag `bool uflow = true` -/
def uflow : Bool := true

/-- the flag `bool oflow = true` -/
def oflow : Bool := true

def Settings.jet_rads (s : Settings) : List ℚ := s.radius_pairs.map Prod.fst

def Settings.sub_rads (s : Settings) : List ℚ := s.radius_pairs.map Prod.snd

/-! ## Program state -/

/-- the type `typedef std::vector<double> Hist` -/
abbrev Hist := List ℚ

/-- One execution of `ewoc_hists[irad][ibin] += degeneracy*weight`. -/
structure Fill where
  irad : Nat
  isub : Nat
  jsub : Nat
  degeneracy : Int
  weight : ℚ
  val : Val
  ibin : Int
  deriving DecidableEq, Repr

/-- The amount `degeneracy*weight` a fill adds to its bin. -/
def Fill.amount (f : Fill) : ℚ := (f.degeneracy : ℚ) * f.weight

/-- One execution of `ewoc_hists[irad][ibin] += degeneracy*weight` for a jet with
`pow(jet.e(), 2.) = 0`: the weight comes from a division by zero. -/
structure Spill where
  irad : Nat
  isub : Nat
  jsub : Nat
  degeneracy : Int
  weight : Val
  val : Val
  ibin : Int
  deriving DecidableEq, Repr

/-- The amount `degeneracy*weight` a fill through a division by zero adds to its
bin. -/
def Spill.amount (g : Spill) : Val := Val.scale (g.degeneracy : ℚ) g.weight

/-- What is appended to one output file after the event loop. -/
structure Artifact where
  jet_rad : ℚ
  sub_rad : ℚ
  /-- the numbers written in the `bin_edges` block, in order -/
  edges : List ℚ
  /-- the numbers written in the `xs` block -/
  xs : List ℚ
  /-- the values written in the `ys` block -/
  ys : List Val
  deriving DecidableEq, Repr

/-- The mutable state of `main`. The fields `fills` and `events_seen` are a
record of what was executed; the program does not read them. -/
structure World where
  /-- the vector `std::vector<Hist> ewoc_hists`: for every bin, the sum of the
  amounts added to it that were not computed through a division by zero -/
  ewoc_hists : List Hist
  /-- the counter `int njets_tot` -/
  njets_tot : Int
  /-- the calls of `write_ewocfile_header`, by (jet radius, subjet radius) -/
  headers : List (ℚ × ℚ)
  /-- the histogram data written to the output files -/
  written : List Artifact
  /-- every histogram fill executed, oldest first -/
  fills : List Fill
  /-- the number of event-loop iterations entered -/
  events_seen : Nat
  /-- the fills through a division by zero, oldest first: their amounts are what
  the bins of `ewoc_hists` hold on top of their rational content -/
  spills : List Spill
  deriving DecidableEq, Repr

/-- The state before `main` has done anything. -/
def World.init : World := ⟨[], 0, [], [], [], 0, []⟩

/-- The state `main` has reached, and the exception that stopped it, if any. -/
structure Outcome where
  world : World
  error : Option Err
  deriving DecidableEq, Repr

/-- A statement block: it runs from a state to an outcome. -/
abbrev Block := World → Outcome

/-- Normal completion. -/
def done (w : World) : Outcome := ⟨w, none⟩

/-- A `throw`. -/
def raise (err : Err) (w : World) : Outcome := ⟨w, some err⟩

/-- Sequencing `a; b`: `b` runs only if `a` did not throw. -/
def seq (a b : Block) : Block := fun w =>
  match a w with
  | ⟨w1, none⟩ => b w1
  | ⟨w1, some err⟩ => ⟨w1, some err⟩

/-- A `for` loop whose control variable takes the values of `xs` in order. -/
def forEach {α : Type} (body : α → Block) : List α → Block
  | [] => done
  | x :: xs => seq (body x) (forEach body xs)

/-! ## Pair observables -/

variable {J : Type}

/-- The function `angle(pj1, pj2)`: throws when `theta` is NaN. -/
def angle (K : Kernel J) (pj1 pj2 : J) : Except Err ℚ :=
  match K.theta pj1 pj2 with
  | none => Except.error Err.theta_nan
  | some th => Except.ok th

/-- The function `angle_squared(pj1, pj2) = pow(angle(pj1, pj2), 2.)`. -/
def angle_squared (K : Kernel J) (pj1 pj2 : J) : Except Err ℚ :=
  match angle K pj1 pj2 with
  | Except.error err => Except.error err
  | Except.ok th => Except.ok (K.pow th 2)

/-- The function `deltaR(pj1, pj2) = pj1.delta_R(pj2)`. -/
def deltaR (K : Kernel J) (pj1 pj2 : J) : ℚ := K.delta_R pj1 pj2

/-- The function `deltaR_squared(pj1, pj2) = pow(pj1.delta_R(pj2), 2.)`. -/
def deltaR_squared (K : Kernel J) (pj1 pj2 : J) : ℚ := K.pow (K.delta_R pj1 pj2) 2

/-- The function `formation_time(pj1, pj2) = max(pj1.e(), pj2.e())/(pj1+pj2).m2()`. -/
def formation_time (K : Kernel J) (pj1 pj2 : J) : Val :=
  Val.div (max (K.e pj1) (K.e pj2)) (K.m2 (K.add pj1 pj2))

/-- The observable value of a contact term: the `if (jsub == isub)` branch of
the name dispatch. -/
def contact_val (K : Kernel J) (pair_obs : String) (subjet1 : J) : Except Err Val :=
  if str_eq pair_obs "mass" || str_eq pair_obs "m" then
    Except.ok (Val.fin (K.m subjet1))
  else if str_eq pair_obs "mass_squared" || str_eq pair_obs "mass2"
      || str_eq pair_obs "m2" then
    Except.ok (Val.fin (K.m2 subjet1))
  else if str_eq pair_obs "theta" || str_eq pair_obs "theta2"
      || str_eq pair_obs "deltaR" || str_eq pair_obs "deltaR2" then
    Except.ok (Val.fin 0)
  else if str_eq pair_obs "formtime" || str_eq pair_obs "formation_time"
      || str_eq pair_obs "tau" then
    Except.ok Val.posInf
  else
    Except.error (Err.invalid_pair_obs pair_obs)

/-- The observable value of a genuine pair: the `else` branch of the name
dispatch. -/
def pair_val (K : Kernel J) (pair_obs : String) (subjet1 subjet2 : J) : Except Err Val :=
  if str_eq pair_obs "mass" then
    Except.ok (Val.fin (K.m (K.add subjet1 subjet2)))
  else if str_eq pair_obs "mass_squared" || str_eq pair_obs "mass2"
      || str_eq pair_obs "m2" then
    Except.ok (Val.fin (K.m2 (K.add subjet1 subjet2)))
  else if str_eq pair_obs "theta" then
    (angle K subjet1 subjet2).map Val.fin
  else if str_eq pair_obs "theta2" then
    (angle_squared K subjet1 subjet2).map Val.fin
  else if str_eq pair_obs "deltaR" then
    Except.ok (Val.fin (deltaR K subjet1 subjet2))
  else if str_eq pair_obs "deltaR2" then
    Except.ok (Val.fin (deltaR_squared K subjet1 subjet2))
  else if str_eq pair_obs "formtime" || str_eq pair_obs "formation_time"
      || str_eq pair_obs "tau" then
    Except.ok (formation_time K subjet1 subjet2)
  else
    Except.error (Err.invalid_pair_obs pair_obs)

/-- The value `degeneracy` is given for the index pair `(isub, jsub)`. -/
def degeneracy (s : Settings) (isub jsub : Nat) : Int :=
  if jsub = isub then
    (if s.contact_terms then 1 else 0)
  else
    (if s.pair_terms then 2 else 0)

/-- The observable value for the index pair `(isub, jsub)`. -/
def obs_val (K : Kernel J) (s : Settings) (isub jsub : Nat) (subjet1 subjet2 : J) :
    Except Err Val :=
  if jsub = isub then contact_val K s.pair_obs subjet1
  else pair_val K s.pair_obs subjet1 subjet2

/-! ## Histogram filling -/

/-- The rational content of bin `k` of a histogram (0 outside it). -/
def Hist.bin (h : Hist) (k : Nat) : ℚ := h.getD k 0

/-- The statement `h[ibin] += x`; `none` when `ibin` is not an index of `h`. -/
def Hist.add (h : Hist) (ibin : Int) (x : ℚ) : Option Hist :=
  if 0 ≤ ibin ∧ ibin.toNat < h.length then
    some (h.set ibin.toNat (h.bin ibin.toNat + x))
  else none

/-- The statement `ewoc_hists[irad][ibin] += degeneracy*weight`, recorded in
`fills`. -/
def fill (f : Fill) : Block := fun w =>
  match w.ewoc_hists[f.irad]? with
  | none => raise Err.bad_index w
  | some h =>
    match h.add f.ibin f.amount with
    | none => raise Err.bad_index w
    | some h1 =>
      done { w with ewoc_hists := w.ewoc_hists.set f.irad h1, fills := w.fills ++ [f] }

/-- The statement `ewoc_hists[irad][ibin] += degeneracy*weight` for a weight
computed through a division by zero: the amount is kept in `spills`. -/
def spill (g : Spill) : Block := fun w =>
  match w.ewoc_hists[g.irad]? with
  | none => raise Err.bad_index w
  | some h =>
    if 0 ≤ g.ibin ∧ g.ibin.toNat < h.length then
      done { w with spills := w.spills ++ [g] }
    else raise Err.bad_index w

/-- The sum of the amounts of the fills of `gs` that go to bin `k` of
configuration `irad`. -/
def spill_total (gs : List Spill) (irad k : Nat) : Val :=
  ((gs.filter (fun g => decide (g.irad = irad ∧ g.ibin = (k : Int)))).map Spill.amount).sum

/-- The body of the loop on `jsub`: weight, degeneracy, observable value, bin,
fill. The quotient `subjet1.e()*subjet2.e()/pow(jet.e(), 2.)` is a rational
unless `pow(jet.e(), 2.)` is zero; then it is an infinity or a NaN, the weight is
`pow` of it, and the amount added to the bin is kept in `spills`. Nothing is
thrown for it: the loop goes on with the next pair. -/
def pair_body (K : Kernel J) (s : Settings) (irad : Nat) (jet : J) (subjets : List J)
    (isub jsub : Nat) : Block := fun w =>
  match subjets[isub]?, subjets[jsub]? with
  | some subjet1, some subjet2 =>
    let weight := K.pow (K.e subjet1 * K.e subjet2 / K.pow (K.e jet) 2) s.e_weight
    match obs_val K s isub jsub subjet1 subjet2 with
    | Except.error err => raise err w
    | Except.ok val =>
      let ibin := K.bin_position val s.minbin s.maxbin s.nbins s.bin_scheme uflow oflow
      if K.pow (K.e jet) 2 = 0 then
        spill ⟨irad, isub, jsub, degeneracy s isub jsub,
          K.pow_nonfinite (Val.div (K.e subjet1 * K.e subjet2) (K.pow (K.e jet) 2)) s.e_weight,
          val, ibin⟩ w
      else fill ⟨irad, isub, jsub, degeneracy s isub jsub, weight, val, ibin⟩ w
  | _, _ => raise Err.bad_index w

/-- The values of `jsub` in `for (jsub = isub; jsub < subjets.size(); jsub++)`. -/
def jsub_range (n isub : Nat) : List Nat := List.range' isub (n - isub)

/-- The loop on subjet pairs within a jet. -/
def pair_loop (K : Kernel J) (s : Settings) (irad : Nat) (jet : J) (subjets : List J) :
    Block :=
  forEach (fun isub =>
    forEach (fun jsub => pair_body K s irad jet subjets isub jsub)
      (jsub_range subjets.length isub))
    (List.range subjets.length)

/-- The subjets of a jet: its constituents for `sub_def.R() == 0`, else the
inclusive jets of the sub-clustering, sorted by pt. -/
def get_subjets (K : Kernel J) (sub_def : JetDefinition) (jet : J) : List J :=
  if sub_def.R = 0 then K.constituents jet
  else K.sorted_by_pt (K.inclusive_jets (K.constituents jet) sub_def)

/-- The body of `for (auto jet : good_jets)`. -/
def jet_body (K : Kernel J) (s : Settings) (irad : Nat) (sub_def : JetDefinition)
    (jet : J) : Block :=
  seq (fun w => done { w with njets_tot := w.njets_tot + 1 })
    (pair_loop K s irad jet (get_subjets K sub_def jet))

/-! ## Jet finding -/

/-- What the event sources deliver. -/
structure Input (J : Type) where
  /-- the outcome of `pythia.next()` in event-loop iteration `iev`: `none` when
  it fails, else `get_particles_pythia(pythia.event)` -/
  pythia : Nat → Option (List J)
  /-- the entry `cms_events[iev]` after `od::read_events` -/
  cms_events : Nat → List J
  /-- whether the output file of a radius pair is open after `outfile.open` -/
  is_open : ℚ × ℚ → Bool

/-- The jet acceptance test of the Pythia branch. -/
def accepts (K : Kernel J) (s : Settings) (jet : J) : Bool :=
  if s.is_proton_collision then
    decide (s.pt_min ≤ K.pt jet) && decide (K.pt jet ≤ s.pt_max)
      && (decide (|K.eta jet| ≤ s.eta_cut) || decide (s.eta_cut < 0))
  else
    decide (s.pt_min ≤ K.e jet) && decide (K.e jet ≤ s.pt_max)

/-- The jet built by `jet = join(jet, part)` over the parts with `modp() > 0`,
from a default-constructed `PseudoJet`. -/
def join_all (K : Kernel J) (parts : List J) : J :=
  parts.foldl (fun jet part => if 0 < K.modp part then K.join jet part else jet) K.zero

/-- The list `all_jets` of the Pythia branch. -/
def all_jets (K : Kernel J) (jet_def : JetDefinition) (jet_rad : ℚ) (particles : List J) :
    List J :=
  if jet_rad < 1000 then K.sorted_by_E (K.inclusive_jets particles jet_def)
  else [join_all K particles]

/-- The jets the loop `for (i = 0; i < all_jets.size(); i++)` looks at: all of
them, or the first `n_exclusive_jets` when that is positive (the `break`). -/
def considered (s : Settings) (jets : List J) : List J :=
  if 0 < s.n_exclusive_jets then jets.take s.n_exclusive_jets.toNat else jets

/-- The list `good_jets` of the Pythia branch. -/
def good_jets_pythia (K : Kernel J) (s : Settings) (jet_def : JetDefinition) (jet_rad : ℚ)
    (particles : List J) : List J :=
  (considered s (all_jets K jet_def jet_rad particles)).filter (accepts K s)

/-- The list `good_jets` of the open-data branch: the one jet of the event. -/
def good_jets_opendata (K : Kernel J) (inp : Input J) (iev : Nat) : List J :=
  [join_all K (inp.cms_events iev)]

/-- The test guarding the `std::invalid_argument` of the open-data branch:
`not (jet_rads.size() == 1) and jet_rads[0] == 0.5`. -/
def opendata_radius_rejected (jet_rads : List ℚ) : Option Bool :=
  if !(jet_rads.length == 1) then
    (match jet_rads[0]? with
     | none => none
     | some r => some (r == 1/2))
  else some false

/-- The body of the loop on jet definitions. -/
def radius_body (K : Kernel J) (s : Settings) (inp : Input J) (iev : Nat)
    (particles : List J) (irad : Nat) : Block := fun w =>
  match s.radius_pairs[irad]? with
  | none => raise Err.bad_index w
  | some (jet_rad, sub_rad) =>
    let jet_def := process_JetDef s.jet_alg jet_rad s.jet_recomb
    let sub_def := process_JetDef s.sub_alg sub_rad s.sub_recomb
    if s.use_opendata then
      match opendata_radius_rejected s.jet_rads with
      | none => raise Err.bad_index w
      | some true => raise Err.opendata_radius w
      | some false =>
        forEach (jet_body K s irad sub_def) (good_jets_opendata K inp iev) w
    else
      forEach (jet_body K s irad sub_def)
        (good_jets_pythia K s jet_def jet_rad particles) w

/-- The loop on jet definitions, for one event. -/
def radius_loop (K : Kernel J) (s : Settings) (inp : Input J) (iev : Nat)
    (particles : List J) : Block :=
  forEach (radius_body K s inp iev particles) (List.range s.radius_pairs.length)

/-- The body of the event loop. -/
def event_body (K : Kernel J) (s : Settings) (inp : Input J) (iev : Nat) : Block :=
  seq (fun w => done { w with events_seen := w.events_seen + 1 })
    (if !s.use_opendata then
      (match inp.pythia iev with
       | none => done
       | some particles => radius_loop K s inp iev particles)
     else radius_loop K s inp iev [])

/-- The event loop `for (int iev = 0; iev < n_events; iev++)`. -/
def event_loop (K : Kernel J) (s : Settings) (inp : Input J) : Block :=
  forEach (event_body K s inp) (List.range s.n_events.toNat)

/-! ## Setup and output -/

/-- Apply `f` to every element, in order; `none` as soon as one application is. -/
def collect {α β : Type} (f : α → Option β) : List α → Option (List β)
  | [] => some []
  | a :: as =>
    match f a, collect f as with
    | some b, some bs => some (b :: bs)
    | _, _ => none

/-- The body of the setup loop: a histogram of `nbins` zeros is pushed and the
header of the output file is written. -/
def setup_body (s : Settings) (irad : Nat) : Block := fun w =>
  match s.radius_pairs[irad]? with
  | none => raise Err.bad_index w
  | some rad_pair =>
    if s.nbins < 0 then raise Err.length_error w
    else
      done { w with
        ewoc_hists := w.ewoc_hists ++ [List.replicate s.nbins.toNat 0],
        headers := w.headers ++ [rad_pair] }

/-- The setup loop over the radius pairs. -/
def setup_loop (s : Settings) : Block :=
  forEach (setup_body s) (List.range s.radius_pairs.length)

/-- An edge or center in physical units:
`lin_bins ? x : pow(10, x)`. -/
def physical (K : Kernel J) (s : Settings) (x : ℚ) : ℚ :=
  if s.lin_bins then x else K.pow 10 x

/-- The numbers written in the `bin_edges` block: the loop over
`ibin < nbins+1`, then the statement `outfile << bin_edges[nbins]`. -/
def emit_edges (K : Kernel J) (s : Settings) (bin_edges : List ℚ) : Option (List ℚ) :=
  match collect (fun ibin => (bin_edges[ibin]?).map (physical K s))
      (List.range (s.nbins + 1).toNat) with
  | none => none
  | some es =>
    if s.nbins < 0 then none
    else
      match bin_edges[s.nbins.toNat]? with
      | none => none
      | some last => some (es ++ [last])

/-- The numbers written in the `xs` block. -/
def emit_centers (K : Kernel J) (s : Settings) (bin_centers : List ℚ) : Option (List ℚ) :=
  collect (fun ibin => (bin_centers[ibin]?).map (physical K s)) (List.range s.nbins.toNat)

/-- The width `dX` of bin `ibin`. -/
def bin_width (K : Kernel J) (s : Settings) (bin_edges : List ℚ) (ibin : Nat) : Option ℚ :=
  match bin_edges[ibin + 1]?, bin_edges[ibin]? with
  | some hi, some lo => some (physical K s hi - physical K s lo)
  | _, _ => none

/-- The value `histval = hist[ibin]/(dX * njets_tot)`: the bin holds its
rational content `hist[ibin]` and the amounts `extra ibin` that were computed
through a division by zero. -/
def histval (K : Kernel J) (s : Settings) (bin_edges : List ℚ) (hist : Hist)
    (extra : Nat → Val) (njets_tot : Int) (ibin : Nat) : Option Val :=
  match bin_width K s bin_edges ibin, hist[ibin]? with
  | some dX, some raw => some (Val.over (Val.fin raw + extra ibin) (dX * (njets_tot : ℚ)))
  | _, _ => none

/-- The values written in the `ys` block. -/
def emit_values (K : Kernel J) (s : Settings) (bin_edges : List ℚ) (hist : Hist)
    (extra : Nat → Val) (njets_tot : Int) : Option (List Val) :=
  collect (histval K s bin_edges hist extra njets_tot) (List.range s.nbins.toNat)

/-- The body of the output loop: one file is opened and the three blocks are
appended to it. -/
def write_body (K : Kernel J) (s : Settings) (inp : Input J) (irad : Nat) : Block := fun w =>
  let bin_edges := K.get_bin_edges s.minbin s.maxbin s.nbins uflow oflow
  let bin_centers := K.get_bin_centers s.minbin s.maxbin s.nbins uflow oflow
  match s.radius_pairs[irad]?, w.ewoc_hists[irad]? with
  | some rad_pair, some hist =>
    if !inp.is_open rad_pair then raise Err.file_not_open w
    else
      match emit_edges K s bin_edges, emit_centers K s bin_centers,
          emit_values K s bin_edges hist (spill_total w.spills irad) w.njets_tot with
      | some es, some xs, some ys =>
        done { w with written := w.written ++ [⟨rad_pair.1, rad_pair.2, es, xs, ys⟩] }
      | _, _, _ => raise Err.bad_index w
  | _, _ => raise Err.bad_index w

/-- The output loop over the radius pairs. -/
def write_loop (K : Kernel J) (s : Settings) (inp : Input J) : Block :=
  forEach (write_body K s inp) (List.range s.radius_pairs.length)

/-- The check on the two term switches. -/
def check_terms (s : Settings) : Block := fun w =>
  if !s.pair_terms && !s.contact_terms then raise Err.no_terms w else done w

/-- The construction `std::vector<PseudoJets> cms_events(n_events)`. -/
def alloc_events (s : Settings) : Block := fun w =>
  if s.n_events < 0 then raise Err.length_error w else done w

/-- The statement `int njets_tot = 0`. -/
def reset_count : Block := fun w => done { w with njets_tot := 0 }

/-- The function `main`, from the check on the term switches on. -/
def main (K : Kernel J) (s : Settings) (inp : Input J) : Block :=
  seq (check_terms s)
    (seq (setup_loop s)
      (seq (alloc_events s)
        (seq reset_count
          (seq (event_loop K s inp) (write_loop K s inp)))))

/-- A run of the program. -/
def run (K : Kernel J) (s : Settings) (inp : Input J) : Outcome :=
  main K s inp World.init

/-! ## A concrete kernel: collinear massless particles

All particles are massless and move along the x axis, so a jet is given by the
energies of its particles: its energy, transverse momentum and momentum modulus
are their sum, its mass and pseudorapidity are 0, any two jets are at distance 0
and any clustering puts all particles into one jet. -/

/-- A jet of collinear massless particles: the energies of its particles. -/
abbrev CJet := List ℚ

/-- The function `pow` at integer exponents (1 elsewhere). -/
def pow_int (x y : ℚ) : ℚ := if y.den = 1 then x ^ y.num else 1

/-- The function `pow` at `+inf`, `-inf` and NaN as the C standard gives it:
`pow(x, 0)` is 1 for every `x`, a NaN stays a NaN, an infinity becomes 0 for a
negative exponent and an infinity for a positive one (negative for `-inf` and an
odd integer exponent). -/
def pow_special (x : Val) (y : ℚ) : Val :=
  if y = 0 then Val.fin 1
  else
    match x with
    | Val.fin q => Val.fin (pow_int q y)
    | Val.posInf => if 0 < y then Val.posInf else Val.fin 0
    | Val.negInf =>
      if 0 < y then (if y.den = 1 ∧ y.num % 2 = 1 then Val.negInf else Val.posInf)
      else Val.fin 0
    | Val.nan => Val.nan

/-- Uniform bins on `[minbin, maxbin)`, outflow folded into the first and the
last bin. -/
def uniform_bin (val : Val) (minbin maxbin : ℚ) (nbins : Int) : Int :=
  match val with
  | Val.fin v =>
    if v < minbin then 0
    else if maxbin ≤ v then nbins - 1
    else ⌊(v - minbin) / (maxbin - minbin) * (nbins : ℚ)⌋
  | Val.posInf => nbins - 1
  | Val.negInf => 0
  | Val.nan => 0

/-- The edges of `nbins` uniform bins on `[minbin, maxbin]`. -/
def uniform_edges (minbin maxbin : ℚ) (nbins : Int) : List ℚ :=
  (List.range (nbins.toNat + 1)).map
    (fun k => minbin + (k : ℚ) * (maxbin - minbin) / (nbins : ℚ))

/-- The centers of `nbins` uniform bins on `[minbin, maxbin]`. -/
def uniform_centers (minbin maxbin : ℚ) (nbins : Int) : List ℚ :=
  (List.range nbins.toNat).map
    (fun k => minbin + ((k : ℚ) + 1 / 2) * (maxbin - minbin) / (nbins : ℚ))

/-- The kernel of collinear massless particles. -/
def collinear : Kernel CJet where
  e := fun j => j.sum
  pt := fun j => j.sum
  eta := fun _ => 0
  m := fun _ => 0
  m2 := fun _ => 0
  modp := fun j => j.sum
  add := fun a b => a ++ b
  zero := []
  join := fun a b => a ++ b
  constituents := fun j => j.map (fun x => [x])
  delta_R := fun _ _ => 0
  theta := fun a b => if a.sum = 0 ∨ b.sum = 0 then none else some 0
  inclusive_jets := fun ps _ => if ps.flatten = [] then [] else [ps.flatten]
  sorted_by_E := fun js => js.insertionSort (fun a b => b.sum ≤ a.sum)
  sorted_by_pt := fun js => js.insertionSort (fun a b => b.sum ≤ a.sum)
  pow := pow_int
  pow_nonfinite := pow_special
  bin_position := fun val minbin maxbin nbins _ _ _ => uniform_bin val minbin maxbin nbins
  get_bin_edges := fun minbin maxbin nbins _ _ => uniform_edges minbin maxbin nbins
  get_bin_centers := fun minbin maxbin nbins _ _ => uniform_centers minbin maxbin nbins

/-- The settings of the two-subjet scenario: one configuration with subjet
radius 0, observable `mass_squared`, exponent 1, one linear bin on `[0, 1)`,
open-data input. -/
def scenario (pair_terms contact_terms : Bool) : Settings where
  n_events := 1
  pid_1 := 2212
  pid_2 := 2212
  jet_alg := "akt"
  sub_alg := "ca"
  radius_pairs := [(1/2, 0)]
  jet_recomb := "E_scheme"
  sub_recomb := "E_scheme"
  n_exclusive_jets := -1
  pt_min := 0
  pt_max := 1000
  eta_cut := 4
  pair_obs := "mass_squared"
  e_weight := 1
  pair_terms := pair_terms
  contact_terms := contact_terms
  nbins := 1
  minbin := 0
  maxbin := 1
  lin_bins := true
  use_opendata := true

/-- One event whose jet has energy 100 and two particles of energies 30
and 70. -/
def scenario_input : Input CJet where
  pythia := fun _ => some [[30], [70]]
  cms_events := fun _ => [[30], [70]]
  is_open := fun _ => true

/-! ## Notions used in the statements -/

/-- The fills a block has executed when started in `w` and ended in `o`. -/
def new_fills (w : World) (o : Outcome) : List Fill := o.world.fills.drop w.fills.length

/-- The index pair of a fill. -/
def Fill.pair (f : Fill) : Nat × Nat := (f.isub, f.jsub)

/-- The rational content of bin `k` of the histogram of configuration `irad`. -/
def World.bin (w : World) (irad k : Nat) : ℚ := (w.ewoc_hists.getD irad []).bin k

/-- The value of the `double` `ewoc_hists[irad][k]`: the IEEE sum of the
rational content of the bin and of the amounts added to it that were computed
through a division by zero. -/
def World.value (w : World) (irad k : Nat) : Val :=
  Val.fin (w.bin irad k) + spill_total w.spills irad k

/-- The fills through a division by zero a block has executed when started in
`w` and ended in `o`. -/
def new_spills (w : World) (o : Outcome) : List Spill := o.world.spills.drop w.spills.length

/-- The index pair of a fill through a division by zero. -/
def Spill.pair (g : Spill) : Nat × Nat := (g.isub, g.jsub)

/-- The sum of the amounts of the fills of `fs` that go to bin `k` of
configuration `irad`. -/
def bin_total (fs : List Fill) (irad k : Nat) : ℚ :=
  ((fs.filter (fun f => decide (f.irad = irad ∧ f.ibin = (k : Int)))).map Fill.amount).sum

/-- The kernel places every value in one of the `nbins` bins. -/
def BinsInRange (K : Kernel J) (s : Settings) : Prop :=
  ∀ val : Val,
    0 ≤ K.bin_position val s.minbin s.maxbin s.nbins s.bin_scheme uflow oflow ∧
    K.bin_position val s.minbin s.maxbin s.nbins s.bin_scheme uflow oflow < s.nbins

/-- The histogram of configuration `irad` exists and has `nbins` bins. -/
def HistReady (s : Settings) (irad : Nat) (w : World) : Prop :=
  ∃ h : Hist, w.ewoc_hists[irad]? = some h ∧ (h.length : Int) = s.nbins

/-- The fills a block executes are appended to the record and all satisfy `Q`. -/
def Emits (Q : Fill → Prop) (b : Block) : Prop :=
  ∀ w, ∃ fs, (b w).world.fills = w.fills ++ fs ∧ ∀ f ∈ fs, Q f

/-- The fill that the pair body executes for `(isub, jsub)` when nothing throws. -/
def pair_fill (K : Kernel J) (s : Settings) (irad : Nat) (jet : J) (isub jsub : Nat)
    (subjet1 subjet2 : J) (val : Val) : Fill :=
  ⟨irad, isub, jsub, degeneracy s isub jsub,
    K.pow (K.e subjet1 * K.e subjet2 / K.pow (K.e jet) 2) s.e_weight, val,
    K.bin_position val s.minbin s.maxbin s.nbins s.bin_scheme uflow oflow⟩

/-- Everything the pair body fixes about the fill it executes. -/
def PairFillSpec (K : Kernel J) (s : Settings) (irad : Nat) (jet : J) (subjets : List J)
    (isub jsub : Nat) (f : Fill) : Prop :=
  ∃ s1 s2 val, subjets[isub]? = some s1 ∧ subjets[jsub]? = some s2 ∧
    obs_val K s isub jsub s1 s2 = Except.ok val ∧ K.pow (K.e jet) 2 ≠ 0 ∧
    f = pair_fill K s irad jet isub jsub s1 s2 val

/-- What holds of every fill of the pair loop of one jet. -/
def LoopFillSpec (K : Kernel J) (s : Settings) (irad : Nat) (jet : J) (subjets : List J)
    (f : Fill) : Prop :=
  f.isub ≤ f.jsub ∧ f.jsub < subjets.length ∧
    PairFillSpec K s irad jet subjets f.isub f.jsub f

/-- The fill through a division by zero that the pair body executes for
`(isub, jsub)` when `pow(jet.e(), 2.)` is zero and nothing throws. -/
def pair_spill (K : Kernel J) (s : Settings) (irad : Nat) (jet : J) (isub jsub : Nat)
    (subjet1 subjet2 : J) (val : Val) : Spill :=
  ⟨irad, isub, jsub, degeneracy s isub jsub,
    K.pow_nonfinite (Val.div (K.e subjet1 * K.e subjet2) (K.pow (K.e jet) 2)) s.e_weight, val,
    K.bin_position val s.minbin s.maxbin s.nbins s.bin_scheme uflow oflow⟩

/-- Everything the pair body fixes about the fill through a division by zero it
executes. -/
def PairSpillSpec (K : Kernel J) (s : Settings) (irad : Nat) (jet : J) (subjets : List J)
    (isub jsub : Nat) (g : Spill) : Prop :=
  ∃ s1 s2 val, subjets[isub]? = some s1 ∧ subjets[jsub]? = some s2 ∧
    obs_val K s isub jsub s1 s2 = Except.ok val ∧ K.pow (K.e jet) 2 = 0 ∧
    g = pair_spill K s irad jet isub jsub s1 s2 val

/-- What holds of every fill through a division by zero of the pair loop of one
jet. -/
def LoopSpillSpec (K : Kernel J) (s : Settings) (irad : Nat) (jet : J) (subjets : List J)
    (g : Spill) : Prop :=
  g.isub ≤ g.jsub ∧ g.jsub < subjets.length ∧
    PairSpillSpec K s irad jet subjets g.isub g.jsub g

/-- The entries a block appends to the record `log` all satisfy `Q`. -/
def Logs {α : Type} (log : World → List α) (Q : α → Prop) (b : Block) : Prop :=
  ∀ w, ∃ xs, log (b w).world = log w ++ xs ∧ ∀ x ∈ xs, Q x

/-- The index pairs for which a block has executed the statement
`ewoc_hists[irad][ibin] += degeneracy*weight` when started in `w` and ended in
`o`: those of its fills, then those of its fills through a division by zero. In
the pair loop of one jet all are of one kind, so this is the order of
execution. -/
def evaluated (w : World) (o : Outcome) : List (Nat × Nat) :=
  (new_fills w o).map Fill.pair ++ (new_spills w o).map Spill.pair

/-- The index pairs in the order the two nested loops visit them. -/
def index_pairs (n : Nat) : List (Nat × Nat) :=
  (List.range n).flatMap (fun i => (jsub_range n i).map (fun j => (i, j)))

/-- A block that either throws and leaves the record `log` as it is, or
completes after appending exactly one entry to it, for the index pair `p`. -/
def OneEntry {α : Type} (log : World → List α) (tag : α → Nat × Nat) (p : Nat × Nat)
    (b : Block) : Prop :=
  ∀ w, ((b w).error ≠ none ∧ log (b w).world = log w) ∨
    ((b w).error = none ∧ ∃ x, log (b w).world = log w ++ [x] ∧ tag x = p)

/-- A state with one histogram of one empty bin. -/
def one_bin_world : World := ⟨[[0]], 0, [], [], [], 0, []⟩

/-- The fills a block executes are appended to the record, and every bin grows
by the sum of the amounts of the executed fills that go to it. -/
def Accumulates (b : Block) : Prop :=
  ∀ w, ∃ fs, (b w).world.fills = w.fills ++ fs ∧
    ∀ irad k, (b w).world.bin irad k = w.bin irad k + bin_total fs irad k

/-- The histograms of two states have the same sizes. -/
def SameShape (w w1 : World) : Prop :=
  w.ewoc_hists.map List.length = w1.ewoc_hists.map List.length

/-- The list `good_jets` of event `iev` and configuration `irad`: empty when
the event is skipped (`pythia.next()` failed). -/
def good_jets (K : Kernel J) (s : Settings) (inp : Input J) (iev irad : Nat) : List J :=
  match s.radius_pairs[irad]? with
  | none => []
  | some (jet_rad, _) =>
    if s.use_opendata then good_jets_opendata K inp iev
    else
      match inp.pythia iev with
      | none => []
      | some particles =>
        good_jets_pythia K s (process_JetDef s.jet_alg jet_rad s.jet_recomb) jet_rad particles

/-- The number of accepted jets of event `iev`, over all configurations. -/
def accepted_in_event (K : Kernel J) (s : Settings) (inp : Input J) (iev : Nat) : Nat :=
  ((List.range s.radius_pairs.length).map (fun irad => (good_jets K s inp iev irad).length)).sum

/-- The number of accepted jets, over all events and all configurations. -/
def accepted_jets (K : Kernel J) (s : Settings) (inp : Input J) : Nat :=
  ((List.range s.n_events.toNat).map (accepted_in_event K s inp)).sum

/-- A block that leaves `njets_tot` as it is. -/
def KeepsCount (b : Block) : Prop := ∀ w, (b w).world.njets_tot = w.njets_tot

/-- A block that increments `njets_tot` at most `c` times, and exactly `c` times
when it completes. -/
def Adds (c : Nat) (b : Block) : Prop :=
  ∀ w, w.njets_tot ≤ (b w).world.njets_tot ∧ (b w).world.njets_tot ≤ w.njets_tot + (c : Int) ∧
    ((b w).error = none → (b w).world.njets_tot = w.njets_tot + (c : Int))

/-- The count of an outcome is at most `n`, and is `n` if nothing was thrown. -/
def CountIs (n : Nat) (o : Outcome) : Prop :=
  o.world.njets_tot ≤ (n : Int) ∧ (o.error = none → o.world.njets_tot = (n : Int))

/-- The artifact `a` holds the normalised values of the histogram for the jet
count `njets_tot`: one value per bin, `value / (dX * njets_tot)` with `value`
the sum of the rational content `hist[k]` of the bin and of the amounts
`extra k` computed through a division by zero, and `dX` the width of bin `k` in
physical units. -/
def Normalised (K : Kernel J) (s : Settings) (hist : Hist) (extra : Nat → Val)
    (njets_tot : Int) (a : Artifact) : Prop :=
  a.ys.length = s.nbins.toNat ∧
  ∀ k, k < s.nbins.toNat → ∃ lo hi raw,
    (K.get_bin_edges s.minbin s.maxbin s.nbins uflow oflow)[k]? = some lo ∧
    (K.get_bin_edges s.minbin s.maxbin s.nbins uflow oflow)[k + 1]? = some hi ∧
    hist[k]? = some raw ∧
    a.ys[k]? = some (Val.over (Val.fin raw + extra k)
      ((if s.lin_bins then hi - lo else K.pow 10 hi - K.pow 10 lo) * (njets_tot : ℚ)))

/-- The artifact `a` is what the output loop writes for configuration `irad`
when the histograms are `hists`, the fills through a division by zero are
`spills` and the jet count is `njets_tot`. -/
def Emitted (K : Kernel J) (s : Settings) (hists : List Hist) (spills : List Spill)
    (njets_tot : Int) (irad : Nat) (a : Artifact) : Prop :=
  ∃ rad_pair hist es xs ys, s.radius_pairs[irad]? = some rad_pair ∧
    hists[irad]? = some hist ∧
    emit_edges K s (K.get_bin_edges s.minbin s.maxbin s.nbins uflow oflow) = some es ∧
    emit_centers K s (K.get_bin_centers s.minbin s.maxbin s.nbins uflow oflow) = some xs ∧
    emit_values K s (K.get_bin_edges s.minbin s.maxbin s.nbins uflow oflow) hist
      (spill_total spills irad) njets_tot = some ys ∧
    a = ⟨rad_pair.1, rad_pair.2, es, xs, ys⟩

/-- A block that leaves the written output as it is. -/
def KeepsWritten (b : Block) : Prop := ∀ w, (b w).world.written = w.written

/-- A block that never throws the error of the check on the term switches. -/
def NeverNoTerms (b : Block) : Prop := ∀ w, (b w).error ≠ some Err.no_terms

/-- Modelled from the spec: the catalog of observable names of its section 4.2. -/
def catalog : List String :=
  ["mass", "m", "mass_squared", "mass2", "m2", "theta", "theta2", "deltaR", "deltaR2",
   "formtime", "formation_time", "tau"]

/-- The two-subjet scenario with Pythia input, an observable name outside the
catalog and the given lower bound on the jet pt. -/
def unknown_obs_scenario (pt_min : ℚ) : Settings :=
  { scenario true true with pair_obs := "bogus", use_opendata := false, pt_min := pt_min }

/-- The two-subjet scenario with the observable name `m`. -/
def mass_alias_scenario : Settings := { scenario true true with pair_obs := "m" }

/-- The two-subjet scenario with Pythia input and jets accepted from pt 20. -/
def pythia_scenario : Settings :=
  { scenario true true with use_opendata := false, pt_min := 20 }

/-- The two-subjet scenario with open-data input, the cut `pt_min = 200` and
the given beam particle ids. -/
def opendata_cut_scenario (pid_1 pid_2 : Int) : Settings :=
  { scenario true true with pid_1 := pid_1, pid_2 := pid_2, pt_min := 200 }

/-- The two-subjet scenario with Pythia input: jets are accepted from pt 0. -/
def zero_energy_scenario : Settings := { scenario true true with use_opendata := false }

/-- One event with one particle of energy 0: its jet has energy 0 and one
subjet of energy 0. -/
def zero_energy_input : Input CJet where
  pythia := fun _ => some [[0]]
  cms_events := fun _ => [[0]]
  is_open := fun _ => true

/-- The two-subjet scenario with logarithmic bins: one bin whose edges are
stored as 0 and 1, that is from 1 to 10 in physical units. -/
def log_scenario : Settings := { scenario true true with lin_bins := false }

/-- The two-subjet scenario, open-data input, with the given radius pairs. -/
def opendata_radii_scenario (radius_pairs : List (ℚ × ℚ)) : Settings :=
  { scenario true true with radius_pairs := radius_pairs }

/-- A block that executes no fill through a division by zero. -/
def KeepsSpills (b : Block) : Prop := ∀ w, (b w).world.spills = w.spills

/-- The sum of the bins of the histogram of configuration `irad`. -/
def World.total (w : World) (irad : Nat) : ℚ := (w.ewoc_hists.getD irad []).sum

/-- A block that leaves the sizes of the histograms as they are. -/
def KeepsShape (b : Block) : Prop := ∀ w, SameShape w (b w).world

/-- The sum of `p a b` over the pairs of an element `a` of the list and a later
element `b`. -/
def pair_sum {α M : Type} [AddCommMonoid M] (p : α → α → M) : List α → M
  | [] => 0
  | x :: l => (l.map (p x)).sum + pair_sum p l

/-- What the pair loop adds to bin `k` of configuration `r` for two subjets `a`
and `b` of the jet (`b` is `a` for a contact term); 0 when the observable
throws. -/
def contribution (K : Kernel J) (s : Settings) (irad : Nat) (jet : J) (r k : Nat)
    (contact : Bool) (a b : J) : ℚ :=
  match (if contact then contact_val K s.pair_obs a else pair_val K s.pair_obs a b) with
  | Except.ok val =>
    if irad = r ∧ K.bin_position val s.minbin s.maxbin s.nbins s.bin_scheme uflow oflow
        = (k : Int) then
      (((if contact then (if s.contact_terms then 1 else 0)
          else (if s.pair_terms then 2 else 0) : Int) : ℚ)
        * K.pow (K.e a * K.e b / K.pow (K.e jet) 2) s.e_weight)
    else 0
  | Except.error _ => 0

/-- What the pair loop of a jet with `pow(E_jet, 2.) = 0` adds to bin `k` of
configuration `r` for two subjets `a` and `b` of the jet (`b` is `a` for a
contact term); 0 when the observable throws. -/
def spill_contribution (K : Kernel J) (s : Settings) (irad : Nat) (jet : J) (r k : Nat)
    (contact : Bool) (a b : J) : Val :=
  match (if contact then contact_val K s.pair_obs a else pair_val K s.pair_obs a b) with
  | Except.ok val =>
    if irad = r ∧ K.bin_position val s.minbin s.maxbin s.nbins s.bin_scheme uflow oflow
        = (k : Int) then
      Val.scale (((if contact then (if s.contact_terms then 1 else 0)
          else (if s.pair_terms then 2 else 0) : Int) : ℚ))
        (K.pow_nonfinite (Val.div (K.e a * K.e b) (K.pow (K.e jet) 2)) s.e_weight)
    else Val.fin 0
  | Except.error _ => Val.fin 0

/-- The amount of a pair of subjets of energies `E_a`, `E_b` in a jet of energy
`E_jet` for exponent 1 and both term kinds enabled: `E_a E_b / E_jet ^ 2`, once
for a contact term and twice for a genuine pair. -/
def sum_rule_term (K : Kernel J) (jet : J) (contact : Bool) (a b : J) : ℚ :=
  if contact then 1 * (K.e a * K.e b / (K.e jet) ^ 2)
  else 2 * (K.e a * K.e b / (K.e jet) ^ 2)

/-- The sum of the amounts of the fills of `fs` that go to configuration `r`. -/
def amount_total (fs : List Fill) (r : Nat) : ℚ :=
  ((fs.filter (fun f => decide (f.irad = r))).map Fill.amount).sum

/-- The number of jets processed for configuration `irad`, over all events. -/
def processed_jets (K : Kernel J) (s : Settings) (inp : Input J) (irad : Nat) : Nat :=
  ((List.range s.n_events.toNat).map (fun iev => (good_jets K s inp iev irad).length)).sum

/-- Every jet the run processes has a non-zero energy, which is the sum of the
energies of its subjets. -/
def SubjetsCarryEnergy (K : Kernel J) (s : Settings) (inp : Input J) : Prop :=
  ∀ iev irad jet_rad sub_rad jet, s.radius_pairs[irad]? = some (jet_rad, sub_rad) →
    jet ∈ good_jets K s inp iev irad →
    K.e jet ≠ 0 ∧
    ((get_subjets K (process_JetDef s.sub_alg sub_rad s.sub_recomb) jet).map K.e).sum = K.e jet

/-- A block that, when it completes, has appended fills whose amounts for
configuration `r` sum to `c r`. -/
def Gains (c : Nat → ℚ) (b : Block) : Prop :=
  ∀ w, (b w).error = none →
    ∃ fs, (b w).world.fills = w.fills ++ fs ∧ ∀ r, amount_total fs r = c r

/-- Every recorded fill went to an existing bin of its histogram. -/
def FillsInRange (w : World) : Prop :=
  ∀ f ∈ w.fills, 0 ≤ f.ibin ∧ f.ibin.toNat < (w.ewoc_hists.getD f.irad []).length

/-! ## Sequencing and loops -/

theorem seq_ok {a b : Block} {w w1 : World} (h : a w = ⟨w1, none⟩) : seq a b w = b w1 := by
  simp [seq, h]

theorem seq_err {a b : Block} {w w1 : World} {err : Err} (h : a w = ⟨w1, some err⟩) :
    seq a b w = ⟨w1, some err⟩ := by
  simp [seq, h]

theorem seq_cases (a b : Block) (w : World) :
    ((a w).error = none ∧ seq a b w = b (a w).world) ∨
    ((a w).error ≠ none ∧ seq a b w = a w) := by
  rcases h : a w with ⟨w1, _ | err⟩
  · left; simp [seq, h]
  · right; simp [seq, h]

theorem forEach_nil {α : Type} (body : α → Block) (w : World) :
    forEach body [] w = done w := rfl

theorem forEach_cons {α : Type} (body : α → Block) (x : α) (xs : List α) :
    forEach body (x :: xs) = seq (body x) (forEach body xs) := rfl

theorem seq_done_left (b : Block) (w : World) : seq done b w = b w := rfl

theorem seq_assoc (a b c : Block) : seq (seq a b) c = seq a (seq b c) := by
  funext w
  rcases h : a w with ⟨w1, _ | err⟩
  · simp [seq, h]
  · simp [seq, h]

theorem forEach_append {α : Type} (body : α → Block) (xs ys : List α) :
    forEach body (xs ++ ys) = seq (forEach body xs) (forEach body ys) := by
  induction xs with
  | nil => funext w; simp [forEach_nil, seq, done]
  | cons x xs ih => simp only [List.cons_append, forEach_cons, ih, seq_assoc]

theorem emits_seq {Q : Fill → Prop} {a b : Block} (ha : Emits Q a) (hb : Emits Q b) :
    Emits Q (seq a b) := by
  intro w
  obtain ⟨fs, hfs, hq⟩ := ha w
  rcases seq_cases a b w with ⟨_, h⟩ | ⟨_, h⟩
  · obtain ⟨gs, hgs, hq2⟩ := hb (a w).world
    refine ⟨fs ++ gs, ?_, ?_⟩
    · rw [h, hgs, hfs, List.append_assoc]
    · intro f hf
      rcases List.mem_append.mp hf with hf | hf
      · exact hq f hf
      · exact hq2 f hf
  · exact ⟨fs, by rw [h, hfs], hq⟩

theorem emits_forEach {α : Type} {Q : Fill → Prop} {body : α → Block} {xs : List α}
    (h : ∀ x ∈ xs, Emits Q (body x)) : Emits Q (forEach body xs) := by
  induction xs with
  | nil => intro w; exact ⟨[], by simp [forEach_nil, done], by simp⟩
  | cons x xs ih =>
    rw [forEach_cons]
    exact emits_seq (h x (List.mem_cons_self x xs))
      (ih (fun y hy => h y (List.mem_cons_of_mem x hy)))

theorem emits_of_fills_eq {Q : Fill → Prop} {b : Block}
    (h : ∀ w, (b w).world.fills = w.fills) : Emits Q b := by
  intro w
  exact ⟨[], by simp [h w], by simp⟩

theorem emits_on_new {Q : Fill → Prop} {b : Block} (h : Emits Q b) (w : World) :
    ∀ f ∈ new_fills w (b w), Q f := by
  obtain ⟨fs, hfs, hq⟩ := h w
  intro f hf
  have : new_fills w (b w) = fs := by
    unfold new_fills
    rw [hfs, List.drop_left]
  rw [this] at hf
  exact hq f hf

theorem emits_mono {Q R : Fill → Prop} {b : Block} (h : Emits Q b)
    (hqr : ∀ f, Q f → R f) : Emits R b := by
  intro w
  obtain ⟨fs, hfs, hq⟩ := h w
  exact ⟨fs, hfs, fun f hf => hqr f (hq f hf)⟩

theorem logs_seq {α : Type} {log : World → List α} {Q : α → Prop} {a b : Block}
    (ha : Logs log Q a) (hb : Logs log Q b) : Logs log Q (seq a b) := by
  intro w
  obtain ⟨xs, hxs, hq⟩ := ha w
  rcases seq_cases a b w with ⟨_, h⟩ | ⟨_, h⟩
  · obtain ⟨ys, hys, hq2⟩ := hb (a w).world
    refine ⟨xs ++ ys, ?_, ?_⟩
    · rw [h, hys, hxs, List.append_assoc]
    · intro x hx
      rcases List.mem_append.mp hx with hx | hx
      · exact hq x hx
      · exact hq2 x hx
  · exact ⟨xs, by rw [h, hxs], hq⟩

theorem logs_of_eq {α : Type} {log : World → List α} {Q : α → Prop} {b : Block}
    (h : ∀ w, log (b w).world = log w) : Logs log Q b := by
  intro w
  exact ⟨[], by simp [h w], by simp⟩

theorem logs_mono {α : Type} {log : World → List α} {Q R : α → Prop} {b : Block}
    (h : Logs log Q b) (hqr : ∀ x, Q x → R x) : Logs log R b := by
  intro w
  obtain ⟨xs, hxs, hq⟩ := h w
  exact ⟨xs, hxs, fun x hx => hqr x (hq x hx)⟩

theorem logs_on_new_spills {Q : Spill → Prop} {b : Block} (h : Logs World.spills Q b)
    (w : World) : (b w).world.spills = w.spills ++ new_spills w (b w) ∧
      ∀ g ∈ new_spills w (b w), Q g := by
  obtain ⟨gs, hgs, hq⟩ := h w
  have : new_spills w (b w) = gs := by
    unfold new_spills
    rw [hgs, List.drop_left]
  rw [this]
  exact ⟨hgs, hq⟩

/-! ## The fill and the pair body -/

theorem fill_cases (f : Fill) (w : World) :
    fill f w = raise Err.bad_index w ∨
    ∃ h h1, w.ewoc_hists[f.irad]? = some h ∧ h.add f.ibin f.amount = some h1 ∧
      fill f w = done { w with ewoc_hists := w.ewoc_hists.set f.irad h1,
                               fills := w.fills ++ [f] } := by
  unfold fill
  rcases h : w.ewoc_hists[f.irad]? with _ | h0
  · left; rfl
  · rcases h1 : Hist.add h0 f.ibin f.amount with _ | h2
    · left; simp [h1]
    · right; exact ⟨h0, h2, rfl, h1, by simp [h1]⟩

theorem spill_cases (g : Spill) (w : World) :
    spill g w = raise Err.bad_index w ∨
    ∃ h, w.ewoc_hists[g.irad]? = some h ∧ (0 ≤ g.ibin ∧ g.ibin.toNat < h.length) ∧
      spill g w = done { w with spills := w.spills ++ [g] } := by
  unfold spill
  rcases h : w.ewoc_hists[g.irad]? with _ | h0
  · left; rfl
  · by_cases hidx : 0 ≤ g.ibin ∧ g.ibin.toNat < h0.length
    · right; exact ⟨h0, rfl, hidx, by simp [hidx]⟩
    · left; simp [hidx]

theorem fill_spills (f : Fill) (w : World) : (fill f w).world.spills = w.spills := by
  rcases fill_cases f w with hf | ⟨_, _, _, _, hf⟩ <;> rw [hf] <;> rfl

/-- A fill through a division by zero changes nothing but the record of these
fills. -/
theorem spill_same (g : Spill) (w : World) :
    (spill g w).world.fills = w.fills ∧ (spill g w).world.ewoc_hists = w.ewoc_hists ∧
    (spill g w).world.njets_tot = w.njets_tot ∧ (spill g w).world.written = w.written ∧
    (spill g w).error ≠ some Err.no_terms := by
  rcases spill_cases g w with hg | ⟨_, _, _, hg⟩ <;> rw [hg] <;>
    exact ⟨rfl, rfl, rfl, rfl, by simp [raise, done]⟩

theorem pair_body_cases (K : Kernel J) (s : Settings) (irad : Nat) (jet : J)
    (subjets : List J) (isub jsub : Nat) (w : World) :
    (∃ err, pair_body K s irad jet subjets isub jsub w = raise err w) ∨
    (∃ s1 s2 val, subjets[isub]? = some s1 ∧ subjets[jsub]? = some s2 ∧
      obs_val K s isub jsub s1 s2 = Except.ok val ∧ K.pow (K.e jet) 2 ≠ 0 ∧
      pair_body K s irad jet subjets isub jsub w
        = fill (pair_fill K s irad jet isub jsub s1 s2 val) w) ∨
    (∃ s1 s2 val, subjets[isub]? = some s1 ∧ subjets[jsub]? = some s2 ∧
      obs_val K s isub jsub s1 s2 = Except.ok val ∧ K.pow (K.e jet) 2 = 0 ∧
      pair_body K s irad jet subjets isub jsub w
        = spill (pair_spill K s irad jet isub jsub s1 s2 val) w) := by
  unfold pair_body
  rcases h1 : subjets[isub]? with _ | s1
  · left; exact ⟨Err.bad_index, rfl⟩
  rcases h2 : subjets[jsub]? with _ | s2
  · left; exact ⟨Err.bad_index, rfl⟩
  rcases h3 : obs_val K s isub jsub s1 s2 with err | val
  · left; exact ⟨err, by simp [h3]⟩
  by_cases h4 : K.pow (K.e jet) 2 = 0
  · right; right
    exact ⟨s1, s2, val, rfl, rfl, h3, h4, by simp [h3, h4, pair_spill]⟩
  · right; left
    exact ⟨s1, s2, val, rfl, rfl, h3, h4, by simp [h3, h4, pair_fill]⟩

/-- Whatever the pair body does with the record of fills through a division by
zero, it does with a fill or with such a fill. -/
theorem pair_body_same (K : Kernel J) (s : Settings) (irad : Nat) (jet : J)
    (subjets : List J) (isub jsub : Nat) (w : World) :
    (pair_body K s irad jet subjets isub jsub w).world.njets_tot = w.njets_tot ∧
    (pair_body K s irad jet subjets isub jsub w).world.written = w.written ∧
    (K.pow (K.e jet) 2 ≠ 0 →
      (pair_body K s irad jet subjets isub jsub w).world.spills = w.spills) ∧
    (K.pow (K.e jet) 2 = 0 →
      (pair_body K s irad jet subjets isub jsub w).world.fills = w.fills ∧
      (pair_body K s irad jet subjets isub jsub w).world.ewoc_hists = w.ewoc_hists) := by
  rcases pair_body_cases K s irad jet subjets isub jsub w with ⟨err, h⟩ |
    ⟨s1, s2, val, _, _, _, h4, h5⟩ | ⟨s1, s2, val, _, _, _, h4, h5⟩
  · rw [h]
    exact ⟨rfl, rfl, fun _ => rfl, fun _ => ⟨rfl, rfl⟩⟩
  · rw [h5]
    refine ⟨?_, ?_, fun _ => fill_spills _ w, fun h0 => absurd h0 h4⟩
    · rcases fill_cases (pair_fill K s irad jet isub jsub s1 s2 val) w with hf | ⟨_, _, _, _, hf⟩
        <;> rw [hf] <;> rfl
    · rcases fill_cases (pair_fill K s irad jet isub jsub s1 s2 val) w with hf | ⟨_, _, _, _, hf⟩
        <;> rw [hf] <;> rfl
  · rw [h5]
    obtain ⟨e1, e2, e3, e4, _⟩ := spill_same (pair_spill K s irad jet isub jsub s1 s2 val) w
    exact ⟨e3, e4, fun h0 => absurd h4 h0, fun _ => ⟨e1, e2⟩⟩

theorem pair_body_emits (K : Kernel J) (s : Settings) (irad : Nat) (jet : J)
    (subjets : List J) (isub jsub : Nat) :
    Emits (PairFillSpec K s irad jet subjets isub jsub)
      (pair_body K s irad jet subjets isub jsub) := by
  intro w
  rcases pair_body_cases K s irad jet subjets isub jsub w with ⟨err, h⟩ |
    ⟨s1, s2, val, h1, h2, h3, h4, h5⟩ | ⟨s1, s2, val, _, _, _, _, h5⟩
  · exact ⟨[], by simp [h, raise], by simp⟩
  rotate_left
  · exact ⟨[], by rw [h5, (spill_same _ w).1]; simp, by simp⟩
  · rcases fill_cases (pair_fill K s irad jet isub jsub s1 s2 val) w with hf | ⟨h, h', _, _, hf⟩
    · exact ⟨[], by simp [h5, hf, raise], by simp⟩
    · refine ⟨[pair_fill K s irad jet isub jsub s1 s2 val], by simp [h5, hf, done], ?_⟩
      intro f hf
      rw [List.mem_singleton] at hf
      exact ⟨s1, s2, val, h1, h2, h3, h4, hf⟩

theorem pair_body_spills (K : Kernel J) (s : Settings) (irad : Nat) (jet : J)
    (subjets : List J) (isub jsub : Nat) :
    Logs World.spills (PairSpillSpec K s irad jet subjets isub jsub)
      (pair_body K s irad jet subjets isub jsub) := by
  intro w
  rcases pair_body_cases K s irad jet subjets isub jsub w with ⟨err, h⟩ |
    ⟨s1, s2, val, _, _, _, _, h5⟩ | ⟨s1, s2, val, h1, h2, h3, h4, h5⟩
  · exact ⟨[], by simp [h, raise], by simp⟩
  · exact ⟨[], by rw [h5, fill_spills]; simp, by simp⟩
  · rcases spill_cases (pair_spill K s irad jet isub jsub s1 s2 val) w with hg | ⟨_, _, _, hg⟩
    · exact ⟨[], by simp [h5, hg, raise], by simp⟩
    · refine ⟨[pair_spill K s irad jet isub jsub s1 s2 val], by simp [h5, hg, done], ?_⟩
      intro g hg
      rw [List.mem_singleton] at hg
      exact ⟨s1, s2, val, h1, h2, h3, h4, hg⟩

theorem mem_jsub_range {n isub jsub : Nat} :
    jsub ∈ jsub_range n isub ↔ isub ≤ jsub ∧ jsub < n := by
  unfold jsub_range
  rw [List.mem_range'_1]
  omega

theorem pair_loop_emits (K : Kernel J) (s : Settings) (irad : Nat) (jet : J)
    (subjets : List J) :
    Emits (LoopFillSpec K s irad jet subjets) (pair_loop K s irad jet subjets) := by
  unfold pair_loop
  apply emits_forEach
  intro isub _
  apply emits_forEach
  intro jsub hj
  apply emits_mono (pair_body_emits K s irad jet subjets isub jsub)
  intro f hf
  have hij := mem_jsub_range.mp hj
  obtain ⟨s1, s2, val, h1, h2, h3, h4, h5⟩ := hf
  have e1 : f.isub = isub := by rw [h5]; rfl
  have e2 : f.jsub = jsub := by rw [h5]; rfl
  refine ⟨by omega, by omega, ?_⟩
  rw [e1, e2]
  exact ⟨s1, s2, val, h1, h2, h3, h4, h5⟩

/-! ## Induction over the structure of `main` -/

theorem forEach_induct {α : Type} {P : Block → Prop}
    (hseq : ∀ a b, P a → P b → P (seq a b)) (hdone : P done)
    {body : α → Block} {xs : List α} (h : ∀ x ∈ xs, P (body x)) : P (forEach body xs) := by
  induction xs with
  | nil => exact hdone
  | cons x xs ih =>
    rw [forEach_cons]
    exact hseq _ _ (h x (List.mem_cons_self x xs))
      (ih (fun y hy => h y (List.mem_cons_of_mem x hy)))

theorem pair_loop_induct {P : Block → Prop}
    (hseq : ∀ a b, P a → P b → P (seq a b)) (hdone : P done)
    (K : Kernel J) (s : Settings) (irad : Nat) (jet : J) (subjets : List J)
    (hpair : ∀ isub jsub, isub ≤ jsub → jsub < subjets.length →
      P (pair_body K s irad jet subjets isub jsub)) :
    P (pair_loop K s irad jet subjets) := by
  unfold pair_loop
  apply forEach_induct hseq hdone
  intro isub _
  apply forEach_induct hseq hdone
  intro jsub hj
  exact hpair isub jsub (mem_jsub_range.mp hj).1 (mem_jsub_range.mp hj).2

theorem radius_body_eq (K : Kernel J) (s : Settings) (inp : Input J) (iev : Nat)
    (particles : List J) (irad : Nat) :
    radius_body K s inp iev particles irad =
      match s.radius_pairs[irad]? with
      | none => raise Err.bad_index
      | some (jet_rad, sub_rad) =>
        if s.use_opendata then
          match opendata_radius_rejected s.jet_rads with
          | none => raise Err.bad_index
          | some true => raise Err.opendata_radius
          | some false =>
            forEach (jet_body K s irad (process_JetDef s.sub_alg sub_rad s.sub_recomb))
              (good_jets_opendata K inp iev)
        else
          forEach (jet_body K s irad (process_JetDef s.sub_alg sub_rad s.sub_recomb))
            (good_jets_pythia K s (process_JetDef s.jet_alg jet_rad s.jet_recomb) jet_rad
              particles) := by
  funext w
  unfold radius_body
  rcases s.radius_pairs[irad]? with _ | ⟨jet_rad, sub_rad⟩
  · rfl
  · dsimp only
    by_cases hod : s.use_opendata = true
    · simp only [hod, if_true]
      rcases opendata_radius_rejected s.jet_rads with _ | _ | _ <;> rfl
    · simp only [hod]
      rfl

theorem radius_body_induct {P : Block → Prop}
    (hseq : ∀ a b, P a → P b → P (seq a b)) (hdone : P done)
    (hraise : ∀ err, err ≠ Err.no_terms → P (raise err))
    (K : Kernel J) (s : Settings) (inp : Input J) (iev : Nat) (particles : List J)
    (irad : Nat)
    (hjet : ∀ sub_def jet, P (jet_body K s irad sub_def jet)) :
    P (radius_body K s inp iev particles irad) := by
  rw [radius_body_eq]
  rcases s.radius_pairs[irad]? with _ | ⟨jet_rad, sub_rad⟩
  · exact hraise _ (by decide)
  · dsimp only
    split
    · rcases opendata_radius_rejected s.jet_rads with _ | _ | _
      · exact hraise _ (by decide)
      · exact forEach_induct hseq hdone (fun jet _ => hjet _ jet)
      · exact hraise _ (by decide)
    · exact forEach_induct hseq hdone (fun jet _ => hjet _ jet)

theorem event_loop_induct {P : Block → Prop}
    (hseq : ∀ a b, P a → P b → P (seq a b)) (hdone : P done)
    (hraise : ∀ err, err ≠ Err.no_terms → P (raise err))
    (K : Kernel J) (s : Settings) (inp : Input J)
    (hseen : P (fun w => done { w with events_seen := w.events_seen + 1 }))
    (hjet : ∀ irad sub_def jet, P (jet_body K s irad sub_def jet)) :
    P (event_loop K s inp) := by
  have hrad : ∀ iev particles, P (radius_loop K s inp iev particles) := by
    intro iev particles
    exact forEach_induct hseq hdone
      (fun irad _ => radius_body_induct hseq hdone hraise K s inp iev particles irad
        (hjet irad))
  unfold event_loop
  apply forEach_induct hseq hdone
  intro iev _
  unfold event_body
  apply hseq _ _ hseen
  split
  · rcases inp.pythia iev with _ | particles
    · exact hdone
    · exact hrad _ _
  · exact hrad _ _

theorem check_terms_eq (s : Settings) :
    check_terms s = if !s.pair_terms && !s.contact_terms then raise Err.no_terms else done := by
  funext w
  unfold check_terms
  split <;> rfl

theorem alloc_events_eq (s : Settings) :
    alloc_events s = if s.n_events < 0 then raise Err.length_error else done := by
  funext w
  unfold alloc_events
  split <;> rfl

theorem main_induct {P : Block → Prop}
    (hseq : ∀ a b, P a → P b → P (seq a b)) (hdone : P done) (hraise : ∀ err, P (raise err))
    (K : Kernel J) (s : Settings) (inp : Input J)
    (hsetup : ∀ irad, P (setup_body s irad))
    (hreset : P reset_count)
    (hseen : P (fun w => done { w with events_seen := w.events_seen + 1 }))
    (hjet : ∀ irad sub_def jet, P (jet_body K s irad sub_def jet))
    (hwrite : ∀ irad, P (write_body K s inp irad)) :
    P (main K s inp) := by
  unfold main
  refine hseq _ _ ?_ (hseq _ _ ?_ (hseq _ _ ?_ (hseq _ _ hreset (hseq _ _
    (event_loop_induct hseq hdone (fun err _ => hraise err) K s inp hseen hjet) ?_))))
  · rw [check_terms_eq]; split
    · exact hraise _
    · exact hdone
  · exact forEach_induct hseq hdone (fun irad _ => hsetup irad)
  · rw [alloc_events_eq]; split
    · exact hraise _
    · exact hdone
  · exact forEach_induct hseq hdone (fun irad _ => hwrite irad)

/-! ## Induction over the processed jets -/

theorem radius_body_induct_mem {P : Block → Prop}
    (hseq : ∀ a b, P a → P b → P (seq a b)) (hdone : P done)
    (hraise : ∀ err, err ≠ Err.no_terms → P (raise err))
    (K : Kernel J) (s : Settings) (inp : Input J) (iev : Nat) (particles : List J)
    (irad : Nat) (hp : s.use_opendata = false → inp.pythia iev = some particles)
    (hjet : ∀ jet_rad sub_rad jet, s.radius_pairs[irad]? = some (jet_rad, sub_rad) →
      jet ∈ good_jets K s inp iev irad →
      P (jet_body K s irad (process_JetDef s.sub_alg sub_rad s.sub_recomb) jet)) :
    P (radius_body K s inp iev particles irad) := by
  rw [radius_body_eq]
  unfold good_jets at hjet
  rcases hr : s.radius_pairs[irad]? with _ | ⟨jet_rad, sub_rad⟩
  · exact hraise _ (by decide)
  · dsimp only
    have hjet2 := hjet jet_rad sub_rad
    rw [hr] at hjet2
    dsimp only at hjet2
    by_cases hod : s.use_opendata = true
    · simp only [hod, if_true] at hjet2 ⊢
      rcases opendata_radius_rejected s.jet_rads with _ | _ | _
      · exact hraise _ (by decide)
      · exact forEach_induct hseq hdone (fun jet hm => hjet2 jet trivial hm)
      · exact hraise _ (by decide)
    · have hod2 : s.use_opendata = false := by simpa using hod
      simp only [hod2, hp hod2] at hjet2 ⊢
      exact forEach_induct hseq hdone (fun jet hm => hjet2 jet trivial hm)

theorem event_body_induct_mem {P : Block → Prop}
    (hseq : ∀ a b, P a → P b → P (seq a b)) (hdone : P done)
    (hraise : ∀ err, err ≠ Err.no_terms → P (raise err))
    (K : Kernel J) (s : Settings) (inp : Input J) (iev : Nat)
    (hseen : P (fun w => done { w with events_seen := w.events_seen + 1 }))
    (hjet : ∀ irad jet_rad sub_rad jet, s.radius_pairs[irad]? = some (jet_rad, sub_rad) →
      jet ∈ good_jets K s inp iev irad →
      P (jet_body K s irad (process_JetDef s.sub_alg sub_rad s.sub_recomb) jet)) :
    P (event_body K s inp iev) := by
  have hrad : ∀ particles, (s.use_opendata = false → inp.pythia iev = some particles) →
      P (radius_loop K s inp iev particles) := by
    intro particles hp
    exact forEach_induct hseq hdone
      (fun irad _ => radius_body_induct_mem hseq hdone hraise K s inp iev particles irad hp
        (hjet irad))
  unfold event_body
  apply hseq _ _ hseen
  by_cases hod : s.use_opendata = true
  · simp only [hod]
    exact hrad [] (fun h => by rw [hod] at h; exact Bool.noConfusion h)
  · have hod2 : s.use_opendata = false := by simpa using hod
    simp only [hod2]
    rcases hpy : inp.pythia iev with _ | particles
    · exact hdone
    · exact hrad particles (fun _ => hpy)

theorem event_loop_induct_mem {P : Block → Prop}
    (hseq : ∀ a b, P a → P b → P (seq a b)) (hdone : P done)
    (hraise : ∀ err, err ≠ Err.no_terms → P (raise err))
    (K : Kernel J) (s : Settings) (inp : Input J)
    (hseen : P (fun w => done { w with events_seen := w.events_seen + 1 }))
    (hjet : ∀ iev irad jet_rad sub_rad jet, s.radius_pairs[irad]? = some (jet_rad, sub_rad) →
      jet ∈ good_jets K s inp iev irad →
      P (jet_body K s irad (process_JetDef s.sub_alg sub_rad s.sub_recomb) jet)) :
    P (event_loop K s inp) := by
  unfold event_loop
  exact forEach_induct hseq hdone
    (fun iev _ => event_body_induct_mem hseq hdone hraise K s inp iev hseen (hjet iev))

theorem main_induct_mem {P : Block → Prop}
    (hseq : ∀ a b, P a → P b → P (seq a b)) (hdone : P done) (hraise : ∀ err, P (raise err))
    (K : Kernel J) (s : Settings) (inp : Input J)
    (hsetup : ∀ irad, P (setup_body s irad))
    (hreset : P reset_count)
    (hseen : P (fun w => done { w with events_seen := w.events_seen + 1 }))
    (hjet : ∀ iev irad jet_rad sub_rad jet, s.radius_pairs[irad]? = some (jet_rad, sub_rad) →
      jet ∈ good_jets K s inp iev irad →
      P (jet_body K s irad (process_JetDef s.sub_alg sub_rad s.sub_recomb) jet))
    (hwrite : ∀ irad, P (write_body K s inp irad)) :
    P (main K s inp) := by
  unfold main
  refine hseq _ _ ?_ (hseq _ _ ?_ (hseq _ _ ?_ (hseq _ _ hreset (hseq _ _
    (event_loop_induct_mem hseq hdone (fun err _ => hraise err) K s inp hseen hjet) ?_))))
  · rw [check_terms_eq]; split
    · exact hraise _
    · exact hdone
  · exact forEach_induct hseq hdone (fun irad _ => hsetup irad)
  · rw [alloc_events_eq]; split
    · exact hraise _
    · exact hdone
  · exact forEach_induct hseq hdone (fun irad _ => hwrite irad)

/-! ## The record of fills over a whole run -/

theorem jet_body_emits (K : Kernel J) (s : Settings) (irad : Nat) (sub_def : JetDefinition)
    (jet : J) :
    Emits (LoopFillSpec K s irad jet (get_subjets K sub_def jet))
      (jet_body K s irad sub_def jet) := by
  unfold jet_body
  exact emits_seq (emits_of_fills_eq (fun w => rfl)) (pair_loop_emits K s irad jet _)

theorem radius_body_emits (K : Kernel J) (s : Settings) (inp : Input J) (iev : Nat)
    (particles : List J) (irad : Nat) {Q : Fill → Prop}
    (hQ : ∀ irad jet subjets f, LoopFillSpec K s irad jet subjets f → Q f) :
    Emits Q (radius_body K s inp iev particles irad) := by
  have hjet : ∀ sub_def (jets : List J), Emits Q (forEach (jet_body K s irad sub_def) jets) := by
    intro sub_def jets
    apply emits_forEach
    intro jet _
    exact emits_mono (jet_body_emits K s irad sub_def jet) (fun f hf => hQ _ _ _ f hf)
  intro w
  unfold radius_body
  rcases s.radius_pairs[irad]? with _ | ⟨jet_rad, sub_rad⟩
  · exact ⟨[], by simp [raise], by simp⟩
  · dsimp only
    by_cases hod : s.use_opendata = true
    · simp only [hod, if_true]
      rcases opendata_radius_rejected s.jet_rads with _ | _ | _
      · exact ⟨[], by simp [raise], by simp⟩
      · exact hjet _ _ w
      · exact ⟨[], by simp [raise], by simp⟩
    · simp only [hod]
      exact hjet _ _ w

theorem event_loop_emits (K : Kernel J) (s : Settings) (inp : Input J) {Q : Fill → Prop}
    (hQ : ∀ irad jet subjets f, LoopFillSpec K s irad jet subjets f → Q f) :
    Emits Q (event_loop K s inp) := by
  have hrad : ∀ iev particles, Emits Q (radius_loop K s inp iev particles) := by
    intro iev particles
    apply emits_forEach
    intro irad _
    exact radius_body_emits K s inp iev particles irad hQ
  unfold event_loop
  apply emits_forEach
  intro iev _
  unfold event_body
  apply emits_seq (emits_of_fills_eq (fun w => rfl))
  by_cases hod : s.use_opendata = true
  · simp only [hod]
    exact hrad _ _
  · simp only [hod]
    rcases inp.pythia iev with _ | particles
    · exact emits_of_fills_eq (fun w => rfl)
    · exact hrad _ _

theorem setup_body_fills (s : Settings) (irad : Nat) (w : World) :
    (setup_body s irad w).world.fills = w.fills := by
  unfold setup_body
  rcases s.radius_pairs[irad]? with _ | rad_pair
  · rfl
  · dsimp only
    split <;> rfl

theorem write_body_fills (K : Kernel J) (s : Settings) (inp : Input J) (irad : Nat)
    (w : World) : (write_body K s inp irad w).world.fills = w.fills := by
  unfold write_body
  dsimp only
  split
  · split
    · rfl
    · split <;> rfl
  · rfl

theorem setup_body_spills (s : Settings) (irad : Nat) (w : World) :
    (setup_body s irad w).world.spills = w.spills := by
  unfold setup_body
  rcases s.radius_pairs[irad]? with _ | rad_pair
  · rfl
  · dsimp only
    split <;> rfl

theorem write_body_spills (K : Kernel J) (s : Settings) (inp : Input J) (irad : Nat)
    (w : World) : (write_body K s inp irad w).world.spills = w.spills := by
  unfold write_body
  dsimp only
  split
  · split
    · rfl
    · split <;> rfl
  · rfl

theorem main_emits (K : Kernel J) (s : Settings) (inp : Input J) {Q : Fill → Prop}
    (hQ : ∀ irad jet subjets f, LoopFillSpec K s irad jet subjets f → Q f) :
    Emits Q (main K s inp) := by
  unfold main
  refine emits_seq (emits_of_fills_eq ?_) (emits_seq ?_ (emits_seq (emits_of_fills_eq ?_)
    (emits_seq (emits_of_fills_eq (fun w => rfl))
      (emits_seq (event_loop_emits K s inp hQ) ?_))))
  · intro w; unfold check_terms; split <;> rfl
  · exact emits_forEach (fun irad _ => emits_of_fills_eq (setup_body_fills s irad))
  · intro w; unfold alloc_events; split <;> rfl
  · exact emits_forEach (fun irad _ => emits_of_fills_eq (write_body_fills K s inp irad))

theorem run_fills (K : Kernel J) (s : Settings) (inp : Input J) {Q : Fill → Prop}
    (hQ : ∀ irad jet subjets f, LoopFillSpec K s irad jet subjets f → Q f) :
    ∀ f ∈ (run K s inp).world.fills, Q f := by
  obtain ⟨fs, hfs, hq⟩ := main_emits K s inp hQ World.init
  intro f hf
  unfold run at hf
  rw [hfs] at hf
  simp only [World.init, List.nil_append] at hf
  exact hq f hf

theorem pair_loop_spills (K : Kernel J) (s : Settings) (irad : Nat) (jet : J)
    (subjets : List J) :
    Logs World.spills (LoopSpillSpec K s irad jet subjets) (pair_loop K s irad jet subjets) := by
  apply pair_loop_induct (fun _ _ => logs_seq) (logs_of_eq (fun _ => rfl))
  intro isub jsub hij hj
  apply logs_mono (pair_body_spills K s irad jet subjets isub jsub)
  intro g hg
  obtain ⟨s1, s2, val, h1, h2, h3, h4, h5⟩ := hg
  have e1 : g.isub = isub := by rw [h5]; rfl
  have e2 : g.jsub = jsub := by rw [h5]; rfl
  refine ⟨by omega, by omega, ?_⟩
  rw [e1, e2]
  exact ⟨s1, s2, val, h1, h2, h3, h4, h5⟩

theorem main_spills (K : Kernel J) (s : Settings) (inp : Input J) {Q : Spill → Prop}
    (hQ : ∀ irad jet subjets g, LoopSpillSpec K s irad jet subjets g → Q g) :
    Logs World.spills Q (main K s inp) := by
  apply main_induct (fun _ _ => logs_seq) (logs_of_eq (fun _ => rfl))
    (fun _ => logs_of_eq (fun _ => rfl))
  · exact fun irad => logs_of_eq (setup_body_spills s irad)
  · exact logs_of_eq (fun _ => rfl)
  · exact logs_of_eq (fun _ => rfl)
  · intro irad sub_def jet
    unfold jet_body
    exact logs_seq (logs_of_eq (fun _ => rfl))
      (logs_mono (pair_loop_spills K s irad jet _) (hQ _ _ _))
  · exact fun irad => logs_of_eq (write_body_spills K s inp irad)

theorem run_spills (K : Kernel J) (s : Settings) (inp : Input J) {Q : Spill → Prop}
    (hQ : ∀ irad jet subjets g, LoopSpillSpec K s irad jet subjets g → Q g) :
    ∀ g ∈ (run K s inp).world.spills, Q g := by
  obtain ⟨gs, hgs, hq⟩ := main_spills K s inp hQ World.init
  intro g hg
  unfold run at hg
  rw [hgs] at hg
  simp only [World.init, List.nil_append] at hg
  exact hq g hg

theorem degeneracy_contact (s : Settings) (i : Nat) :
    degeneracy s i i = if s.contact_terms then 1 else 0 := by
  simp [degeneracy]

theorem degeneracy_pair (s : Settings) {i j : Nat} (h : i < j) :
    degeneracy s i j = if s.pair_terms then 2 else 0 := by
  have : ¬ j = i := by omega
  simp [degeneracy, this]

theorem loop_fill_degeneracy (K : Kernel J) (s : Settings) (irad : Nat) (jet : J)
    (subjets : List J) (f : Fill) (h : LoopFillSpec K s irad jet subjets f) :
    f.isub ≤ f.jsub ∧
    (f.isub = f.jsub → f.degeneracy = if s.contact_terms then 1 else 0) ∧
    (f.isub < f.jsub → f.degeneracy = if s.pair_terms then 2 else 0) := by
  obtain ⟨hle, _, s1, s2, val, _, _, _, _, hf⟩ := h
  have hd : f.degeneracy = degeneracy s f.isub f.jsub := by
    conv_lhs => rw [hf]
    rfl
  refine ⟨hle, ?_, ?_⟩
  · intro he
    rw [hd, ← he, degeneracy_contact]
  · intro hlt
    rw [hd, degeneracy_pair s hlt]

theorem loop_spill_degeneracy (K : Kernel J) (s : Settings) (irad : Nat) (jet : J)
    (subjets : List J) (g : Spill) (h : LoopSpillSpec K s irad jet subjets g) :
    g.isub ≤ g.jsub ∧
    (g.isub = g.jsub → g.degeneracy = if s.contact_terms then 1 else 0) ∧
    (g.isub < g.jsub → g.degeneracy = if s.pair_terms then 2 else 0) := by
  obtain ⟨hle, _, s1, s2, val, _, _, _, _, hg⟩ := h
  have hd : g.degeneracy = degeneracy s g.isub g.jsub := by
    conv_lhs => rw [hg]
    rfl
  refine ⟨hle, ?_, ?_⟩
  · intro he
    rw [hd, ← he, degeneracy_contact]
  · intro hlt
    rw [hd, degeneracy_pair s hlt]

/-- C1. For every subjet pair `(i, j)` the pair loop of a jet fills the
histogram for, and so for every fill of a whole run, `i ≤ j` holds, the
degeneracy is 1 (contact terms enabled) or 0 (disabled) when `i = j`, and 2
(pair terms enabled) or 0 (disabled) when `i < j`; no other value occurs. The
same holds of the fills whose weight is computed through a division by zero. -/
theorem degeneracy_of_enumerated_pairs (K : Kernel J) (s : Settings) :
    (∀ (irad : Nat) (jet : J) (subjets : List J) (w : World),
      ∀ f ∈ new_fills w (pair_loop K s irad jet subjets w),
        f.isub ≤ f.jsub ∧
        (f.isub = f.jsub → f.degeneracy = if s.contact_terms then 1 else 0) ∧
        (f.isub < f.jsub → f.degeneracy = if s.pair_terms then 2 else 0)) ∧
    (∀ (inp : Input J), ∀ f ∈ (run K s inp).world.fills,
        f.isub ≤ f.jsub ∧
        (f.isub = f.jsub → f.degeneracy = if s.contact_terms then 1 else 0) ∧
        (f.isub < f.jsub → f.degeneracy = if s.pair_terms then 2 else 0) ∧
        (f.degeneracy = 0 ∨ f.degeneracy = 1 ∨ f.degeneracy = 2)) ∧
    (∀ (irad : Nat) (jet : J) (subjets : List J) (w : World),
      ∀ g ∈ new_spills w (pair_loop K s irad jet subjets w),
        g.isub ≤ g.jsub ∧
        (g.isub = g.jsub → g.degeneracy = if s.contact_terms then 1 else 0) ∧
        (g.isub < g.jsub → g.degeneracy = if s.pair_terms then 2 else 0)) ∧
    (∀ (inp : Input J), ∀ g ∈ (run K s inp).world.spills,
        g.isub ≤ g.jsub ∧
        (g.isub = g.jsub → g.degeneracy = if s.contact_terms then 1 else 0) ∧
        (g.isub < g.jsub → g.degeneracy = if s.pair_terms then 2 else 0) ∧
        (g.degeneracy = 0 ∨ g.degeneracy = 1 ∨ g.degeneracy = 2)) := by
  refine ⟨?_, ?_, ?_, ?_⟩
  · intro irad jet subjets w f hf
    exact loop_fill_degeneracy K s irad jet subjets f
      (emits_on_new (pair_loop_emits K s irad jet subjets) w f hf)
  · intro inp f hf
    have h := run_fills K s inp
      (fun irad jet subjets f h => loop_fill_degeneracy K s irad jet subjets f h) f hf
    refine ⟨h.1, h.2.1, h.2.2, ?_⟩
    rcases Nat.lt_or_ge f.isub f.jsub with hlt | hge
    · rw [h.2.2 hlt]; split <;> simp
    · have he : f.isub = f.jsub := Nat.le_antisymm h.1 hge
      rw [h.2.1 he]; split <;> simp
  · intro irad jet subjets w g hg
    exact loop_spill_degeneracy K s irad jet subjets g
      ((logs_on_new_spills (pair_loop_spills K s irad jet subjets) w).2 g hg)
  · intro inp g hg
    have h := run_spills K s inp
      (fun irad jet subjets g h => loop_spill_degeneracy K s irad jet subjets g h) g hg
    refine ⟨h.1, h.2.1, h.2.2, ?_⟩
    rcases Nat.lt_or_ge g.isub g.jsub with hlt | hge
    · rw [h.2.2 hlt]; split <;> simp
    · have he : g.isub = g.jsub := Nat.le_antisymm h.1 hge
      rw [h.2.1 he]; split <;> simp

/-- A witness of C1: in the run of the two-subjet scenario the fill of the
pair `(0, 1)` has degeneracy 2. -/
theorem degeneracy_of_enumerated_pairs_witness :
    (⟨0, 0, 1, 2, 21 / 100, Val.fin 0, 0⟩ : Fill)
      ∈ (run collinear (scenario true true) scenario_input).world.fills ∧
    (⟨0, 0, 1, 2, 21 / 100, Val.fin 0, 0⟩ : Fill).degeneracy
      = if (scenario true true).pair_terms then 2 else 0 :=
  ⟨by decide!,
    ((degeneracy_of_enumerated_pairs collinear (scenario true true)).2.1 scenario_input
      ⟨0, 0, 1, 2, 21 / 100, Val.fin 0, 0⟩ (by decide!)).2.2.1 (by decide)⟩

/-! ## The enumeration of index pairs -/

theorem forEach_map {α β : Type} (body : β → Block) (g : α → β) (xs : List α) :
    forEach body (xs.map g) = forEach (fun x => body (g x)) xs := by
  induction xs with
  | nil => rfl
  | cons x xs ih => simp only [List.map_cons, forEach_cons, ih]

theorem forEach_flatMap {α β : Type} (body : β → Block) (g : α → List β) (xs : List α) :
    forEach body (xs.flatMap g) = forEach (fun x => forEach body (g x)) xs := by
  induction xs with
  | nil => rfl
  | cons x xs ih => simp only [List.flatMap_cons, forEach_append, forEach_cons, ih]

theorem pair_loop_eq (K : Kernel J) (s : Settings) (irad : Nat) (jet : J) (subjets : List J) :
    pair_loop K s irad jet subjets =
      forEach (fun p => pair_body K s irad jet subjets p.1 p.2)
        (index_pairs subjets.length) := by
  unfold pair_loop index_pairs
  rw [forEach_flatMap]
  simp only [forEach_map]

theorem mem_index_pairs {n i j : Nat} : (i, j) ∈ index_pairs n ↔ i ≤ j ∧ j < n := by
  unfold index_pairs
  simp only [List.mem_flatMap, List.mem_range, List.mem_map, mem_jsub_range, Prod.mk.injEq]
  constructor
  · rintro ⟨a, _, b, ⟨h1, h2⟩, rfl, rfl⟩
    exact ⟨h1, h2⟩
  · rintro ⟨h1, h2⟩
    exact ⟨i, by omega, j, ⟨h1, h2⟩, rfl, rfl⟩

theorem nodup_index_pairs (n : Nat) : (index_pairs n).Nodup := by
  unfold index_pairs
  rw [List.nodup_flatMap]
  constructor
  · intro i _
    apply List.Nodup.map
    · intro a b h
      exact (Prod.mk.injEq _ _ _ _ ▸ h).2
    · exact List.nodup_range' _ _
  · apply List.Pairwise.imp _ (List.nodup_range n)
    intro a b hab p hp hq
    simp only [List.mem_map] at hp hq
    obtain ⟨_, _, rfl⟩ := hp
    obtain ⟨_, _, h⟩ := hq
    exact hab (Prod.mk.injEq _ _ _ _ ▸ h).1.symm

theorem sum_descending (k d : Nat) :
    ((List.range k).map (fun i => k + d - i)).sum * 2 = k * (k + 2 * d + 1) := by
  induction k generalizing d with
  | zero => simp
  | succ k ih =>
    rw [List.range_succ, List.map_append, List.sum_append]
    have h := ih (d + 1)
    have e : (fun i => k + 1 + d - i) = (fun i => k + (d + 1) - i) := by
      funext i; omega
    rw [e]
    simp only [List.map_cons, List.map_nil, List.sum_cons, List.sum_nil]
    have h2 : k + (d + 1) - k = d + 1 := by omega
    rw [h2, Nat.add_mul, h]
    ring

theorem length_index_pairs (n : Nat) : (index_pairs n).length * 2 = n * (n + 1) := by
  unfold index_pairs
  rw [List.length_flatMap]
  have e : (List.length ∘ fun i => (jsub_range n i).map (fun j => (i, j)))
      = (fun i => n + 0 - i) := by
    funext i
    simp [jsub_range]
  rw [e, sum_descending n 0]

theorem contact_index_pairs (n : Nat) :
    (index_pairs n).countP (fun p => decide (p.1 = p.2)) = n := by
  rw [List.countP_eq_length_filter]
  have hperm : List.Perm ((index_pairs n).filter (fun p => decide (p.1 = p.2)))
      ((List.range n).map (fun i => (i, i))) := by
    rw [List.perm_ext_iff_of_nodup ((nodup_index_pairs n).filter _)
      ((List.nodup_range n).map (fun a b h => (Prod.mk.injEq _ _ _ _ ▸ h).1))]
    rintro ⟨i, j⟩
    simp only [List.mem_filter, mem_index_pairs, decide_eq_true_eq, List.mem_map,
      List.mem_range, Prod.mk.injEq]
    constructor
    · rintro ⟨⟨_, h2⟩, rfl⟩
      exact ⟨i, h2, rfl, rfl⟩
    · rintro ⟨a, h, rfl, rfl⟩
      exact ⟨⟨le_refl _, h⟩, rfl⟩
  rw [hperm.length_eq, List.length_map, List.length_range]

theorem genuine_index_pairs (n : Nat) :
    (index_pairs n).countP (fun p => decide (p.1 < p.2)) * 2 = n * (n - 1) := by
  have hsplit := List.length_eq_countP_add_countP (fun p : Nat × Nat => decide (p.1 = p.2))
    (index_pairs n)
  have hcongr : (index_pairs n).countP (fun p => decide (p.1 < p.2))
      = (index_pairs n).countP (fun a => decide ¬ (decide (a.1 = a.2) = true)) := by
    apply List.countP_congr
    rintro ⟨i, j⟩ hp
    have := (mem_index_pairs.mp hp).1
    simp only [decide_eq_true_eq]
    omega
  have hc := contact_index_pairs n
  have hl := length_index_pairs n
  rw [hcongr]
  rw [hc] at hsplit
  cases n with
  | zero => simp [index_pairs]
  | succ m =>
    simp only [Nat.add_sub_cancel]
    have : (index_pairs (m + 1)).length * 2 = (m + 1) * m + 2 * (m + 1) := by rw [hl]; ring
    omega

/-! ## The pair loop visits the index pairs in order -/

theorem forEach_keeps {α β : Type} {log : World → β} {body : α → Block} {xs : List α}
    (h : ∀ x ∈ xs, ∀ w, log (body x w).world = log w) (w : World) :
    log (forEach body xs w).world = log w := by
  induction xs generalizing w with
  | nil => rfl
  | cons x xs ih =>
    rw [forEach_cons]
    rcases seq_cases (body x) (forEach body xs) w with ⟨_, hseq⟩ | ⟨_, hseq⟩
    · rw [hseq, ih (fun y hy => h y (List.mem_cons_of_mem x hy)),
        h x (List.mem_cons_self x xs)]
    · rw [hseq, h x (List.mem_cons_self x xs)]

theorem forEach_one_entry {α : Type} {log : World → List α} {tag : α → Nat × Nat}
    {body : Nat × Nat → Block} (h : ∀ p, OneEntry log tag p (body p))
    (ps : List (Nat × Nat)) (w : World) :
    ∃ xs, log (forEach body ps w).world = log w ++ xs ∧
      xs.map tag <+: ps ∧
      ((forEach body ps w).error = none → xs.map tag = ps) := by
  induction ps generalizing w with
  | nil => exact ⟨[], by simp [forEach_nil, done], by simp, by simp⟩
  | cons p ps ih =>
    rw [forEach_cons]
    rcases seq_cases (body p) (forEach body ps) w with ⟨hok, hseq⟩ | ⟨herr, hseq⟩
    · rcases h p w with ⟨hne, _⟩ | ⟨_, f, hf, htag⟩
      · exact absurd hok hne
      · obtain ⟨fs, hfs, hpre, hall⟩ := ih (body p w).world
        refine ⟨f :: fs, ?_, ?_, ?_⟩
        · rw [hseq, hfs, hf]; simp
        · simp only [List.map_cons, htag]
          exact (List.prefix_cons_inj p).mpr hpre
        · intro hnone
          rw [hseq] at hnone
          simp only [List.map_cons, htag, hall hnone]
    · rcases h p w with ⟨_, hsame⟩ | ⟨hok, _⟩
      · refine ⟨[], ?_, by simp, ?_⟩
        · rw [hseq, hsame]; simp
        · intro hnone
          rw [hseq] at hnone
          exact absurd hnone herr
      · exact absurd hok herr

theorem pair_body_one_fill (K : Kernel J) (s : Settings) (irad : Nat) (jet : J)
    (subjets : List J) (hE : K.pow (K.e jet) 2 ≠ 0) (p : Nat × Nat) :
    OneEntry World.fills Fill.pair p (pair_body K s irad jet subjets p.1 p.2) := by
  intro w
  rcases pair_body_cases K s irad jet subjets p.1 p.2 w with ⟨err, h⟩ |
    ⟨s1, s2, val, _, _, _, _, h5⟩ | ⟨_, _, _, _, _, _, h4, _⟩
  · left; simp [h, raise]
  · rcases fill_cases (pair_fill K s irad jet p.1 p.2 s1 s2 val) w with hf | ⟨_, _, _, _, hf⟩
    · left; simp [h5, hf, raise]
    · right
      refine ⟨by simp [h5, hf, done], pair_fill K s irad jet p.1 p.2 s1 s2 val, ?_, rfl⟩
      simp [h5, hf, done]
  · exact absurd h4 hE

theorem pair_body_one_spill (K : Kernel J) (s : Settings) (irad : Nat) (jet : J)
    (subjets : List J) (hE : K.pow (K.e jet) 2 = 0) (p : Nat × Nat) :
    OneEntry World.spills Spill.pair p (pair_body K s irad jet subjets p.1 p.2) := by
  intro w
  rcases pair_body_cases K s irad jet subjets p.1 p.2 w with ⟨err, h⟩ |
    ⟨_, _, _, _, _, _, h4, _⟩ | ⟨s1, s2, val, _, _, _, _, h5⟩
  · left; simp [h, raise]
  · exact absurd hE h4
  · rcases spill_cases (pair_spill K s irad jet p.1 p.2 s1 s2 val) w with hg | ⟨_, _, _, hg⟩
    · left; simp [h5, hg, raise]
    · right
      refine ⟨by simp [h5, hg, done], pair_spill K s irad jet p.1 p.2 s1 s2 val, ?_, rfl⟩
      simp [h5, hg, done]

/-- The pair loop of a jet with `pow(E_jet, 2.)` not zero executes only fills,
that of a jet with `pow(E_jet, 2.) = 0` only fills through a division by zero. -/
theorem pair_loop_one_kind (K : Kernel J) (s : Settings) (irad : Nat) (jet : J)
    (subjets : List J) (w : World) :
    (K.pow (K.e jet) 2 ≠ 0 → new_spills w (pair_loop K s irad jet subjets w) = []) ∧
    (K.pow (K.e jet) 2 = 0 → new_fills w (pair_loop K s irad jet subjets w) = [] ∧
      (pair_loop K s irad jet subjets w).world.ewoc_hists = w.ewoc_hists) := by
  rw [pair_loop_eq]
  constructor
  · intro hE
    have h := @forEach_keeps _ _ World.spills
      (fun p : Nat × Nat => pair_body K s irad jet subjets p.1 p.2) (index_pairs subjets.length)
      (fun p _ w1 => (pair_body_same K s irad jet subjets p.1 p.2 w1).2.2.1 hE) w
    unfold new_spills
    rw [h, List.drop_length]
  · intro hE
    have h := @forEach_keeps _ _ World.fills
      (fun p : Nat × Nat => pair_body K s irad jet subjets p.1 p.2) (index_pairs subjets.length)
      (fun p _ w1 => ((pair_body_same K s irad jet subjets p.1 p.2 w1).2.2.2 hE).1) w
    have h2 := @forEach_keeps _ _ World.ewoc_hists
      (fun p : Nat × Nat => pair_body K s irad jet subjets p.1 p.2) (index_pairs subjets.length)
      (fun p _ w1 => ((pair_body_same K s irad jet subjets p.1 p.2 w1).2.2.2 hE).2) w
    refine ⟨?_, h2⟩
    unfold new_fills
    rw [h, List.drop_length]

theorem pair_loop_trace (K : Kernel J) (s : Settings) (irad : Nat) (jet : J)
    (subjets : List J) (w : World) :
    evaluated w (pair_loop K s irad jet subjets w) <+: index_pairs subjets.length ∧
    ((pair_loop K s irad jet subjets w).error = none →
      evaluated w (pair_loop K s irad jet subjets w) = index_pairs subjets.length) := by
  obtain ⟨hfill, hspill⟩ := pair_loop_one_kind K s irad jet subjets w
  by_cases hE : K.pow (K.e jet) 2 = 0
  · have e : evaluated w (pair_loop K s irad jet subjets w)
        = (new_spills w (pair_loop K s irad jet subjets w)).map Spill.pair := by
      unfold evaluated
      rw [(hspill hE).1]
      rfl
    rw [e, pair_loop_eq]
    obtain ⟨gs, hgs, hpre, hall⟩ := forEach_one_entry
      (pair_body_one_spill K s irad jet subjets hE) (index_pairs subjets.length) w
    have e2 : new_spills w (forEach (fun p => pair_body K s irad jet subjets p.1 p.2)
        (index_pairs subjets.length) w) = gs := by
      unfold new_spills
      rw [hgs, List.drop_left]
    rw [e2]
    exact ⟨hpre, hall⟩
  · have e : evaluated w (pair_loop K s irad jet subjets w)
        = (new_fills w (pair_loop K s irad jet subjets w)).map Fill.pair := by
      unfold evaluated
      rw [hfill hE]
      simp
    rw [e, pair_loop_eq]
    obtain ⟨fs, hfs, hpre, hall⟩ := forEach_one_entry
      (pair_body_one_fill K s irad jet subjets hE) (index_pairs subjets.length) w
    have e2 : new_fills w (forEach (fun p => pair_body K s irad jet subjets p.1 p.2)
        (index_pairs subjets.length) w) = fs := by
      unfold new_fills
      rw [hfs, List.drop_left]
    rw [e2]
    exact ⟨hpre, hall⟩

/-- For a jet with `pow(E_jet, 2.)` not zero the fills of the pair loop are for
the index pairs, in order. -/
theorem pair_loop_fills_trace (K : Kernel J) (s : Settings) (irad : Nat) (jet : J)
    (subjets : List J) (w : World) (hE : K.pow (K.e jet) 2 ≠ 0) :
    (new_fills w (pair_loop K s irad jet subjets w)).map Fill.pair
        <+: index_pairs subjets.length ∧
    ((pair_loop K s irad jet subjets w).error = none →
      (new_fills w (pair_loop K s irad jet subjets w)).map Fill.pair
        = index_pairs subjets.length) := by
  have h := pair_loop_trace K s irad jet subjets w
  have e : evaluated w (pair_loop K s irad jet subjets w)
      = (new_fills w (pair_loop K s irad jet subjets w)).map Fill.pair := by
    unfold evaluated
    rw [(pair_loop_one_kind K s irad jet subjets w).1 hE]
    simp
  rw [e] at h
  exact h

/-! ## When the pair loop completes -/

theorem forEach_completes {α : Type} {P : World → Prop} {body : α → Block} {xs : List α}
    (h : ∀ x ∈ xs, ∀ w, P w → (body x w).error = none ∧ P (body x w).world)
    (w : World) (hw : P w) :
    (forEach body xs w).error = none ∧ P (forEach body xs w).world := by
  induction xs generalizing w with
  | nil => exact ⟨rfl, hw⟩
  | cons x xs ih =>
    obtain ⟨h1, h2⟩ := h x (List.mem_cons_self x xs) w hw
    rw [forEach_cons]
    rcases seq_cases (body x) (forEach body xs) w with ⟨_, hseq⟩ | ⟨herr, _⟩
    · rw [hseq]
      exact ih (fun y hy => h y (List.mem_cons_of_mem x hy)) _ h2
    · exact absurd h1 herr

theorem fill_ok {s : Settings} {f : Fill} {w : World} (hw : HistReady s f.irad w)
    (h0 : 0 ≤ f.ibin) (h1 : f.ibin < s.nbins) :
    (fill f w).error = none ∧ HistReady s f.irad (fill f w).world := by
  obtain ⟨h, hh, hlen⟩ := hw
  have hidx : 0 ≤ f.ibin ∧ f.ibin.toNat < h.length := by
    refine ⟨h0, ?_⟩
    have : (f.ibin.toNat : Int) = f.ibin := Int.toNat_of_nonneg h0
    omega
  have hadd : h.add f.ibin f.amount
      = some (h.set f.ibin.toNat (h.bin f.ibin.toNat + f.amount)) := by
    unfold Hist.add
    rw [if_pos hidx]
  have hf : fill f w = done { w with
      ewoc_hists := w.ewoc_hists.set f.irad (h.set f.ibin.toNat (h.bin f.ibin.toNat + f.amount)),
      fills := w.fills ++ [f] } := by
    unfold fill
    simp only [hh, hadd]
  rw [hf]
  refine ⟨rfl, h.set f.ibin.toNat (h.bin f.ibin.toNat + f.amount), ?_, ?_⟩
  · have hlt : f.irad < w.ewoc_hists.length := by
      by_contra hge
      rw [List.getElem?_eq_none (by omega)] at hh
      exact Option.noConfusion hh
    simp [done, List.getElem?_set, hlt]
  · simpa using hlen

theorem spill_ok {s : Settings} {g : Spill} {w : World} (hw : HistReady s g.irad w)
    (h0 : 0 ≤ g.ibin) (h1 : g.ibin < s.nbins) :
    (spill g w).error = none ∧ HistReady s g.irad (spill g w).world := by
  obtain ⟨h, hh, hlen⟩ := hw
  have hidx : 0 ≤ g.ibin ∧ g.ibin.toNat < h.length := by
    refine ⟨h0, ?_⟩
    have : (g.ibin.toNat : Int) = g.ibin := Int.toNat_of_nonneg h0
    omega
  have hg : spill g w = done { w with spills := w.spills ++ [g] } := by
    unfold spill
    simp only [hh, hidx, and_self, if_true]
  rw [hg]
  exact ⟨rfl, h, hh, hlen⟩

theorem pair_loop_completes (K : Kernel J) (s : Settings) (irad : Nat) (jet : J)
    (subjets : List J) (w : World)
    (hobs : ∀ i j s1 s2, subjets[i]? = some s1 → subjets[j]? = some s2 →
      ∃ val, obs_val K s i j s1 s2 = Except.ok val)
    (hbins : BinsInRange K s) (hw : HistReady s irad w) :
    (pair_loop K s irad jet subjets w).error = none ∧
      HistReady s irad (pair_loop K s irad jet subjets w).world := by
  rw [pair_loop_eq]
  apply forEach_completes _ w hw
  rintro ⟨i, j⟩ hp w1 hw1
  obtain ⟨hij, hjn⟩ := mem_index_pairs.mp hp
  have hi : i < subjets.length := by omega
  obtain ⟨val, hval⟩ := hobs i j subjets[i] subjets[j]
    (List.getElem?_eq_getElem hi) (List.getElem?_eq_getElem hjn)
  dsimp only
  by_cases hE : K.pow (K.e jet) 2 = 0
  · have hb : pair_body K s irad jet subjets i j w1
        = spill (pair_spill K s irad jet i j subjets[i] subjets[j] val) w1 := by
      unfold pair_body
      simp [List.getElem?_eq_getElem hi, List.getElem?_eq_getElem hjn, hval, hE, pair_spill]
    rw [hb]
    exact spill_ok (g := pair_spill K s irad jet i j subjets[i] subjets[j] val) hw1
      (hbins val).1 (hbins val).2
  · have hb : pair_body K s irad jet subjets i j w1
        = fill (pair_fill K s irad jet i j subjets[i] subjets[j] val) w1 := by
      unfold pair_body
      simp [List.getElem?_eq_getElem hi, List.getElem?_eq_getElem hjn, hval, hE, pair_fill]
    rw [hb]
    exact fill_ok (f := pair_fill K s irad jet i j subjets[i] subjets[j] val) hw1
      (hbins val).1 (hbins val).2

/-- C3. The pair loop of a jet with `n` subjets, whatever the energy of the
jet, never executes the histogram statement twice for the same index pair and
only for pairs `(i, j)` with `i ≤ j < n`, in the order of the two nested loops;
when it completes it has executed it for exactly these pairs, each once:
`n (n + 1) / 2` evaluations, `n` of them contact terms and `n (n - 1) / 2`
genuine pairs. It completes whenever the observable is defined on the subjets
and the bin positions are inside the histogram. All evaluations of one jet are
fills, or all are fills through a division by zero (`pow(E_jet, 2.) = 0`). -/
theorem pair_loop_enumerates_upper_triangle (K : Kernel J) (s : Settings) (irad : Nat)
    (jet : J) (subjets : List J) (w : World) :
    ((evaluated w (pair_loop K s irad jet subjets w)).Nodup ∧
      evaluated w (pair_loop K s irad jet subjets w) <+: index_pairs subjets.length ∧
      ∀ i j, (i, j) ∈ evaluated w (pair_loop K s irad jet subjets w) →
        i ≤ j ∧ j < subjets.length) ∧
    ((pair_loop K s irad jet subjets w).error = none →
      (∀ i j, (i, j) ∈ evaluated w (pair_loop K s irad jet subjets w) ↔
        i ≤ j ∧ j < subjets.length) ∧
      (evaluated w (pair_loop K s irad jet subjets w)).length
        = subjets.length * (subjets.length + 1) / 2 ∧
      (evaluated w (pair_loop K s irad jet subjets w)).countP
        (fun p => decide (p.1 = p.2)) = subjets.length ∧
      (evaluated w (pair_loop K s irad jet subjets w)).countP
        (fun p => decide (p.1 < p.2)) = subjets.length * (subjets.length - 1) / 2) ∧
    ((∀ i j s1 s2, subjets[i]? = some s1 → subjets[j]? = some s2 →
        ∃ val, obs_val K s i j s1 s2 = Except.ok val) →
      BinsInRange K s → HistReady s irad w →
      (pair_loop K s irad jet subjets w).error = none) ∧
    (K.pow (K.e jet) 2 ≠ 0 → new_spills w (pair_loop K s irad jet subjets w) = []) ∧
    (K.pow (K.e jet) 2 = 0 → new_fills w (pair_loop K s irad jet subjets w) = []) := by
  obtain ⟨hpre, hall⟩ := pair_loop_trace K s irad jet subjets w
  obtain ⟨hfill, hspill⟩ := pair_loop_one_kind K s irad jet subjets w
  refine ⟨⟨hpre.sublist.nodup (nodup_index_pairs _), hpre, ?_⟩, ?_, ?_, hfill,
    fun hE => (hspill hE).1⟩
  · intro i j hm
    exact mem_index_pairs.mp (hpre.subset hm)
  · intro hok
    have e := hall hok
    refine ⟨?_, ?_, ?_, ?_⟩
    · intro i j
      rw [e]
      exact mem_index_pairs
    · rw [e]
      have := length_index_pairs subjets.length
      omega
    · rw [e]
      exact contact_index_pairs _
    · rw [e]
      have := genuine_index_pairs subjets.length
      omega
  · intro hobs hbins hw
    exact (pair_loop_completes K s irad jet subjets w hobs hbins hw).1

/-! ## The two-subjet scenario -/

theorem scenario_obs_defined (pt ct : Bool) (i j : Nat) (s1 s2 : CJet) :
    ∃ val, obs_val collinear (scenario pt ct) i j s1 s2 = Except.ok val := by
  unfold obs_val
  split
  · exact ⟨Val.fin 0, by simp [contact_val, scenario, str_eq, collinear]⟩
  · exact ⟨Val.fin 0, by simp [pair_val, scenario, str_eq, collinear]⟩

theorem scenario_bins_in_range (pt ct : Bool) : BinsInRange collinear (scenario pt ct) := by
  intro val
  have key : uniform_bin val 0 1 1 = 0 := by
    cases val with
    | fin v =>
      simp only [uniform_bin]
      split
      · rfl
      · split
        · rfl
        · rename_i h1 h2
          simp only [sub_zero, div_one, Int.cast_one, mul_one]
          rw [Int.floor_eq_zero_iff]
          exact ⟨not_lt.mp h1, not_le.mp h2⟩
    | posInf => rfl
    | negInf => rfl
    | nan => rfl
  simp [collinear, scenario, key]

/-- A witness of C3: the pair loop of the two-subjet scenario completes after
`2 (2 + 1) / 2` evaluations, all of them fills; and the pair loop of a jet of
energy 0 with one subjet of energy 0 completes after `1 (1 + 1) / 2` evaluation,
a fill through a division by zero. -/
theorem pair_loop_enumerates_upper_triangle_witness :
    ((pair_loop collinear (scenario true true) 0 [30, 70] [[30], [70]] one_bin_world).error
        = none ∧
      (evaluated one_bin_world
        (pair_loop collinear (scenario true true) 0 [30, 70] [[30], [70]] one_bin_world)).length
          = 2 * (2 + 1) / 2 ∧
      new_spills one_bin_world
        (pair_loop collinear (scenario true true) 0 [30, 70] [[30], [70]] one_bin_world) = []) ∧
    ((pair_loop collinear (scenario true true) 0 [0] [[0]] one_bin_world).error = none ∧
      (evaluated one_bin_world
        (pair_loop collinear (scenario true true) 0 [0] [[0]] one_bin_world)).length
          = 1 * (1 + 1) / 2 ∧
      new_fills one_bin_world
        (pair_loop collinear (scenario true true) 0 [0] [[0]] one_bin_world) = []) :=
  have h := pair_loop_enumerates_upper_triangle collinear (scenario true true) 0
    [30, 70] [[30], [70]] one_bin_world
  have hok := h.2.2.1 (fun i j s1 s2 _ _ => scenario_obs_defined true true i j s1 s2)
    (scenario_bins_in_range true true) ⟨[0], rfl, rfl⟩
  have h0 := pair_loop_enumerates_upper_triangle collinear (scenario true true) 0
    [0] [[0]] one_bin_world
  have hok0 := h0.2.2.1 (fun i j s1 s2 _ _ => scenario_obs_defined true true i j s1 s2)
    (scenario_bins_in_range true true) ⟨[0], rfl, rfl⟩
  ⟨⟨hok, (h.2.1 hok).2.1, h.2.2.2.1 (by decide!)⟩,
    ⟨hok0, (h0.2.1 hok0).2.1, h0.2.2.2.2 (by decide!)⟩⟩

/-! ## The histograms are the sums of the recorded amounts -/

theorem bin_total_nil (irad k : Nat) : bin_total [] irad k = 0 := rfl

theorem bin_total_append (fs gs : List Fill) (irad k : Nat) :
    bin_total (fs ++ gs) irad k = bin_total fs irad k + bin_total gs irad k := by
  simp [bin_total, List.filter_append]

theorem bin_total_cons (f : Fill) (fs : List Fill) (irad k : Nat) :
    bin_total (f :: fs) irad k
      = (if f.irad = irad ∧ f.ibin = (k : Int) then f.amount else 0) + bin_total fs irad k := by
  by_cases h : f.irad = irad ∧ f.ibin = (k : Int)
  · simp [bin_total, List.filter_cons, h]
  · simp [bin_total, List.filter_cons, h]

theorem accumulates_seq {a b : Block} (ha : Accumulates a) (hb : Accumulates b) :
    Accumulates (seq a b) := by
  intro w
  obtain ⟨fs, hfs, hq⟩ := ha w
  rcases seq_cases a b w with ⟨_, h⟩ | ⟨_, h⟩
  · obtain ⟨gs, hgs, hq2⟩ := hb (a w).world
    refine ⟨fs ++ gs, ?_, ?_⟩
    · rw [h, hgs, hfs, List.append_assoc]
    · intro irad k
      rw [h, hq2, hq, bin_total_append, add_assoc]
  · exact ⟨fs, by rw [h, hfs], fun irad k => by rw [h, hq]⟩

theorem accumulates_forEach {α : Type} {body : α → Block} {xs : List α}
    (h : ∀ x ∈ xs, Accumulates (body x)) : Accumulates (forEach body xs) := by
  induction xs with
  | nil => intro w; exact ⟨[], by simp [forEach_nil, done], by simp [forEach_nil, done, bin_total_nil]⟩
  | cons x xs ih =>
    rw [forEach_cons]
    exact accumulates_seq (h x (List.mem_cons_self x xs))
      (ih (fun y hy => h y (List.mem_cons_of_mem x hy)))

theorem accumulates_of_same {b : Block}
    (h : ∀ w, (b w).world.fills = w.fills ∧ ∀ irad k, (b w).world.bin irad k = w.bin irad k) :
    Accumulates b := by
  intro w
  exact ⟨[], by simp [(h w).1], fun irad k => by simp [(h w).2, bin_total_nil]⟩

theorem hist_bin_set (h : Hist) (i k : Nat) (x : ℚ) (hi : i < h.length) :
    Hist.bin (h.set i x) k = if i = k then x else h.bin k := by
  unfold Hist.bin
  rw [List.getD_eq_getElem?_getD, List.getD_eq_getElem?_getD, List.getElem?_set]
  by_cases hik : i = k
  · subst hik
    simp [hi]
  · simp [hik]

theorem world_bin_set (w : World) (irad r k : Nat) (h h1 : Hist)
    (hh : w.ewoc_hists[irad]? = some h) (fs : List Fill) :
    World.bin { w with ewoc_hists := w.ewoc_hists.set irad h1, fills := fs } r k
      = if irad = r then h1.bin k else w.bin r k := by
  have hlt : irad < w.ewoc_hists.length := by
    by_contra hge
    rw [List.getElem?_eq_none (by omega)] at hh
    exact Option.noConfusion hh
  unfold World.bin
  simp only [List.getD_eq_getElem?_getD, List.getElem?_set]
  by_cases hr : irad = r
  · subst hr
    simp [hlt]
  · simp [hr]

theorem accumulates_fill (f : Fill) : Accumulates (fill f) := by
  intro w
  rcases fill_cases f w with hf | ⟨h, h1, hh, hadd, hf⟩
  · exact ⟨[], by simp [hf, raise], fun irad k => by simp [hf, raise, bin_total_nil]⟩
  · refine ⟨[f], by simp [hf, done], ?_⟩
    intro r k
    rw [hf]
    simp only [done]
    rw [world_bin_set w f.irad r k h h1 hh, bin_total_cons, bin_total_nil, add_zero]
    unfold Hist.add at hadd
    split at hadd
    · rename_i hidx
      have e1 : h1 = h.set f.ibin.toNat (h.bin f.ibin.toNat + f.amount) :=
        (Option.some.inj hadd).symm
      have hcast : (f.ibin.toNat : Int) = f.ibin := Int.toNat_of_nonneg hidx.1
      by_cases hr : f.irad = r
      · have hwb : w.bin r k = h.bin k := by
          unfold World.bin
          rw [List.getD_eq_getElem?_getD, ← hr, hh]
          rfl
        rw [if_pos hr, e1, hist_bin_set h _ k _ hidx.2, hwb]
        by_cases hk : f.ibin.toNat = k
        · have hk2 : f.ibin = (k : Int) := by omega
          rw [if_pos hk, if_pos ⟨hr, hk2⟩, hk]
        · have hk2 : ¬ f.ibin = (k : Int) := by omega
          rw [if_neg hk, if_neg (fun hc => hk2 hc.2), add_zero]
      · simp [hr]
    · exact Option.noConfusion hadd

theorem accumulates_done : Accumulates done :=
  accumulates_of_same (fun _ => ⟨rfl, fun _ _ => rfl⟩)

theorem accumulates_raise (err : Err) : Accumulates (raise err) :=
  accumulates_of_same (fun _ => ⟨rfl, fun _ _ => rfl⟩)

theorem accumulates_pair_body (K : Kernel J) (s : Settings) (irad : Nat) (jet : J)
    (subjets : List J) (isub jsub : Nat) :
    Accumulates (pair_body K s irad jet subjets isub jsub) := by
  intro w
  rcases pair_body_cases K s irad jet subjets isub jsub w with ⟨err, h⟩ |
    ⟨s1, s2, val, _, _, _, _, h5⟩ | ⟨s1, s2, val, _, _, _, _, h5⟩
  · rw [h]; exact accumulates_raise err w
  · rw [h5]; exact accumulates_fill _ w
  · rw [h5]
    obtain ⟨e1, e2, _⟩ := spill_same (pair_spill K s irad jet isub jsub s1 s2 val) w
    exact ⟨[], by rw [e1]; simp, fun r k => by unfold World.bin; rw [e2, bin_total_nil, add_zero]⟩

theorem accumulates_pair_loop (K : Kernel J) (s : Settings) (irad : Nat) (jet : J)
    (subjets : List J) : Accumulates (pair_loop K s irad jet subjets) :=
  pair_loop_induct (fun _ _ => accumulates_seq) accumulates_done K s irad jet subjets
    (fun isub jsub _ _ => accumulates_pair_body K s irad jet subjets isub jsub)

theorem accumulates_jet_body (K : Kernel J) (s : Settings) (irad : Nat)
    (sub_def : JetDefinition) (jet : J) : Accumulates (jet_body K s irad sub_def jet) := by
  unfold jet_body
  exact accumulates_seq (accumulates_of_same (fun _ => ⟨rfl, fun _ _ => rfl⟩))
    (accumulates_pair_loop K s irad jet _)

theorem setup_body_bin (s : Settings) (irad : Nat) (w : World) (r k : Nat) :
    (setup_body s irad w).world.bin r k = w.bin r k := by
  unfold setup_body
  rcases s.radius_pairs[irad]? with _ | rad_pair
  · rfl
  · dsimp only
    split
    · rfl
    · simp only [done, World.bin, List.getD_eq_getElem?_getD]
      rcases Nat.lt_trichotomy r w.ewoc_hists.length with hlt | heq | hgt
      · rw [List.getElem?_append_left hlt]
      · rw [List.getElem?_append_right (by omega), List.getElem?_eq_none (l := w.ewoc_hists)
          (by omega)]
        simp only [heq, Nat.sub_self, List.getElem?_cons_zero, Option.getD_some, Option.getD_none,
          Hist.bin, List.getD_eq_getElem?_getD, List.getElem?_replicate]
        split <;> simp
      · rw [List.getElem?_append_right (by omega), List.getElem?_eq_none (l := w.ewoc_hists)
          (by omega)]
        obtain ⟨m, hm⟩ : ∃ m, r - w.ewoc_hists.length = m + 1 := ⟨r - w.ewoc_hists.length - 1, by omega⟩
        rw [hm]
        simp

theorem write_body_hists (K : Kernel J) (s : Settings) (inp : Input J) (irad : Nat)
    (w : World) : (write_body K s inp irad w).world.ewoc_hists = w.ewoc_hists ∧
      (write_body K s inp irad w).world.njets_tot = w.njets_tot := by
  unfold write_body
  dsimp only
  split
  · split
    · exact ⟨rfl, rfl⟩
    · split <;> exact ⟨rfl, rfl⟩
  · exact ⟨rfl, rfl⟩

theorem accumulates_main (K : Kernel J) (s : Settings) (inp : Input J) :
    Accumulates (main K s inp) := by
  apply main_induct (fun _ _ => accumulates_seq) accumulates_done accumulates_raise
  · intro irad
    exact accumulates_of_same (fun w => ⟨setup_body_fills s irad w, setup_body_bin s irad w⟩)
  · exact accumulates_of_same (fun _ => ⟨rfl, fun _ _ => rfl⟩)
  · exact accumulates_of_same (fun _ => ⟨rfl, fun _ _ => rfl⟩)
  · exact accumulates_jet_body K s
  · intro irad
    refine accumulates_of_same (fun w => ⟨write_body_fills K s inp irad w, fun r k => ?_⟩)
    unfold World.bin
    rw [(write_body_hists K s inp irad w).1]

theorem accumulates_new_fills {b : Block} (h : Accumulates b) (w : World) (irad k : Nat) :
    (b w).world.bin irad k = w.bin irad k + bin_total (new_fills w (b w)) irad k := by
  obtain ⟨fs, hfs, hq⟩ := h w
  have : new_fills w (b w) = fs := by
    unfold new_fills
    rw [hfs, List.drop_left]
  rw [this]
  exact hq irad k

/-- Every bin of every histogram of a run is the sum of the amounts
`degeneracy*weight` of the fills that went to it. -/
theorem run_bin_eq_total (K : Kernel J) (s : Settings) (inp : Input J) (irad k : Nat) :
    (run K s inp).world.bin irad k = bin_total (run K s inp).world.fills irad k := by
  have h := accumulates_new_fills (accumulates_main K s inp) World.init irad k
  have e : new_fills World.init (main K s inp World.init) = (run K s inp).world.fills := by
    simp [new_fills, World.init, run]
  rw [e] at h
  rw [show (run K s inp) = main K s inp World.init from rfl] at *
  rw [h]
  simp [World.bin, World.init, Hist.bin]

/-! ## Weights and amounts -/

theorem loop_fill_weight (K : Kernel J) (s : Settings) (irad : Nat) (jet : J)
    (subjets : List J) (f : Fill) (h : LoopFillSpec K s irad jet subjets f) :
    ∃ s1 s2, subjets[f.isub]? = some s1 ∧ subjets[f.jsub]? = some s2 ∧ f.irad = irad ∧
      f.degeneracy = degeneracy s f.isub f.jsub ∧
      f.weight = K.pow (K.e s1 * K.e s2 / K.pow (K.e jet) 2) s.e_weight ∧
      K.pow (K.e jet) 2 ≠ 0 := by
  obtain ⟨_, _, s1, s2, val, h1, h2, _, h4, hf⟩ := h
  refine ⟨s1, s2, h1, h2, ?_, ?_, ?_, h4⟩
  · rw [hf]; rfl
  · conv_lhs => rw [hf]
    rfl
  · conv_lhs => rw [hf]
    rfl

theorem index_pairs_two : index_pairs 2 = [(0, 0), (0, 1), (1, 1)] := by decide

/-- The fills of the pair loop of a jet of energy 100 with two subjets of
energies 30 and 70, for the exponent 1. -/
theorem two_subjet_fills (K : Kernel J) (s : Settings) (hsq : ∀ x, K.pow x 2 = x ^ 2)
    (hone : ∀ x, K.pow x 1 = x) (irad : Nat) (jet s1 s2 : J) (w : World)
    (hjet : K.e jet = 100) (he1 : K.e s1 = 30) (he2 : K.e s2 = 70) (hexp : s.e_weight = 1)
    (hok : (pair_loop K s irad jet [s1, s2] w).error = none) :
    (new_fills w (pair_loop K s irad jet [s1, s2] w)).map
        (fun f => (f.pair, f.degeneracy, f.amount))
      = [((0, 0), degeneracy s 0 0, (degeneracy s 0 0 : ℚ) * (9 / 100)),
         ((0, 1), degeneracy s 0 1, (degeneracy s 0 1 : ℚ) * (21 / 100)),
         ((1, 1), degeneracy s 1 1, (degeneracy s 1 1 : ℚ) * (49 / 100))] := by
  have hspec := emits_on_new (pair_loop_emits K s irad jet [s1, s2]) w
  have hE : K.pow (K.e jet) 2 ≠ 0 := by
    rw [hsq, hjet]
    norm_num
  have htrace := (pair_loop_fills_trace K s irad jet [s1, s2] w hE).2 hok
  simp only [List.length_cons, List.length_nil] at htrace
  rw [show (0 + 1 + 1 : Nat) = 2 from rfl, index_pairs_two] at htrace
  have key : ∀ f ∈ new_fills w (pair_loop K s irad jet [s1, s2] w),
      f.degeneracy = degeneracy s f.isub f.jsub ∧
      f.amount = (degeneracy s f.isub f.jsub : ℚ) *
        (K.e ([s1, s2].getD f.isub jet) * K.e ([s1, s2].getD f.jsub jet) / 10000) := by
    intro f hf
    obtain ⟨t1, t2, h1, h2, _, hd, hw, _⟩ :=
      loop_fill_weight K s irad jet [s1, s2] f (hspec f hf)
    refine ⟨hd, ?_⟩
    unfold Fill.amount
    rw [hd, hw, hexp, hone, hsq, hjet, List.getD_eq_getElem?_getD,
      List.getD_eq_getElem?_getD, h1, h2]
    norm_num
  generalize new_fills w (pair_loop K s irad jet [s1, s2] w) = fs at htrace key
  match fs, htrace, key with
  | [a, b, c], htrace, key =>
    simp only [List.map_cons, List.map_nil, List.cons.injEq, and_true] at htrace
    obtain ⟨ha, hb, hc⟩ := htrace
    obtain ⟨da, ka⟩ := key a (by simp)
    obtain ⟨db, kb⟩ := key b (by simp)
    obtain ⟨dc, kc⟩ := key c (by simp)
    have ha1 : a.isub = 0 := congrArg Prod.fst ha
    have ha2 : a.jsub = 0 := congrArg Prod.snd ha
    have hb1 : b.isub = 0 := congrArg Prod.fst hb
    have hb2 : b.jsub = 1 := congrArg Prod.snd hb
    have hc1 : c.isub = 1 := congrArg Prod.fst hc
    have hc2 : c.jsub = 1 := congrArg Prod.snd hc
    rw [ha1, ha2] at ka da
    rw [hb1, hb2] at kb db
    rw [hc1, hc2] at kc dc
    simp only [List.getD_cons_zero, List.getD_cons_succ, he1, he2] at ka kb kc
    simp only [List.map_cons, List.map_nil, ha, hb, hc, ka, kb, kc, da, db, dc]
    norm_num
  | [], htrace, _ => simp at htrace
  | [_], htrace, _ => simp at htrace
  | [_, _], htrace, _ => simp at htrace
  | _ :: _ :: _ :: _ :: _, htrace, _ => simp at htrace

theorem spill_total_nil (irad k : Nat) : spill_total [] irad k = Val.fin 0 := rfl

theorem spill_total_append (gs hs : List Spill) (irad k : Nat) :
    spill_total (gs ++ hs) irad k = spill_total gs irad k + spill_total hs irad k := by
  simp [spill_total, List.filter_append]

theorem val_fin_add (a b : ℚ) : Val.fin (a + b) = Val.fin a + Val.fin b := rfl

/-- The value of every bin grows by the IEEE sum of the amounts that go to it:
the amounts of the fills and those of the fills through a division by zero. -/
theorem value_growth {b : Block} (hacc : Accumulates b)
    (hsp : Logs World.spills (fun _ => True) b) (w : World) (r k : Nat) :
    (b w).world.value r k = w.value r k + Val.fin (bin_total (new_fills w (b w)) r k)
      + spill_total (new_spills w (b w)) r k := by
  unfold World.value
  rw [accumulates_new_fills hacc w r k, (logs_on_new_spills hsp w).1, spill_total_append,
    val_fin_add]
  abel

theorem loop_spill_weight (K : Kernel J) (s : Settings) (irad : Nat) (jet : J)
    (subjets : List J) (g : Spill) (h : LoopSpillSpec K s irad jet subjets g) :
    ∃ s1 s2, subjets[g.isub]? = some s1 ∧ subjets[g.jsub]? = some s2 ∧ g.irad = irad ∧
      g.degeneracy = degeneracy s g.isub g.jsub ∧
      g.weight = K.pow_nonfinite (Val.div (K.e s1 * K.e s2) (K.pow (K.e jet) 2)) s.e_weight ∧
      K.pow (K.e jet) 2 = 0 := by
  obtain ⟨_, _, s1, s2, val, h1, h2, _, h4, hg⟩ := h
  refine ⟨s1, s2, h1, h2, ?_, ?_, ?_, h4⟩
  · rw [hg]; rfl
  · conv_lhs => rw [hg]
    rfl
  · conv_lhs => rw [hg]
    rfl

/-- C2. With `pow(x, 2.)` the square: every fill of the pair loop of a jet is
for two subjets of the jet, of energies `E_i` and `E_j` (the same subjet for a
contact term), and has the weight `pow(E_i * E_j / E_jet ^ 2, e_weight)`; every
bin grows by the sum of `degeneracy * weight` over the fills that go to it. For a
jet of energy 100 with two subjets of energies 30 and 70, exponent 1 (with
`pow(x, 1) = x`) and both term kinds enabled, the amounts added are 0.09 for
`(0, 0)`, 0.42 for `(0, 1)` and 0.49 for `(1, 1)`. A weight is computed through
a division by zero only for a jet of energy 0: it is then `pow` of the IEEE
quotient `E_i * E_j / 0`, and the value of every bin grows by the IEEE sum of
the amounts `degeneracy * weight` of both kinds. -/
theorem weight_and_amount (K : Kernel J) (s : Settings) (hsq : ∀ x, K.pow x 2 = x ^ 2)
    (irad : Nat) (jet : J) (subjets : List J) (w : World) :
    (∀ f ∈ new_fills w (pair_loop K s irad jet subjets w),
      ∃ s1 s2, subjets[f.isub]? = some s1 ∧ subjets[f.jsub]? = some s2 ∧
        (f.isub = f.jsub → s1 = s2) ∧
        f.weight = K.pow (K.e s1 * K.e s2 / (K.e jet) ^ 2) s.e_weight ∧
        f.amount = (f.degeneracy : ℚ) * f.weight) ∧
    (∀ r k, (pair_loop K s irad jet subjets w).world.bin r k = w.bin r k +
      (((new_fills w (pair_loop K s irad jet subjets w)).filter
          (fun f => decide (f.irad = r ∧ f.ibin = (k : Int)))).map
        (fun f => (f.degeneracy : ℚ) * f.weight)).sum) ∧
    (∀ s1 s2, subjets = [s1, s2] → K.e jet = 100 → K.e s1 = 30 → K.e s2 = 70 →
      s.e_weight = 1 → (∀ x, K.pow x 1 = x) → s.pair_terms = true → s.contact_terms = true →
      (pair_loop K s irad jet subjets w).error = none →
      (new_fills w (pair_loop K s irad jet subjets w)).map (fun f => (f.pair, f.amount))
        = [((0, 0), 9 / 100), ((0, 1), 42 / 100), ((1, 1), 49 / 100)]) ∧
    (∀ g ∈ new_spills w (pair_loop K s irad jet subjets w),
      ∃ s1 s2, subjets[g.isub]? = some s1 ∧ subjets[g.jsub]? = some s2 ∧
        (g.isub = g.jsub → s1 = s2) ∧ K.e jet = 0 ∧
        g.weight = K.pow_nonfinite (Val.div (K.e s1 * K.e s2) 0) s.e_weight ∧
        g.amount = Val.scale (g.degeneracy : ℚ) g.weight) ∧
    (∀ r k, (pair_loop K s irad jet subjets w).world.value r k = w.value r k +
      Val.fin (((new_fills w (pair_loop K s irad jet subjets w)).filter
          (fun f => decide (f.irad = r ∧ f.ibin = (k : Int)))).map
        (fun f => (f.degeneracy : ℚ) * f.weight)).sum +
      (((new_spills w (pair_loop K s irad jet subjets w)).filter
          (fun g => decide (g.irad = r ∧ g.ibin = (k : Int)))).map
        (fun g => Val.scale (g.degeneracy : ℚ) g.weight)).sum) := by
  have hspec := emits_on_new (pair_loop_emits K s irad jet subjets) w
  refine ⟨?_, ?_, ?_, ?_, ?_⟩
  rotate_left 3
  · intro g hg
    obtain ⟨s1, s2, h1, h2, _, _, hw, h0⟩ := loop_spill_weight K s irad jet subjets g
      ((logs_on_new_spills (pair_loop_spills K s irad jet subjets) w).2 g hg)
    refine ⟨s1, s2, h1, h2, ?_, ?_, ?_, rfl⟩
    · intro he
      rw [he, h2] at h1
      exact (Option.some.inj h1).symm
    · rw [hsq] at h0
      exact pow_eq_zero_iff (two_ne_zero) |>.mp h0
    · rw [hw, h0]
  · intro r k
    exact value_growth (accumulates_pair_loop K s irad jet subjets)
      (logs_mono (pair_loop_spills K s irad jet subjets) (fun _ _ => trivial)) w r k
  · intro f hf
    obtain ⟨s1, s2, h1, h2, _, _, hw, _⟩ := loop_fill_weight K s irad jet subjets f (hspec f hf)
    refine ⟨s1, s2, h1, h2, ?_, ?_, rfl⟩
    · intro he
      rw [he, h2] at h1
      exact (Option.some.inj h1).symm
    · rw [hw, hsq]
  · intro r k
    exact accumulates_new_fills (accumulates_pair_loop K s irad jet subjets) w r k
  · intro s1 s2 hsub hjet he1 he2 hexp hone hpt hct hok
    subst hsub
    have h := two_subjet_fills K s hsq hone irad jet s1 s2 w hjet he1 he2 hexp hok
    have h2 := congrArg (List.map (fun t : (Nat × Nat) × Int × ℚ => (t.1, t.2.2))) h
    simp only [List.map_map, List.map_cons, List.map_nil, degeneracy, hpt, hct] at h2
    rw [show (new_fills w (pair_loop K s irad jet [s1, s2] w)).map
        (fun f => (f.pair, f.amount))
      = (new_fills w (pair_loop K s irad jet [s1, s2] w)).map
        ((fun t : (Nat × Nat) × Int × ℚ => (t.1, t.2.2)) ∘
          (fun f => (f.pair, f.degeneracy, f.amount))) from rfl, h2]
    norm_num

theorem collinear_pow_two (x : ℚ) : collinear.pow x 2 = x ^ 2 := by
  show pow_int x 2 = x ^ 2
  unfold pow_int
  rw [if_pos (by decide!), show (2 : ℚ).num = 2 from by decide!]
  exact zpow_ofNat x 2

theorem collinear_pow_one (x : ℚ) : collinear.pow x 1 = x := by
  show pow_int x 1 = x
  unfold pow_int
  rw [if_pos (by decide!), show (1 : ℚ).num = 1 from by decide!]
  exact zpow_one x

/-- A witness of C2: the amounts of the two-subjet scenario. -/
theorem weight_and_amount_witness :
    (new_fills one_bin_world
      (pair_loop collinear (scenario true true) 0 [30, 70] [[30], [70]] one_bin_world)).map
        (fun f => (f.pair, f.amount))
      = [((0, 0), 9 / 100), ((0, 1), 42 / 100), ((1, 1), 49 / 100)] :=
  (weight_and_amount collinear (scenario true true) collinear_pow_two 0 [30, 70]
    [[30], [70]] one_bin_world).2.2.1 [30] [70] rfl (by decide!) (by decide!) (by decide!)
    rfl collinear_pow_one rfl rfl (by decide!)

/-! ## Switching the term kinds -/

theorem same_shape_getElem {w w1 : World} (h : SameShape w w1) (irad : Nat) :
    (w.ewoc_hists[irad]?).map List.length = (w1.ewoc_hists[irad]?).map List.length := by
  unfold SameShape at h
  rw [← List.getElem?_map, ← List.getElem?_map, h]

theorem keeps_seq (a b : Block) (ha : KeepsCount a) (hb : KeepsCount b) :
    KeepsCount (seq a b) := by
  intro w
  rcases seq_cases a b w with ⟨_, h⟩ | ⟨_, h⟩
  · rw [h, hb, ha]
  · rw [h, ha]

theorem keeps_pair_body (K : Kernel J) (s : Settings) (irad : Nat) (jet : J)
    (subjets : List J) (isub jsub : Nat) :
    KeepsCount (pair_body K s irad jet subjets isub jsub) := by
  intro w
  exact (pair_body_same K s irad jet subjets isub jsub w).1

theorem keeps_pair_loop (K : Kernel J) (s : Settings) (irad : Nat) (jet : J)
    (subjets : List J) : KeepsCount (pair_loop K s irad jet subjets) :=
  pair_loop_induct keeps_seq (fun _ => rfl) K s irad jet subjets
    (fun isub jsub _ _ => keeps_pair_body K s irad jet subjets isub jsub)

theorem jet_body_count (K : Kernel J) (s : Settings) (irad : Nat) (sub_def : JetDefinition)
    (jet : J) (w : World) :
    (jet_body K s irad sub_def jet w).world.njets_tot = w.njets_tot + 1 := by
  unfold jet_body
  rw [@seq_ok _ _ _ { w with njets_tot := w.njets_tot + 1 } rfl, keeps_pair_loop]

theorem adds_zero_of_keeps {b : Block} (h : KeepsCount b) : Adds 0 b := by
  intro w
  rw [h w]
  simp

theorem adds_raise (err : Err) (c : Nat) : Adds c (raise err) := by
  intro w
  refine ⟨le_refl _, ?_, ?_⟩
  · simp only [raise]; omega
  · intro h; exact absurd h (by simp [raise])

theorem adds_seq {c d : Nat} {a b : Block} (ha : Adds c a) (hb : Adds d b) :
    Adds (c + d) (seq a b) := by
  intro w
  obtain ⟨h1, h2, h3⟩ := ha w
  rcases seq_cases a b w with ⟨hok, h⟩ | ⟨herr, h⟩
  · obtain ⟨g1, g2, g3⟩ := hb (a w).world
    rw [h]
    have e := h3 hok
    refine ⟨by omega, by push_cast; omega, ?_⟩
    intro hn
    rw [g3 hn, e]
    push_cast
    ring
  · rw [h]
    refine ⟨h1, by push_cast; omega, ?_⟩
    intro hn
    exact absurd hn herr

theorem adds_forEach {α : Type} {c : α → Nat} {body : α → Block} (xs : List α)
    (h : ∀ x, Adds (c x) (body x)) : Adds ((xs.map c).sum) (forEach body xs) := by
  induction xs with
  | nil => exact adds_zero_of_keeps (fun _ => rfl)
  | cons x xs ih =>
    rw [forEach_cons, List.map_cons, List.sum_cons]
    exact adds_seq (h x) ih

theorem adds_jets (K : Kernel J) (s : Settings) (irad : Nat) (sub_def : JetDefinition)
    (jets : List J) : Adds jets.length (forEach (jet_body K s irad sub_def) jets) := by
  have h := @adds_forEach J (fun _ => 1) (jet_body K s irad sub_def) jets
    (fun jet w => by
      rw [jet_body_count]
      exact ⟨by omega, by simp, fun _ => by simp⟩)
  simpa using h

theorem adds_radius_body (K : Kernel J) (s : Settings) (inp : Input J) (iev : Nat)
    (particles : List J) (irad : Nat)
    (hp : s.use_opendata = false → inp.pythia iev = some particles) :
    Adds (good_jets K s inp iev irad).length (radius_body K s inp iev particles irad) := by
  rw [radius_body_eq]
  unfold good_jets
  rcases s.radius_pairs[irad]? with _ | ⟨jet_rad, sub_rad⟩
  · exact adds_raise _ _
  · dsimp only
    by_cases hod : s.use_opendata = true
    · simp only [hod, if_true]
      rcases opendata_radius_rejected s.jet_rads with _ | _ | _
      · exact adds_raise _ _
      · exact adds_jets K s irad _ _
      · exact adds_raise _ _
    · have hod2 : s.use_opendata = false := by simpa using hod
      simp only [hod2, hp hod2]
      exact adds_jets K s irad _ _

theorem adds_event_body (K : Kernel J) (s : Settings) (inp : Input J) (iev : Nat) :
    Adds (accepted_in_event K s inp iev) (event_body K s inp iev) := by
  unfold event_body
  have hseen : Adds 0 (fun w => done { w with events_seen := w.events_seen + 1 }) :=
    adds_zero_of_keeps (fun _ => rfl)
  have hrad : ∀ particles, (s.use_opendata = false → inp.pythia iev = some particles) →
      Adds (accepted_in_event K s inp iev) (radius_loop K s inp iev particles) := by
    intro particles hp
    exact adds_forEach _ (fun irad => adds_radius_body K s inp iev particles irad hp)
  have key : Adds (accepted_in_event K s inp iev)
      (if !s.use_opendata then
        (match inp.pythia iev with
         | none => done
         | some particles => radius_loop K s inp iev particles)
       else radius_loop K s inp iev []) := by
    by_cases hod : s.use_opendata = true
    · simp only [hod]
      exact hrad [] (fun h => by rw [hod] at h; exact Bool.noConfusion h)
    · have hod2 : s.use_opendata = false := by simpa using hod
      simp only [hod2]
      rcases hpy : inp.pythia iev with _ | particles
      · have hz : accepted_in_event K s inp iev = 0 := by
          unfold accepted_in_event good_jets
          apply List.sum_eq_zero
          intro n hn
          obtain ⟨irad, _, rfl⟩ := List.mem_map.mp hn
          rcases s.radius_pairs[irad]? with _ | ⟨jet_rad, sub_rad⟩
          · rfl
          · simp [hod2, hpy]
        rw [hz]
        exact adds_zero_of_keeps (fun _ => rfl)
      · exact hrad particles (fun _ => hpy)
  have h := adds_seq hseen key
  simpa using h

theorem adds_event_loop (K : Kernel J) (s : Settings) (inp : Input J) :
    Adds (accepted_jets K s inp) (event_loop K s inp) :=
  adds_forEach _ (fun iev => adds_event_body K s inp iev)

theorem keeps_setup_body (s : Settings) (irad : Nat) : KeepsCount (setup_body s irad) := by
  intro w
  unfold setup_body
  rcases s.radius_pairs[irad]? with _ | rad_pair
  · rfl
  · dsimp only
    split <;> rfl

theorem keeps_forEach {α : Type} {body : α → Block} (xs : List α)
    (h : ∀ x, KeepsCount (body x)) : KeepsCount (forEach body xs) :=
  forEach_induct keeps_seq (fun _ => rfl) (fun x _ => h x)

theorem count_seq_keeps {n : Nat} {a b : Block} (ha : KeepsCount a)
    (hb : ∀ w, w.njets_tot = 0 → CountIs n (b w)) (w : World) (hw : w.njets_tot = 0) :
    CountIs n (seq a b w) := by
  rcases seq_cases a b w with ⟨_, h⟩ | ⟨herr, h⟩
  · rw [h]
    exact hb _ (by rw [ha, hw])
  · rw [h]
    refine ⟨by rw [ha, hw]; exact Int.ofNat_nonneg n, fun hn => absurd hn herr⟩

theorem main_count (K : Kernel J) (s : Settings) (inp : Input J) (w : World)
    (hw : w.njets_tot = 0) : CountIs (accepted_jets K s inp) (main K s inp w) := by
  unfold main
  have h_check : KeepsCount (check_terms s) := by
    intro w; unfold check_terms; split <;> rfl
  have h_alloc : KeepsCount (alloc_events s) := by
    intro w; unfold alloc_events; split <;> rfl
  have h_setup : KeepsCount (setup_loop s) := keeps_forEach _ (keeps_setup_body s)
  have h_write : KeepsCount (write_loop K s inp) :=
    keeps_forEach _ (fun irad w => (write_body_hists K s inp irad w).2)
  apply count_seq_keeps h_check _ w hw
  apply count_seq_keeps h_setup
  apply count_seq_keeps h_alloc
  intro w1 _
  rw [@seq_ok _ _ _ { w1 with njets_tot := 0 } rfl]
  obtain ⟨_, h2, h3⟩ := adds_event_loop K s inp { w1 with njets_tot := 0 }
  simp only [zero_add] at h2 h3
  rcases seq_cases (event_loop K s inp) (write_loop K s inp) { w1 with njets_tot := 0 } with
    ⟨hok, h⟩ | ⟨herr, h⟩
  · rw [h]
    refine ⟨by rw [h_write, h3 hok], fun _ => by rw [h_write, h3 hok]⟩
  · rw [h]
    exact ⟨h2, fun hn => absurd hn herr⟩

/-- C5. Processing an accepted jet adds exactly 1 to `njets_tot`, whatever its
subjets are and whether or not the pairing throws: the pair loop starts from the
state with the count already incremented and never changes `njets_tot`, and a
jet without subjets changes nothing else. In every
run `njets_tot` is at most the number of accepted jets (the elements of
`good_jets`, which holds no rejected jet) over all events and configurations,
and it is that number when the run completes. -/
theorem njets_tot_counts_accepted_jets (K : Kernel J) (s : Settings) :
    (∀ irad sub_def jet w,
      (jet_body K s irad sub_def jet w).world.njets_tot = w.njets_tot + 1) ∧
    (∀ irad sub_def jet w,
      jet_body K s irad sub_def jet w
        = pair_loop K s irad jet (get_subjets K sub_def jet)
            { w with njets_tot := w.njets_tot + 1 }) ∧
    (∀ irad jet subjets w,
      (pair_loop K s irad jet subjets w).world.njets_tot = w.njets_tot) ∧
    (∀ irad sub_def jet w, get_subjets K sub_def jet = [] →
      jet_body K s irad sub_def jet w = done { w with njets_tot := w.njets_tot + 1 }) ∧
    (∀ inp, (run K s inp).world.njets_tot ≤ (accepted_jets K s inp : Int) ∧
      ((run K s inp).error = none →
        (run K s inp).world.njets_tot = (accepted_jets K s inp : Int))) := by
  refine ⟨jet_body_count K s, fun _ _ _ _ => rfl, keeps_pair_loop K s, ?_, ?_⟩
  · intro irad sub_def jet w he
    unfold jet_body
    rw [he]
    rfl
  · intro inp
    exact main_count K s inp World.init rfl

/-- A witness of C5: the run of the two-subjet scenario completes and has
counted its one jet. -/
theorem njets_tot_counts_accepted_jets_witness :
    (run collinear (scenario true true) scenario_input).error = none ∧
    (run collinear (scenario true true) scenario_input).world.njets_tot = 1 :=
  ⟨by decide!,
    (((njets_tot_counts_accepted_jets collinear (scenario true true)).2.2.2.2
      scenario_input).2 (by decide!)).trans (by decide!)⟩

/-! ## Runs without a division by zero -/

theorem keeps_spills_seq (a b : Block) (ha : KeepsSpills a) (hb : KeepsSpills b) :
    KeepsSpills (seq a b) := by
  intro w
  rcases seq_cases a b w with ⟨_, h⟩ | ⟨_, h⟩
  · rw [h, hb, ha]
  · rw [h, ha]

theorem keeps_spills_jet_body (K : Kernel J) (s : Settings) (irad : Nat)
    (sub_def : JetDefinition) (jet : J) (hE : K.pow (K.e jet) 2 ≠ 0) :
    KeepsSpills (jet_body K s irad sub_def jet) := by
  unfold jet_body
  apply keeps_spills_seq _ _ (fun _ => rfl)
  apply pair_loop_induct keeps_spills_seq (fun _ => rfl)
  intro isub jsub _ _ w
  exact (pair_body_same K s irad jet (get_subjets K sub_def jet) isub jsub w).2.2.1 hE

/-- A run in which `pow(E_jet, 2.)` is not zero for any processed jet executes
no fill through a division by zero: every bin holds a rational. -/
theorem run_no_spills (K : Kernel J) (s : Settings) (inp : Input J)
    (hE : ∀ iev irad jet, jet ∈ good_jets K s inp iev irad → K.pow (K.e jet) 2 ≠ 0) :
    (run K s inp).world.spills = [] ∧
    ∀ irad k, (run K s inp).world.value irad k = Val.fin ((run K s inp).world.bin irad k) := by
  have h : KeepsSpills (main K s inp) := by
    apply main_induct_mem keeps_spills_seq (fun _ => rfl) (fun _ _ => rfl)
    · exact setup_body_spills s
    · exact fun _ => rfl
    · exact fun _ => rfl
    · intro iev irad jet_rad sub_rad jet _ hm
      exact keeps_spills_jet_body K s irad _ jet (hE iev irad jet hm)
    · exact write_body_spills K s inp
  have h0 : (run K s inp).world.spills = [] := h World.init
  refine ⟨h0, ?_⟩
  intro irad k
  unfold World.value
  rw [h0]
  exact add_zero _

/-! ## The normalised output -/

theorem collect_some {α β : Type} (f : α → Option β) (xs : List α) (ys : List β)
    (h : collect f xs = some ys) : List.Forall₂ (fun x y => f x = some y) xs ys := by
  induction xs generalizing ys with
  | nil =>
    simp only [collect, Option.some.injEq] at h
    rw [← h]
    exact List.Forall₂.nil
  | cons x xs ih =>
    unfold collect at h
    rcases hx : f x with _ | y
    · simp [hx] at h
    · rcases hxs : collect f xs with _ | ys1
      · simp [hx, hxs] at h
      · simp only [hx, hxs, Option.some.injEq] at h
        rw [← h]
        exact List.Forall₂.cons hx (ih ys1 hxs)

theorem collect_total {α β : Type} (f : α → Option β) (xs : List α)
    (h : ∀ x ∈ xs, ∃ y, f x = some y) : ∃ ys, collect f xs = some ys := by
  induction xs with
  | nil => exact ⟨[], rfl⟩
  | cons x xs ih =>
    obtain ⟨y, hy⟩ := h x (List.mem_cons_self x xs)
    obtain ⟨ys, hys⟩ := ih (fun z hz => h z (List.mem_cons_of_mem x hz))
    exact ⟨y :: ys, by simp [collect, hy, hys]⟩

theorem forall₂_range_get {β : Type} {P : Nat → β → Prop} {n : Nat} {ys : List β}
    (h : List.Forall₂ P (List.range n) ys) :
    ys.length = n ∧ ∀ k, k < n → ∃ y, ys[k]? = some y ∧ P k y := by
  have hlen : ys.length = n := by
    rw [← h.length_eq, List.length_range]
  refine ⟨hlen, ?_⟩
  intro k hk
  have hk2 : k < ys.length := by omega
  refine ⟨ys[k], List.getElem?_eq_getElem hk2, ?_⟩
  have hk1 : k < (List.range n).length := by rw [List.length_range]; exact hk
  have := List.Forall₂.get h hk1 hk2
  simpa using this

theorem val_div_of_ne_zero (a b : ℚ) (hb : b ≠ 0) :
    Val.div a b = Val.fin (a / b) ∧ a / b * b = a := by
  unfold Val.div
  rw [if_neg hb]
  exact ⟨rfl, div_mul_cancel₀ a hb⟩

theorem emit_values_normalised (K : Kernel J) (s : Settings) (hist : Hist) (extra : Nat → Val)
    (njets_tot : Int) (jet_rad sub_rad : ℚ) (es xs : List ℚ) (ys : List Val)
    (h : emit_values K s (K.get_bin_edges s.minbin s.maxbin s.nbins uflow oflow) hist extra
      njets_tot = some ys) :
    Normalised K s hist extra njets_tot ⟨jet_rad, sub_rad, es, xs, ys⟩ := by
  obtain ⟨hlen, hget⟩ := forall₂_range_get (collect_some _ _ _ h)
  refine ⟨hlen, ?_⟩
  intro k hk
  obtain ⟨y, hy, hv⟩ := hget k hk
  unfold histval bin_width at hv
  rcases hhi : (K.get_bin_edges s.minbin s.maxbin s.nbins uflow oflow)[k + 1]? with _ | hi
  · simp [hhi] at hv
  rcases hlo : (K.get_bin_edges s.minbin s.maxbin s.nbins uflow oflow)[k]? with _ | lo
  · simp [hhi, hlo] at hv
  rcases hraw : hist[k]? with _ | raw
  · simp [hhi, hlo, hraw] at hv
  simp only [hhi, hlo, hraw, Option.some.injEq] at hv
  refine ⟨lo, hi, raw, rfl, rfl, rfl, ?_⟩
  show ys[k]? = _
  rw [hy, ← hv]
  unfold physical
  split <;> rfl

theorem write_body_cases (K : Kernel J) (s : Settings) (inp : Input J) (irad : Nat)
    (w : World) :
    (∃ err, write_body K s inp irad w = raise err w) ∨
    ∃ rad_pair hist es xs ys, s.radius_pairs[irad]? = some rad_pair ∧
      w.ewoc_hists[irad]? = some hist ∧ inp.is_open rad_pair = true ∧
      emit_edges K s (K.get_bin_edges s.minbin s.maxbin s.nbins uflow oflow) = some es ∧
      emit_centers K s (K.get_bin_centers s.minbin s.maxbin s.nbins uflow oflow) = some xs ∧
      emit_values K s (K.get_bin_edges s.minbin s.maxbin s.nbins uflow oflow) hist
        (spill_total w.spills irad) w.njets_tot = some ys ∧
      write_body K s inp irad w
        = done { w with written := w.written ++ [⟨rad_pair.1, rad_pair.2, es, xs, ys⟩] } := by
  unfold write_body
  dsimp only
  rcases h1 : s.radius_pairs[irad]? with _ | rad_pair
  · left; exact ⟨Err.bad_index, rfl⟩
  rcases h2 : w.ewoc_hists[irad]? with _ | hist
  · left; exact ⟨Err.bad_index, rfl⟩
  by_cases h3 : inp.is_open rad_pair = true
  · rcases h4 : emit_edges K s (K.get_bin_edges s.minbin s.maxbin s.nbins uflow oflow)
      with _ | es
    · left; exact ⟨Err.bad_index, by simp [h3]⟩
    rcases h5 : emit_centers K s (K.get_bin_centers s.minbin s.maxbin s.nbins uflow oflow)
      with _ | xs
    · left; exact ⟨Err.bad_index, by simp [h3]⟩
    rcases h6 : emit_values K s (K.get_bin_edges s.minbin s.maxbin s.nbins uflow oflow) hist
      (spill_total w.spills irad) w.njets_tot with _ | ys
    · left; exact ⟨Err.bad_index, by simp [h3, h6]⟩
    right
    exact ⟨rad_pair, hist, es, xs, ys, rfl, rfl, h3, rfl, rfl, h6, by simp [h3, h6]⟩
  · left; exact ⟨Err.file_not_open, by simp [h3]⟩

theorem write_loop_emitted (K : Kernel J) (s : Settings) (inp : Input J) (irads : List Nat)
    (w : World) :
    (forEach (write_body K s inp) irads w).world.ewoc_hists = w.ewoc_hists ∧
    (forEach (write_body K s inp) irads w).world.njets_tot = w.njets_tot ∧
    (forEach (write_body K s inp) irads w).world.spills = w.spills ∧
    ((forEach (write_body K s inp) irads w).error = none →
      ∃ arts, (forEach (write_body K s inp) irads w).world.written = w.written ++ arts ∧
        List.Forall₂ (Emitted K s w.ewoc_hists w.spills w.njets_tot) irads arts) := by
  induction irads generalizing w with
  | nil => exact ⟨rfl, rfl, rfl, fun _ => ⟨[], by simp [forEach_nil, done], List.Forall₂.nil⟩⟩
  | cons irad irads ih =>
    rw [forEach_cons]
    obtain ⟨e1, e2⟩ := write_body_hists K s inp irad w
    have e3 := write_body_spills K s inp irad w
    rcases seq_cases (write_body K s inp irad) (forEach (write_body K s inp) irads) w with
      ⟨hok, hseq⟩ | ⟨herr, hseq⟩
    · obtain ⟨i1, i2, i3, i4⟩ := ih (write_body K s inp irad w).world
      rw [hseq]
      refine ⟨by rw [i1, e1], by rw [i2, e2], by rw [i3, e3], ?_⟩
      intro hn
      obtain ⟨arts, ha, hall⟩ := i4 hn
      rcases write_body_cases K s inp irad w with ⟨err, hr⟩ |
        ⟨rad_pair, hist, es, xs, ys, h1, h2, _, h4, h5, h6, hd⟩
      · rw [hr] at hok
        exact absurd hok (by simp [raise])
      · refine ⟨⟨rad_pair.1, rad_pair.2, es, xs, ys⟩ :: arts, ?_, ?_⟩
        · rw [ha, hd]
          simp [done]
        · rw [e1, e2, e3] at hall
          exact List.Forall₂.cons ⟨rad_pair, hist, es, xs, ys, h1, h2, h4, h5, h6, rfl⟩ hall
    · rw [hseq]
      exact ⟨e1, e2, e3, fun hn => absurd hn herr⟩

theorem keeps_written_seq (a b : Block) (ha : KeepsWritten a) (hb : KeepsWritten b) :
    KeepsWritten (seq a b) := by
  intro w
  rcases seq_cases a b w with ⟨_, h⟩ | ⟨_, h⟩
  · rw [h, hb, ha]
  · rw [h, ha]

theorem keeps_written_jet_body (K : Kernel J) (s : Settings) (irad : Nat)
    (sub_def : JetDefinition) (jet : J) : KeepsWritten (jet_body K s irad sub_def jet) := by
  unfold jet_body
  apply keeps_written_seq _ _ (fun _ => rfl)
  apply pair_loop_induct keeps_written_seq (fun _ => rfl)
  intro isub jsub _ _ w
  exact (pair_body_same K s irad jet (get_subjets K sub_def jet) isub jsub w).2.1

theorem keeps_written_setup_body (s : Settings) (irad : Nat) :
    KeepsWritten (setup_body s irad) := by
  intro w
  unfold setup_body
  rcases s.radius_pairs[irad]? with _ | rad_pair
  · rfl
  · dsimp only
    split <;> rfl

theorem seq_none {a b : Block} {w : World} (h : (seq a b w).error = none) :
    (a w).error = none ∧ seq a b w = b (a w).world := by
  rcases seq_cases a b w with ⟨hok, hseq⟩ | ⟨herr, hseq⟩
  · exact ⟨hok, hseq⟩
  · rw [hseq] at h
    exact absurd h herr

/-- The state of a completed run is the one the output loop produces from a
state in which nothing has been written yet. -/
theorem run_split (K : Kernel J) (s : Settings) (inp : Input J)
    (h : (run K s inp).error = none) :
    ∃ w, w.written = [] ∧ run K s inp = write_loop K s inp w := by
  unfold run main at h ⊢
  have kc : KeepsWritten (check_terms s) := by
    intro w; unfold check_terms; split <;> rfl
  have ka : KeepsWritten (alloc_events s) := by
    intro w; unfold alloc_events; split <;> rfl
  have ks : KeepsWritten (setup_loop s) :=
    forEach_induct keeps_written_seq (fun _ => rfl) (fun irad _ => keeps_written_setup_body s irad)
  have ke : KeepsWritten (event_loop K s inp) :=
    event_loop_induct keeps_written_seq (fun _ => rfl) (fun _ _ _ => rfl) K s inp (fun _ => rfl)
      (keeps_written_jet_body K s)
  obtain ⟨_, h1⟩ := seq_none h
  rw [h1] at h ⊢
  obtain ⟨_, h2⟩ := seq_none h
  rw [h2] at h ⊢
  obtain ⟨_, h3⟩ := seq_none h
  rw [h3] at h ⊢
  obtain ⟨_, h4⟩ := seq_none h
  rw [h4] at h ⊢
  obtain ⟨_, h5⟩ := seq_none h
  rw [h5]
  refine ⟨_, ?_, rfl⟩
  rw [ke]
  show (alloc_events s ((setup_loop s) ((check_terms s) World.init).world).world).world.written = []
  rw [ka, ks, kc]
  rfl

theorem world_bin_of_get (w : World) (irad k : Nat) (hist : Hist) (raw : ℚ)
    (h1 : w.ewoc_hists[irad]? = some hist) (h2 : hist[k]? = some raw) : w.bin irad k = raw := by
  simp [World.bin, Hist.bin, List.getD_eq_getElem?_getD, h1, h2]

theorem write_body_completes (K : Kernel J) (s : Settings) (inp : Input J) (irad : Nat)
    (w : World) (rad_pair : ℚ × ℚ) (h1 : s.radius_pairs[irad]? = some rad_pair)
    (h2 : HistReady s irad w) (h3 : inp.is_open rad_pair = true)
    (h4 : ((K.get_bin_edges s.minbin s.maxbin s.nbins uflow oflow).length : Int) = s.nbins + 1)
    (h5 : ((K.get_bin_centers s.minbin s.maxbin s.nbins uflow oflow).length : Int) = s.nbins) :
    (write_body K s inp irad w).error = none := by
  obtain ⟨hist, hh, hlen⟩ := h2
  have hn : 0 ≤ s.nbins := by rw [← hlen]; exact Int.ofNat_nonneg _
  have hcast : (s.nbins.toNat : Int) = s.nbins := Int.toNat_of_nonneg hn
  obtain ⟨es0, he0⟩ := collect_total
    (fun ibin => ((K.get_bin_edges s.minbin s.maxbin s.nbins uflow oflow)[ibin]?).map
      (physical K s)) (List.range (s.nbins + 1).toNat) (by
      intro k hk
      have hk2 : k < (K.get_bin_edges s.minbin s.maxbin s.nbins uflow oflow).length := by
        have := List.mem_range.mp hk
        omega
      simp only [List.getElem?_eq_getElem hk2, Option.map_some']
      exact ⟨_, rfl⟩)
  have hlast : s.nbins.toNat < (K.get_bin_edges s.minbin s.maxbin s.nbins uflow oflow).length := by
    omega
  have hes : emit_edges K s (K.get_bin_edges s.minbin s.maxbin s.nbins uflow oflow)
      = some (es0 ++ [(K.get_bin_edges s.minbin s.maxbin s.nbins uflow oflow)[s.nbins.toNat]]) := by
    unfold emit_edges
    rw [he0]
    simp only [not_lt.mpr hn, if_false, List.getElem?_eq_getElem hlast]
  obtain ⟨xs, hxs⟩ := collect_total
    (fun ibin => ((K.get_bin_centers s.minbin s.maxbin s.nbins uflow oflow)[ibin]?).map
      (physical K s)) (List.range s.nbins.toNat) (by
      intro k hk
      have hk2 : k < (K.get_bin_centers s.minbin s.maxbin s.nbins uflow oflow).length := by
        have := List.mem_range.mp hk
        omega
      simp only [List.getElem?_eq_getElem hk2, Option.map_some']
      exact ⟨_, rfl⟩)
  obtain ⟨ys, hys⟩ := collect_total
    (histval K s (K.get_bin_edges s.minbin s.maxbin s.nbins uflow oflow) hist
      (spill_total w.spills irad) w.njets_tot)
    (List.range s.nbins.toNat) (by
      intro k hk
      have hk0 := List.mem_range.mp hk
      have hk1 : k + 1 < (K.get_bin_edges s.minbin s.maxbin s.nbins uflow oflow).length := by
        omega
      have hk2 : k < (K.get_bin_edges s.minbin s.maxbin s.nbins uflow oflow).length := by omega
      have hk3 : k < hist.length := by omega
      unfold histval bin_width
      rw [List.getElem?_eq_getElem hk1, List.getElem?_eq_getElem hk2,
        List.getElem?_eq_getElem hk3]
      exact ⟨_, rfl⟩)
  unfold write_body
  simp only [h1, hh, h3, hes]
  unfold emit_centers emit_values
  rw [hxs, hys]
  rfl

theorem val_over_fin (raw b : ℚ) : Val.over (Val.fin raw + Val.fin 0) b = Val.div raw b := by
  have e : Val.fin raw + Val.fin 0 = Val.fin raw := add_zero (Val.fin raw)
  rw [e]
  rfl

/-- C6. In a completed run one artifact is written per configuration, and in
the artifact of configuration `irad` the value of bin `k` is
`hist / (dX * njets_tot)`: `hist` is the value of the bin of the raw histogram,
`dX` the difference of the two edges of the bin (of the edges themselves for
linear bins, of `pow(10, edge)` for logarithmic bins) and `njets_tot` the jet
count of the run, the same for all configurations. When no amount computed
through a division by zero went to the bin, `hist` is the rational `raw` held in
`ewoc_hists`, the value is `raw / (dX * njets_tot)`, and when moreover `dX` and
`njets_tot` are not zero it is finite and gives `raw` back when multiplied by
`dX * njets_tot`. The output of one configuration completes when its file is
open and the histogram, the edges and the centers have `nbins`, `nbins + 1` and
`nbins` entries. No amount is computed through a division by zero in a run of
which no processed jet has `pow(E_jet, 2.) = 0`. -/
theorem normalised_output (K : Kernel J) (s : Settings) (inp : Input J)
    (hok : (run K s inp).error = none) :
    (run K s inp).world.written.length = s.radius_pairs.length ∧
    (∀ irad k, irad < s.radius_pairs.length → k < s.nbins.toNat → ∃ a lo hi,
      (run K s inp).world.written[irad]? = some a ∧
      (K.get_bin_edges s.minbin s.maxbin s.nbins uflow oflow)[k]? = some lo ∧
      (K.get_bin_edges s.minbin s.maxbin s.nbins uflow oflow)[k + 1]? = some hi ∧
      a.ys[k]? = some (Val.over ((run K s inp).world.value irad k)
        ((if s.lin_bins then hi - lo else K.pow 10 hi - K.pow 10 lo)
          * ((run K s inp).world.njets_tot : ℚ))) ∧
      (spill_total (run K s inp).world.spills irad k = Val.fin 0 →
        a.ys[k]? = some (Val.div ((run K s inp).world.bin irad k)
          ((if s.lin_bins then hi - lo else K.pow 10 hi - K.pow 10 lo)
            * ((run K s inp).world.njets_tot : ℚ))) ∧
        ((if s.lin_bins then hi - lo else K.pow 10 hi - K.pow 10 lo) ≠ 0 →
          (run K s inp).world.njets_tot ≠ 0 →
          ∃ v, a.ys[k]? = some (Val.fin v) ∧
            v * ((if s.lin_bins then hi - lo else K.pow 10 hi - K.pow 10 lo)
              * ((run K s inp).world.njets_tot : ℚ)) = (run K s inp).world.bin irad k))) ∧
    (∀ irad w rad_pair, s.radius_pairs[irad]? = some rad_pair → HistReady s irad w →
      inp.is_open rad_pair = true →
      ((K.get_bin_edges s.minbin s.maxbin s.nbins uflow oflow).length : Int) = s.nbins + 1 →
      ((K.get_bin_centers s.minbin s.maxbin s.nbins uflow oflow).length : Int) = s.nbins →
      (write_body K s inp irad w).error = none) ∧
    ((∀ iev irad jet, jet ∈ good_jets K s inp iev irad → K.pow (K.e jet) 2 ≠ 0) →
      ∀ irad k, spill_total (run K s inp).world.spills irad k = Val.fin 0) := by
  have hlast : (∀ iev irad jet, jet ∈ good_jets K s inp iev irad → K.pow (K.e jet) 2 ≠ 0) →
      ∀ irad k, spill_total (run K s inp).world.spills irad k = Val.fin 0 := by
    intro hgood irad k
    rw [(run_no_spills K s inp hgood).1]
    rfl
  obtain ⟨w0, hw0, hrun⟩ := run_split K s inp hok
  obtain ⟨e1, e2, e3, e4⟩ := write_loop_emitted K s inp (List.range s.radius_pairs.length) w0
  rw [hrun] at hok ⊢
  unfold write_loop at hok ⊢
  obtain ⟨arts, harts, hall⟩ := e4 hok
  rw [hw0, List.nil_append] at harts
  obtain ⟨hlen, hget⟩ := forall₂_range_get hall
  refine ⟨by rw [harts, hlen], ?_, ?_, ?_⟩
  rotate_left 2
  · intro hgood irad k
    have h := hlast hgood irad k
    rw [hrun] at h
    exact h
  · intro irad k hirad hk
    obtain ⟨a, ha, rad_pair, hist, es, xs, ys, _, hh, _, _, hv, hdef⟩ := hget irad hirad
    obtain ⟨_, hnorm⟩ := emit_values_normalised K s hist (spill_total w0.spills irad)
      w0.njets_tot rad_pair.1 rad_pair.2 es xs ys hv
    obtain ⟨lo, hi, raw, hlo, hhi, hraw, hy⟩ := hnorm k hk
    have hbin : (forEach (write_body K s inp) (List.range s.radius_pairs.length) w0).world.bin
        irad k = raw := by
      apply world_bin_of_get _ irad k hist raw _ hraw
      rw [e1, hh]
    have hvalue : (forEach (write_body K s inp) (List.range s.radius_pairs.length)
        w0).world.value irad k = Val.fin raw + spill_total w0.spills irad k := by
      unfold World.value
      rw [hbin, e3]
    rw [hvalue, hbin, e2, e3, harts]
    have hy2 : a.ys[k]? = some (Val.over (Val.fin raw + spill_total w0.spills irad k)
        ((if s.lin_bins then hi - lo else K.pow 10 hi - K.pow 10 lo) * (w0.njets_tot : ℚ))) := by
      rw [hdef]; exact hy
    refine ⟨a, lo, hi, ha, hlo, hhi, hy2, ?_⟩
    intro hzero
    have hy3 : a.ys[k]? = some (Val.div raw
        ((if s.lin_bins then hi - lo else K.pow 10 hi - K.pow 10 lo) * (w0.njets_tot : ℚ))) := by
      rw [hy2, hzero, val_over_fin]
    refine ⟨hy3, ?_⟩
    intro hdx hnj
    have hne : (if s.lin_bins then hi - lo else K.pow 10 hi - K.pow 10 lo)
        * (w0.njets_tot : ℚ) ≠ 0 :=
      mul_ne_zero hdx (Int.cast_ne_zero.mpr hnj)
    obtain ⟨hd1, hd2⟩ := val_div_of_ne_zero raw _ hne
    exact ⟨_, by rw [hy3, hd1], hd2⟩
  · intro irad w rad_pair h1 h2 h3 h4 h5
    exact write_body_completes K s inp irad w rad_pair h1 h2 h3 h4 h5

/-- The run on a jet of energy 0 with one subjet of energy 0: the weight of
the pair `(0, 0)` is `0 * 0 / 0`, a NaN; the run goes on, counts the jet,
completes and writes the NaN as the value of the bin. -/
theorem zero_energy_run :
    good_jets collinear zero_energy_scenario zero_energy_input 0 0 = [[0]] ∧
    (run collinear zero_energy_scenario zero_energy_input).error = none ∧
    (run collinear zero_energy_scenario zero_energy_input).world.njets_tot = 1 ∧
    (run collinear zero_energy_scenario zero_energy_input).world.fills = [] ∧
    (run collinear zero_energy_scenario zero_energy_input).world.spills
      = [⟨0, 0, 0, 1, Val.nan, Val.fin 0, 0⟩] ∧
    (run collinear zero_energy_scenario zero_energy_input).world.value 0 0 = Val.nan ∧
    (run collinear zero_energy_scenario zero_energy_input).world.written.map Artifact.ys
      = [[Val.nan]] := by
  refine ⟨?_, ?_, ?_, ?_, ?_, ?_, ?_⟩ <;> decide!

/-- A witness of C6: the run of the two-subjet scenario completes and writes
one artifact; so does the run on a jet of energy 0, whose bin holds a NaN. -/
theorem normalised_output_witness :
    ((run collinear (scenario true true) scenario_input).error = none ∧
      (run collinear (scenario true true) scenario_input).world.written.length = 1) ∧
    ((run collinear zero_energy_scenario zero_energy_input).error = none ∧
      (run collinear zero_energy_scenario zero_energy_input).world.written.length = 1 ∧
      (run collinear zero_energy_scenario zero_energy_input).world.value 0 0 = Val.nan) :=
  ⟨⟨by decide!,
      (normalised_output collinear (scenario true true) scenario_input (by decide!)).1⟩,
    ⟨by decide!,
      (normalised_output collinear zero_energy_scenario zero_energy_input (by decide!)).1,
      by decide!⟩⟩

/-! ## The check on the term switches -/

theorem contact_val_error (K : Kernel J) (pair_obs : String) (s1 : J) (err : Err)
    (h : contact_val K pair_obs s1 = Except.error err) :
    err = Err.invalid_pair_obs pair_obs := by
  unfold contact_val at h
  split at h
  · exact Except.noConfusion h
  · split at h
    · exact Except.noConfusion h
    · split at h
      · exact Except.noConfusion h
      · split at h
        · exact Except.noConfusion h
        · exact (Except.error.inj h).symm

theorem angle_error (K : Kernel J) (s1 s2 : J) (err : Err)
    (h : angle K s1 s2 = Except.error err) : err = Err.theta_nan := by
  unfold angle at h
  split at h
  · exact (Except.error.inj h).symm
  · exact Except.noConfusion h

theorem pair_val_error (K : Kernel J) (pair_obs : String) (s1 s2 : J) (err : Err)
    (h : pair_val K pair_obs s1 s2 = Except.error err) :
    err = Err.invalid_pair_obs pair_obs ∨ err = Err.theta_nan := by
  unfold pair_val at h
  split at h
  · exact Except.noConfusion h
  · split at h
    · exact Except.noConfusion h
    · split at h
      · right
        rcases ha : angle K s1 s2 with e | th
        · rw [ha] at h
          have := angle_error K s1 s2 e ha
          rw [this] at h
          exact (Except.error.inj h).symm
        · rw [ha] at h
          exact Except.noConfusion h
      · split at h
        · right
          unfold angle_squared at h
          rcases ha : angle K s1 s2 with e | th
          · rw [ha] at h
            have := angle_error K s1 s2 e ha
            rw [this] at h
            exact (Except.error.inj h).symm
          · rw [ha] at h
            exact Except.noConfusion h
        · split at h
          · exact Except.noConfusion h
          · split at h
            · exact Except.noConfusion h
            · split at h
              · exact Except.noConfusion h
              · left; exact (Except.error.inj h).symm

theorem obs_val_error (K : Kernel J) (s : Settings) (isub jsub : Nat) (s1 s2 : J) (err : Err)
    (h : obs_val K s isub jsub s1 s2 = Except.error err) :
    err = Err.invalid_pair_obs s.pair_obs ∨ err = Err.theta_nan := by
  unfold obs_val at h
  split at h
  · left; exact contact_val_error K _ _ _ h
  · exact pair_val_error K _ _ _ _ h

theorem never_no_terms_seq (a b : Block) (ha : NeverNoTerms a) (hb : NeverNoTerms b) :
    NeverNoTerms (seq a b) := by
  intro w
  rcases seq_cases a b w with ⟨_, h⟩ | ⟨_, h⟩
  · rw [h]; exact hb _
  · rw [h]; exact ha _

theorem never_no_terms_raise (err : Err) (h : err ≠ Err.no_terms) :
    NeverNoTerms (raise err) := by
  intro w hc
  exact h (Option.some.inj hc)

theorem never_no_terms_jet_body (K : Kernel J) (s : Settings) (irad : Nat)
    (sub_def : JetDefinition) (jet : J) : NeverNoTerms (jet_body K s irad sub_def jet) := by
  unfold jet_body
  apply never_no_terms_seq _ _ (fun _ => by simp [done])
  apply pair_loop_induct never_no_terms_seq (fun _ => by simp [done])
  intro isub jsub _ _ w
  unfold pair_body
  rcases (get_subjets K sub_def jet)[isub]? with _ | s1
  · simp [raise]
  rcases (get_subjets K sub_def jet)[jsub]? with _ | s2
  · simp [raise]
  dsimp only
  rcases ho : obs_val K s isub jsub s1 s2 with err | val
  · dsimp only
    rcases obs_val_error K s isub jsub s1 s2 err ho with h | h <;> simp [raise, h]
  · dsimp only
    split
    · exact (spill_same _ w).2.2.2.2
    · rcases fill_cases (⟨irad, isub, jsub, degeneracy s isub jsub,
        K.pow (K.e s1 * K.e s2 / K.pow (K.e jet) 2) s.e_weight, val,
        K.bin_position val s.minbin s.maxbin s.nbins s.bin_scheme uflow oflow⟩ : Fill) w with
        hf | ⟨_, _, _, _, hf⟩
      · rw [hf]; simp [raise]
      · rw [hf]; simp [done]

theorem never_no_terms_rest (K : Kernel J) (s : Settings) (inp : Input J) :
    NeverNoTerms (seq (setup_loop s) (seq (alloc_events s) (seq reset_count
      (seq (event_loop K s inp) (write_loop K s inp))))) := by
  refine never_no_terms_seq _ _ ?_ (never_no_terms_seq _ _ ?_ (never_no_terms_seq _ _ ?_
    (never_no_terms_seq _ _ ?_ ?_)))
  · apply forEach_induct never_no_terms_seq (fun _ => by simp [done])
    intro irad _ w
    unfold setup_body
    rcases s.radius_pairs[irad]? with _ | rad_pair
    · simp [raise]
    · dsimp only
      split <;> simp [raise, done]
  · intro w
    unfold alloc_events
    split <;> simp [raise, done]
  · intro w
    simp [reset_count, done]
  · exact event_loop_induct never_no_terms_seq (fun _ => by simp [done])
      never_no_terms_raise K s inp (fun _ => by simp [done]) (never_no_terms_jet_body K s)
  · apply forEach_induct never_no_terms_seq (fun _ => by simp [done])
    intro irad _ w
    rcases write_body_cases K s inp irad w with ⟨err, h⟩ | ⟨_, _, _, _, _, _, _, _, _, _, _, h⟩
    · rw [h]
      unfold write_body at h
      revert h
      dsimp only
      split
      · split
        · intro h
          have := congrArg Outcome.error h
          simp only [raise, Option.some.injEq] at this
          rw [← this]; simp [raise]
        · split
          · intro h
            have := congrArg Outcome.error h
            simp [raise, done] at this
          · intro h
            have := congrArg Outcome.error h
            simp only [raise, Option.some.injEq] at this
            rw [← this]; simp [raise]
      · intro h
        have := congrArg Outcome.error h
        simp only [raise, Option.some.injEq] at this
        rw [← this]; simp [raise]
    · rw [h]; simp [done]

/-- C7. A run with `pair_terms` and `contact_terms` both false stops with the
error of the check on the term switches in the initial state: no histogram has
been created, no header and no histogram data written, no event-loop iteration
entered. With at least one of the two enabled the check passes and the run never
stops with that error. -/
theorem both_terms_disabled_rejected (K : Kernel J) (s : Settings) (inp : Input J) :
    (s.pair_terms = false → s.contact_terms = false →
      (run K s inp).error = some Err.no_terms ∧ (run K s inp).world = World.init ∧
      (run K s inp).world.ewoc_hists = [] ∧ (run K s inp).world.headers = [] ∧
      (run K s inp).world.written = [] ∧ (run K s inp).world.events_seen = 0 ∧
      (run K s inp).world.fills = []) ∧
    ((s.pair_terms = true ∨ s.contact_terms = true) →
      check_terms s World.init = done World.init ∧
      (run K s inp).error ≠ some Err.no_terms) := by
  constructor
  · intro hp hc
    have hcheck : check_terms s World.init = ⟨World.init, some Err.no_terms⟩ := by
      simp [check_terms, hp, hc, raise]
    have hrun : run K s inp = ⟨World.init, some Err.no_terms⟩ := by
      unfold run main
      exact seq_err hcheck
    rw [hrun]
    exact ⟨rfl, rfl, rfl, rfl, rfl, rfl, rfl⟩
  · intro h
    have hcheck : check_terms s World.init = done World.init := by
      unfold check_terms
      rcases h with h | h <;> simp [h]
    refine ⟨hcheck, ?_⟩
    unfold run main
    rw [@seq_ok _ _ _ World.init hcheck]
    exact never_no_terms_rest K s inp World.init

/-- A witness of C7: the two-subjet scenario with both switches off is
rejected at once, and with both on it is not rejected by the check. -/
theorem both_terms_disabled_rejected_witness :
    (run collinear (scenario false false) scenario_input).error = some Err.no_terms ∧
    (run collinear (scenario true true) scenario_input).error ≠ some Err.no_terms :=
  ⟨((both_terms_disabled_rejected collinear (scenario false false) scenario_input).1
      rfl rfl).1,
   ((both_terms_disabled_rejected collinear (scenario true true) scenario_input).2
      (Or.inl rfl)).2⟩

/-! ## Observable names -/

theorem str_eq_false {a b : String} (h : a ≠ b) : str_eq a b = false := by
  unfold str_eq
  exact beq_eq_false_iff_ne.mpr h

theorem obs_val_unknown (K : Kernel J) (s : Settings) (h : s.pair_obs ∉ catalog)
    (isub jsub : Nat) (s1 s2 : J) :
    obs_val K s isub jsub s1 s2 = Except.error (Err.invalid_pair_obs s.pair_obs) := by
  simp only [catalog, List.mem_cons, List.mem_singleton, not_or, List.mem_nil_iff,
    not_false_eq_true, and_true] at h
  obtain ⟨h1, h2, h3, h4, h5, h6, h7, h8, h9, h10, h11, h12⟩ := h
  unfold obs_val contact_val pair_val
  simp only [str_eq_false h1, str_eq_false h2, str_eq_false h3, str_eq_false h4,
    str_eq_false h5, str_eq_false h6, str_eq_false h7, str_eq_false h8, str_eq_false h9,
    str_eq_false h10, str_eq_false h11, str_eq_false h12]
  split <;> rfl

theorem index_pairs_succ (n : Nat) : ∃ rest, index_pairs (n + 1) = (0, 0) :: rest := by
  unfold index_pairs jsub_range
  rw [List.range_succ_eq_map, List.flatMap_cons]
  simp only [Nat.sub_zero, List.range'_succ, List.map_cons, List.cons_append]
  exact ⟨_, rfl⟩

theorem pair_loop_unknown (K : Kernel J) (s : Settings) (h : s.pair_obs ∉ catalog)
    (irad : Nat) (jet : J) (subjets : List J) (w : World) (hne : subjets ≠ []) :
    pair_loop K s irad jet subjets w = raise (Err.invalid_pair_obs s.pair_obs) w := by
  rw [pair_loop_eq]
  cases subjets with
  | nil => exact absurd rfl hne
  | cons s1 rest =>
    obtain ⟨ps, hps⟩ := index_pairs_succ rest.length
    rw [List.length_cons, hps, forEach_cons]
    apply seq_err
    unfold pair_body
    simp [obs_val_unknown K s h, raise]

/-- C8, as the code has it. When the observable name is not in the catalog,
the observable of every index pair throws `Invalid pair_obs`: the pair loop of a
jet with at least one subjet throws it at its first pair, without a fill, the
pair loop of a jet without subjets completes, and no run ever fills a
histogram, with a weight computed through a division by zero or not. -/
theorem unknown_observable_throws_per_pair (K : Kernel J) (s : Settings)
    (h : s.pair_obs ∉ catalog) :
    (∀ isub jsub s1 s2,
      obs_val K s isub jsub s1 s2 = Except.error (Err.invalid_pair_obs s.pair_obs)) ∧
    (∀ irad jet subjets w, subjets ≠ [] →
      pair_loop K s irad jet subjets w = raise (Err.invalid_pair_obs s.pair_obs) w) ∧
    (∀ irad jet w, pair_loop K s irad jet [] w = done w) ∧
    (∀ inp, (run K s inp).world.fills = []) ∧
    (∀ inp, (run K s inp).world.spills = []) := by
  refine ⟨obs_val_unknown K s h, ?_, ?_, ?_, ?_⟩
  rotate_left 3
  · intro inp
    have hno := run_spills K s inp (Q := fun _ => False) (by
      intro irad jet subjets g hg
      obtain ⟨_, _, s1, s2, val, _, _, h3, _, _⟩ := hg
      rw [obs_val_unknown K s h] at h3
      exact Except.noConfusion h3)
    exact List.eq_nil_iff_forall_not_mem.mpr (fun g hg => hno g hg)
  · intro irad jet subjets w hne
    exact pair_loop_unknown K s h irad jet subjets w hne
  · intro irad jet w
    rfl
  · intro inp
    have hno := run_fills K s inp (Q := fun _ => False) (by
      intro irad jet subjets f hf
      obtain ⟨_, _, s1, s2, val, _, _, h3, _, _⟩ := hf
      rw [obs_val_unknown K s h] at h3
      exact Except.noConfusion h3)
    exact List.eq_nil_iff_forall_not_mem.mpr (fun f hf => hno f hf)

/-- A witness of the amended C8: with the name `bogus` the run of the
two-subjet scenario fills nothing. -/
theorem unknown_observable_throws_per_pair_witness :
    (run collinear (unknown_obs_scenario 0) scenario_input).world.fills = [] :=
  (unknown_observable_throws_per_pair collinear (unknown_obs_scenario 0) (by decide)).2.2.2.1
    scenario_input

/-- C8 as stated fails. The name `bogus` is not in the catalog; the run
whose only jet is rejected by the pt cut evaluates no pair, completes without an
error and writes its output; and the run whose jet is accepted does stop with
`Invalid pair_obs`, but inside the event loop, after the header was written, the
first event entered and the jet counted. -/
theorem unknown_observable_not_checked_upfront :
    "bogus" ∉ catalog ∧
    (run collinear (unknown_obs_scenario 200) scenario_input).error = none ∧
    (run collinear (unknown_obs_scenario 200) scenario_input).world.events_seen = 1 ∧
    (run collinear (unknown_obs_scenario 200) scenario_input).world.written.length = 1 ∧
    (run collinear (unknown_obs_scenario 0) scenario_input).error
      = some (Err.invalid_pair_obs "bogus") ∧
    (run collinear (unknown_obs_scenario 0) scenario_input).world.events_seen = 1 ∧
    (run collinear (unknown_obs_scenario 0) scenario_input).world.njets_tot = 1 ∧
    (run collinear (unknown_obs_scenario 0) scenario_input).world.headers = [(1 / 2, 0)] := by
  refine ⟨by decide, ?_, ?_, ?_, ?_, ?_, ?_, ?_⟩ <;> decide!

/-- C9, at the failing input. For a genuine pair the name `m` throws
`Invalid pair_obs m`, while `mass` gives the mass of the merged pair and the
contact branch accepts both names with the same value; every other name of the
catalog is accepted by both branches (the angle observables can still throw for
an undefined angle). The run of the two-subjet scenario with the name `m` stops
with that error at the pair `(0, 1)`, after the fill of the contact term
`(0, 0)`. -/
theorem pair_branch_rejects_m (K : Kernel J) (s1 s2 : J) :
    pair_val K "m" s1 s2 = Except.error (Err.invalid_pair_obs "m") ∧
    pair_val K "mass" s1 s2 = Except.ok (Val.fin (K.m (K.add s1 s2))) ∧
    contact_val K "m" s1 = Except.ok (Val.fin (K.m s1)) ∧
    contact_val K "mass" s1 = Except.ok (Val.fin (K.m s1)) ∧
    (∀ name ∈ catalog, contact_val K name s1 ≠ Except.error (Err.invalid_pair_obs name)) ∧
    (∀ name ∈ catalog, name ≠ "m" →
      pair_val K name s1 s2 ≠ Except.error (Err.invalid_pair_obs name)) ∧
    (run collinear mass_alias_scenario scenario_input).error
      = some (Err.invalid_pair_obs "m") ∧
    (run collinear mass_alias_scenario scenario_input).world.fills.map Fill.pair = [(0, 0)] := by
  refine ⟨by simp [pair_val, str_eq], by simp [pair_val, str_eq], by simp [contact_val, str_eq],
    by simp [contact_val, str_eq], ?_, ?_, by decide!, by decide!⟩
  · intro name hn hc
    simp only [catalog, List.mem_cons, List.mem_singleton, List.mem_nil_iff, or_false] at hn
    rcases hn with h | h | h | h | h | h | h | h | h | h | h | h <;>
      (subst h; simp [contact_val, str_eq] at hc)
  · intro name hn hm hc
    simp only [catalog, List.mem_cons, List.mem_singleton, List.mem_nil_iff, or_false] at hn
    rcases hn with h | h | h | h | h | h | h | h | h | h | h | h
    · subst h; simp [pair_val, str_eq] at hc
    · exact hm h
    · subst h; simp [pair_val, str_eq] at hc
    · subst h; simp [pair_val, str_eq] at hc
    · subst h; simp [pair_val, str_eq] at hc
    · subst h
      simp only [pair_val, str_eq] at hc
      simp only [show ("theta" == "mass") = false from by decide,
        show ("theta" == "mass_squared") = false from by decide,
        show ("theta" == "mass2") = false from by decide,
        show ("theta" == "m2") = false from by decide,
        show ("theta" == "theta") = true from by decide] at hc
      simp only [Bool.or_self, Bool.false_eq_true, if_false, if_true] at hc
      rcases ha : angle K s1 s2 with e | th
      · rw [ha] at hc
        rw [angle_error K s1 s2 e ha] at hc
        exact Err.noConfusion (Except.error.inj hc)
      · rw [ha] at hc
        exact Except.noConfusion hc
    · subst h
      simp only [pair_val, str_eq] at hc
      simp only [show ("theta2" == "mass") = false from by decide,
        show ("theta2" == "mass_squared") = false from by decide,
        show ("theta2" == "mass2") = false from by decide,
        show ("theta2" == "m2") = false from by decide,
        show ("theta2" == "theta") = false from by decide,
        show ("theta2" == "theta2") = true from by decide] at hc
      simp only [Bool.or_self, Bool.false_eq_true, if_false, if_true] at hc
      unfold angle_squared at hc
      rcases ha : angle K s1 s2 with e | th
      · rw [ha] at hc
        rw [angle_error K s1 s2 e ha] at hc
        exact Err.noConfusion (Except.error.inj hc)
      · rw [ha] at hc
        exact Except.noConfusion hc
    · subst h; simp [pair_val, str_eq] at hc
    · subst h; simp [pair_val, str_eq] at hc
    · subst h; simp [pair_val, str_eq] at hc
    · subst h; simp [pair_val, str_eq] at hc
    · subst h; simp [pair_val, str_eq] at hc

/-! ## Jet acceptance -/

theorem accepts_iff (K : Kernel J) (s : Settings) (jet : J) :
    accepts K s jet = true ↔
      (s.is_proton_collision = true → s.pt_min ≤ K.pt jet ∧ K.pt jet ≤ s.pt_max ∧
        (|K.eta jet| ≤ s.eta_cut ∨ s.eta_cut < 0)) ∧
      (s.is_proton_collision = false → s.pt_min ≤ K.e jet ∧ K.e jet ≤ s.pt_max) := by
  unfold accepts
  by_cases hpp : s.is_proton_collision = true
  · simp [hpp, and_assoc]
  · have hpp2 : s.is_proton_collision = false := by simpa using hpp
    simp [hpp2]

/-- C10, as the code has it. With Pythia input (`use_opendata` false) the
jets whose subjet pairs are enumerated, and which are counted, are the elements
of `good_jets`, and each of them satisfies the acceptance test of the collision
type: for proton-proton `pt_min ≤ pt ≤ pt_max` and (`|eta| ≤ eta_cut` or
`eta_cut < 0`), otherwise `pt_min ≤ E ≤ pt_max`. With open-data input
`good_jets` is the one jet joined from the event, whatever its pt, eta and
energy. -/
theorem pythia_jets_pass_acceptance (K : Kernel J) (s : Settings) (inp : Input J)
    (hpy : s.use_opendata = false) :
    (∀ iev irad jet, jet ∈ good_jets K s inp iev irad →
      (s.is_proton_collision = true → s.pt_min ≤ K.pt jet ∧ K.pt jet ≤ s.pt_max ∧
        (|K.eta jet| ≤ s.eta_cut ∨ s.eta_cut < 0)) ∧
      (s.is_proton_collision = false → s.pt_min ≤ K.e jet ∧ K.e jet ≤ s.pt_max)) ∧
    (∀ iev irad particles jet_rad sub_rad, inp.pythia iev = some particles →
      s.radius_pairs[irad]? = some (jet_rad, sub_rad) →
      radius_body K s inp iev particles irad
        = forEach (jet_body K s irad (process_JetDef s.sub_alg sub_rad s.sub_recomb))
            (good_jets K s inp iev irad)) ∧
    (∀ (s1 : Settings) iev irad rad_pair, s1.use_opendata = true →
      s1.radius_pairs[irad]? = some rad_pair →
      good_jets K s1 inp iev irad = [join_all K (inp.cms_events iev)]) := by
  refine ⟨?_, ?_, ?_⟩
  · intro iev irad jet hjet
    unfold good_jets at hjet
    rcases hr : s.radius_pairs[irad]? with _ | ⟨jet_rad, sub_rad⟩
    · rw [hr] at hjet
      simp at hjet
    · rcases hp : inp.pythia iev with _ | particles
      · rw [hr] at hjet
        simp [hpy, hp] at hjet
      · rw [hr] at hjet
        simp only [hpy, hp, Bool.false_eq_true, if_false] at hjet
        unfold good_jets_pythia at hjet
        exact (accepts_iff K s jet).mp (List.mem_filter.mp hjet).2
  · intro iev irad particles jet_rad sub_rad hp hr
    rw [radius_body_eq]
    unfold good_jets
    simp [hr, hpy, hp]
  · intro s1 iev irad rad_pair hod hr
    unfold good_jets good_jets_opendata
    simp [hr, hod]

/-- A witness of the amended C10: the jet of the two-subjet scenario with
Pythia input is accepted and has `pt_min ≤ pt ≤ pt_max`. -/
theorem pythia_jets_pass_acceptance_witness :
    [30, 70] ∈ good_jets collinear pythia_scenario scenario_input 0 0 ∧
    pythia_scenario.pt_min ≤ collinear.pt [30, 70] ∧
    collinear.pt [30, 70] ≤ pythia_scenario.pt_max :=
  have h := ((pythia_jets_pass_acceptance collinear pythia_scenario scenario_input rfl).1
    0 0 [30, 70] (by decide!)).1 (by decide)
  ⟨by decide!, h.1, h.2.1⟩

/-- C10 as stated fails for the open-data input. With `pt_min = 200` the jet
of the two-subjet scenario, of pt and energy 100, fails the acceptance test of a
proton-proton run and of any other run; with open-data input it is nevertheless
the jet of `good_jets`, it is counted in `njets_tot` and its three subjet pairs
are filled. -/
theorem opendata_jets_not_filtered :
    accepts collinear (opendata_cut_scenario 2212 2212) [30, 70] = false ∧
    good_jets collinear (opendata_cut_scenario 2212 2212) scenario_input 0 0 = [[30, 70]] ∧
    (run collinear (opendata_cut_scenario 2212 2212) scenario_input).error = none ∧
    (run collinear (opendata_cut_scenario 2212 2212) scenario_input).world.njets_tot = 1 ∧
    (run collinear (opendata_cut_scenario 2212 2212) scenario_input).world.fills.map Fill.pair
      = [(0, 0), (0, 1), (1, 1)] ∧
    accepts collinear (opendata_cut_scenario 11 (-11)) [30, 70] = false ∧
    good_jets collinear (opendata_cut_scenario 11 (-11)) scenario_input 0 0 = [[30, 70]] ∧
    (run collinear (opendata_cut_scenario 11 (-11)) scenario_input).world.njets_tot = 1 ∧
    (run collinear (opendata_cut_scenario 11 (-11)) scenario_input).world.fills.map Fill.pair
      = [(0, 0), (0, 1), (1, 1)] := by
  refine ⟨?_, ?_, ?_, ?_, ?_, ?_, ?_, ?_, ?_⟩ <;> decide!

/-! ## The sizes of the output blocks -/

theorem collect_length {α β : Type} (f : α → Option β) (xs : List α) (ys : List β)
    (h : collect f xs = some ys) : ys.length = xs.length :=
  (collect_some f xs ys h).length_eq.symm

theorem emit_edges_cases (K : Kernel J) (s : Settings) (bin_edges es : List ℚ)
    (h : emit_edges K s bin_edges = some es) :
    0 ≤ s.nbins ∧ ∃ phys last,
      collect (fun ibin => (bin_edges[ibin]?).map (physical K s))
        (List.range (s.nbins + 1).toNat) = some phys ∧
      bin_edges[s.nbins.toNat]? = some last ∧ es = phys ++ [last] := by
  unfold emit_edges at h
  rcases hc : collect (fun ibin => (bin_edges[ibin]?).map (physical K s))
      (List.range (s.nbins + 1).toNat) with _ | phys
  · rw [hc] at h
    exact Option.noConfusion h
  · rw [hc] at h
    dsimp only at h
    by_cases hn : s.nbins < 0
    · rw [if_pos hn] at h
      exact Option.noConfusion h
    · rw [if_neg hn] at h
      rcases hl : bin_edges[s.nbins.toNat]? with _ | last
      · rw [hl] at h
        exact Option.noConfusion h
      · rw [hl] at h
        exact ⟨not_lt.mp hn, phys, last, rfl, rfl, (Option.some.inj h).symm⟩

/-- C11, on the code. Whenever the output of a configuration completes, its
`xs` block holds `nbins` centers and its `ys` block `nbins` values, but its
`bin_edges` block holds `nbins + 2` numbers: the `nbins + 1` edges in physical
units, then once more the last edge as it is stored (its base-10 logarithm for
logarithmic bins), written by the statement after the loop. For one linear bin
on `[0, 1]` the block is `0, 1, 1`; for one logarithmic bin with stored edges 0
and 1 it is `1, 10, 1`. -/
theorem edges_block_has_extra_value (K : Kernel J) (s : Settings) (inp : Input J) :
    (∀ irad w, (write_body K s inp irad w).error = none →
      ∃ a, (write_body K s inp irad w).world.written = w.written ++ [a] ∧
        a.xs.length = s.nbins.toNat ∧ a.ys.length = s.nbins.toNat ∧
        a.edges.length = s.nbins.toNat + 2 ∧
        (∀ k, k < s.nbins.toNat + 1 → ∃ x,
          (K.get_bin_edges s.minbin s.maxbin s.nbins uflow oflow)[k]? = some x ∧
          a.edges[k]? = some (if s.lin_bins then x else K.pow 10 x)) ∧
        ∃ last, (K.get_bin_edges s.minbin s.maxbin s.nbins uflow oflow)[s.nbins.toNat]?
            = some last ∧
          a.edges[s.nbins.toNat + 1]? = some last) ∧
    (run collinear (scenario true true) scenario_input).world.written.map Artifact.edges
      = [[0, 1, 1]] ∧
    emit_edges collinear log_scenario (collinear.get_bin_edges 0 1 1 uflow oflow)
      = some [1, 10, 1] := by
  refine ⟨?_, by decide!, by decide!⟩
  intro irad w hok
  rcases write_body_cases K s inp irad w with ⟨err, hr⟩ |
    ⟨rad_pair, hist, es, xs, ys, _, _, _, h4, h5, h6, hd⟩
  · rw [hr] at hok
    exact absurd hok (by simp [raise])
  · obtain ⟨hn, phys, last, hphys, hlast, hes⟩ := emit_edges_cases K s _ es h4
    have hcast : (s.nbins + 1).toNat = s.nbins.toNat + 1 := by omega
    rw [hcast] at hphys
    obtain ⟨hplen, hpget⟩ := forall₂_range_get (collect_some _ _ _ hphys)
    refine ⟨⟨rad_pair.1, rad_pair.2, es, xs, ys⟩, by rw [hd]; rfl, ?_, ?_, ?_, ?_, ?_⟩
    · have := collect_length _ _ _ h5
      simpa using this
    · have := collect_length _ _ _ h6
      simpa using this
    · show es.length = _
      rw [hes, List.length_append, hplen]
      rfl
    · intro k hk
      obtain ⟨y, hy, hv⟩ := hpget k hk
      rcases hx : (K.get_bin_edges s.minbin s.maxbin s.nbins uflow oflow)[k]? with _ | x
      · rw [hx] at hv
        exact Option.noConfusion hv
      · refine ⟨x, rfl, ?_⟩
        show es[k]? = _
        rw [hx] at hv
        have hk2 : k < phys.length := by omega
        rw [hes, List.getElem?_append_left hk2, hy]
        simp only [Option.map_some', Option.some.injEq] at hv
        rw [← hv]
        rfl
    · refine ⟨last, hlast, ?_⟩
      show es[s.nbins.toNat + 1]? = _
      rw [hes, List.getElem?_append_right (by omega), hplen]
      simp

/-! ## The radius check of the open-data input -/

theorem opendata_radius_rejected_iff (jet_rads : List ℚ) :
    opendata_radius_rejected jet_rads = some true ↔
      jet_rads.length ≠ 1 ∧ jet_rads[0]? = some (1 / 2) := by
  unfold opendata_radius_rejected
  by_cases hlen : jet_rads.length = 1
  · simp [hlen]
  · rcases h0 : jet_rads[0]? with _ | r
    · simp [hlen]
    · simp [hlen]

/-- C14, at the failing input. With open-data input the run is rejected
exactly when the number of jet radii is not 1 and the first radius is 0.5. The
single radius 0.5 is accepted, but so is the single radius 0.4, whose run
completes and counts its jet, and so are the two radii 0.4, 0.5; the two radii
0.5, 0.4 are rejected with the invalid-argument error. -/
theorem opendata_radius_check_misses :
    (∀ jet_rads : List ℚ, opendata_radius_rejected jet_rads = some true ↔
      jet_rads.length ≠ 1 ∧ jet_rads[0]? = some (1 / 2)) ∧
    opendata_radius_rejected [1 / 2] = some false ∧
    opendata_radius_rejected [2 / 5] = some false ∧
    (run collinear (opendata_radii_scenario [(2 / 5, 0)]) scenario_input).error = none ∧
    (run collinear (opendata_radii_scenario [(2 / 5, 0)]) scenario_input).world.njets_tot = 1 ∧
    (run collinear (opendata_radii_scenario [(2 / 5, 0), (1 / 2, 0)]) scenario_input).error
      = none ∧
    (run collinear (opendata_radii_scenario [(1 / 2, 0), (2 / 5, 0)]) scenario_input).error
      = some Err.opendata_radius ∧
    (run collinear (opendata_radii_scenario [(1 / 2, 0)]) scenario_input).error = none := by
  refine ⟨opendata_radius_rejected_iff, ?_, ?_, ?_, ?_, ?_, ?_, ?_⟩ <;> decide!

/-! ## Monotonic accumulation -/

theorem same_shape_refl (w : World) : SameShape w w := rfl

theorem same_shape_trans {w1 w2 w3 : World} (h1 : SameShape w1 w2) (h2 : SameShape w2 w3) :
    SameShape w1 w3 := h1.trans h2

theorem same_shape_length {w w1 : World} (h : SameShape w w1) (irad : Nat) :
    (w.ewoc_hists.getD irad []).length = (w1.ewoc_hists.getD irad []).length := by
  have h2 := same_shape_getElem h irad
  rw [List.getD_eq_getElem?_getD, List.getD_eq_getElem?_getD]
  rcases ha : w.ewoc_hists[irad]? with _ | a <;> rcases hb : w1.ewoc_hists[irad]? with _ | b
  · rfl
  · rw [ha, hb] at h2; exact Option.noConfusion h2
  · rw [ha, hb] at h2; exact Option.noConfusion h2
  · rw [ha, hb] at h2
    exact Option.some.inj h2

theorem keeps_shape_seq (a b : Block) (ha : KeepsShape a) (hb : KeepsShape b) :
    KeepsShape (seq a b) := by
  intro w
  rcases seq_cases a b w with ⟨_, h⟩ | ⟨_, h⟩
  · rw [h]; exact same_shape_trans (ha w) (hb _)
  · rw [h]; exact ha w

theorem keeps_shape_fill (f : Fill) : KeepsShape (fill f) := by
  intro w
  rcases fill_cases f w with hf | ⟨h, h1, hh, hadd, hf⟩
  · rw [hf]; exact same_shape_refl w
  · rw [hf]
    unfold Hist.add at hadd
    split at hadd
    · have e1 : h1 = h.set f.ibin.toNat (h.bin f.ibin.toNat + f.amount) :=
        (Option.some.inj hadd).symm
      have hlt : f.irad < w.ewoc_hists.length := by
        by_contra hge
        rw [List.getElem?_eq_none (by omega)] at hh
        exact Option.noConfusion hh
      have hget : w.ewoc_hists[f.irad] = h := by
        rw [List.getElem?_eq_getElem hlt] at hh
        exact Option.some.inj hh
      unfold SameShape
      simp only [done, List.map_set, e1, List.length_set]
      apply List.ext_getElem?
      intro n
      rw [List.getElem?_set]
      by_cases hn : f.irad = n
      · subst hn
        simp [hlt, hget]
      · simp [hn]
    · exact Option.noConfusion hadd

theorem keeps_shape_pair_body (K : Kernel J) (s : Settings) (irad : Nat) (jet : J)
    (subjets : List J) (isub jsub : Nat) :
    KeepsShape (pair_body K s irad jet subjets isub jsub) := by
  intro w
  rcases pair_body_cases K s irad jet subjets isub jsub w with ⟨err, h⟩ |
    ⟨s1, s2, val, _, _, _, _, h5⟩ | ⟨s1, s2, val, _, _, _, _, h5⟩
  · rw [h]; exact same_shape_refl w
  · rw [h5]; exact keeps_shape_fill _ w
  · rw [h5]
    unfold SameShape
    rw [(spill_same _ w).2.1]

theorem index_pairs_cons (n : Nat) :
    index_pairs (n + 1) = (0, 0) :: ((List.range n).map (fun j => (0, j + 1)) ++
      (index_pairs n).map (fun p => (p.1 + 1, p.2 + 1))) := by
  unfold index_pairs jsub_range
  rw [List.range_succ_eq_map, List.flatMap_cons, List.flatMap_map, List.map_flatMap]
  simp only [Nat.sub_zero, List.range'_succ, List.map_cons, List.cons_append, zero_add]
  congr 2
  · rw [List.range'_eq_map_range, List.map_map]
    apply List.map_congr_left
    intro j _
    simp [Nat.add_comm]
  · apply List.flatMap_congr
    intro i _
    rw [List.map_map]
    have e1 : n + 1 - Nat.succ i = n - i := by omega
    rw [e1, show Nat.succ i = 1 + i from by omega, ← List.map_add_range' 1 i (n - i) 1,
      List.map_map]
    apply List.map_congr_left
    intro j _
    simp [Nat.add_comm]

theorem map_getD_range {α : Type} (l : List α) (d : α) :
    (List.range l.length).map (fun j => l.getD j d) = l := by
  apply List.ext_getElem
  · simp
  · intro n h1 h2
    simp [List.getD_eq_getElem?_getD, List.getElem?_eq_getElem h2]

theorem sum_index_pairs {α M : Type} [AddCommMonoid M] (F : Bool → α → α → M) (d : α)
    (l : List α) :
    ((index_pairs l.length).map
        (fun p => F (decide (p.1 = p.2)) (l.getD p.1 d) (l.getD p.2 d))).sum
      = (l.map (fun a => F true a a)).sum + pair_sum (F false) l := by
  induction l with
  | nil => simp [index_pairs, pair_sum]
  | cons x l ih =>
    rw [List.length_cons, index_pairs_cons]
    simp only [List.map_cons, List.map_append, List.map_map, List.sum_cons, List.sum_append,
      pair_sum]
    have h1 : (List.map ((fun p : Nat × Nat =>
        F (decide (p.1 = p.2)) ((x :: l).getD p.1 d) ((x :: l).getD p.2 d)) ∘
          fun j => (0, j + 1)) (List.range l.length)).sum = (l.map (F false x)).sum := by
      have e : (List.map ((fun p : Nat × Nat =>
          F (decide (p.1 = p.2)) ((x :: l).getD p.1 d) ((x :: l).getD p.2 d)) ∘
            fun j => (0, j + 1)) (List.range l.length))
          = ((List.range l.length).map (fun j => l.getD j d)).map (F false x) := by
        rw [List.map_map]
        apply List.map_congr_left
        intro j _
        have : ¬ (0 = j + 1) := by omega
        simp [this]
      rw [e, map_getD_range]
    have h2 : (List.map ((fun p : Nat × Nat =>
        F (decide (p.1 = p.2)) ((x :: l).getD p.1 d) ((x :: l).getD p.2 d)) ∘
          fun p => (p.1 + 1, p.2 + 1)) (index_pairs l.length)).sum
        = ((index_pairs l.length).map
            (fun p => F (decide (p.1 = p.2)) (l.getD p.1 d) (l.getD p.2 d))).sum := by
      congr 1
      apply List.map_congr_left
      intro p _
      simp
    rw [h1, h2, ih]
    simp only [List.getD_cons_zero, decide_True]
    abel

theorem pair_sum_perm {α M : Type} [AddCommMonoid M] (p : α → α → M)
    (hsym : ∀ a b, p a b = p b a)
    {l1 l2 : List α} (h : l1.Perm l2) : pair_sum p l1 = pair_sum p l2 := by
  induction h with
  | nil => rfl
  | cons x hl ih =>
    simp only [pair_sum]
    rw [ih, (hl.map (p x)).sum_eq]
  | swap x y l =>
    simp only [pair_sum, List.map_cons, List.sum_cons]
    rw [hsym y x]
    abel
  | trans _ _ ih1 ih2 => exact ih1.trans ih2

/-! ## The fills of a completed pair loop -/

theorem completed_loop_fills (K : Kernel J) (s : Settings) (irad : Nat) (jet : J)
    (subjets : List J) (w : World) (hE : K.pow (K.e jet) 2 ≠ 0)
    (hok : (pair_loop K s irad jet subjets w).error = none) :
    (new_fills w (pair_loop K s irad jet subjets w)).map Fill.pair
      = index_pairs subjets.length ∧
    ∀ f ∈ new_fills w (pair_loop K s irad jet subjets w), LoopFillSpec K s irad jet subjets f :=
  ⟨(pair_loop_fills_trace K s irad jet subjets w hE).2 hok,
    emits_on_new (pair_loop_emits K s irad jet subjets) w⟩

theorem sum_over_fills (fs : List Fill) (ps : List (Nat × Nat)) (h : Fill → ℚ)
    (c : Nat × Nat → ℚ) (hmap : fs.map Fill.pair = ps) (hc : ∀ f ∈ fs, h f = c f.pair) :
    (fs.map h).sum = (ps.map c).sum := by
  rw [← hmap, List.map_map]
  congr 1
  apply List.map_congr_left
  intro f hf
  exact hc f hf

theorem sum_over_spills (gs : List Spill) (ps : List (Nat × Nat)) (h : Spill → Val)
    (c : Nat × Nat → Val) (hmap : gs.map Spill.pair = ps) (hc : ∀ g ∈ gs, h g = c g.pair) :
    (gs.map h).sum = (ps.map c).sum := by
  rw [← hmap, List.map_map]
  congr 1
  apply List.map_congr_left
  intro g hg
  exact hc g hg

theorem bin_total_eq_sum (fs : List Fill) (r k : Nat) :
    bin_total fs r k
      = (fs.map (fun f => if f.irad = r ∧ f.ibin = (k : Int) then f.amount else 0)).sum := by
  induction fs with
  | nil => rfl
  | cons f fs ih => rw [bin_total_cons, ih, List.map_cons, List.sum_cons]

theorem loop_fill_data (K : Kernel J) (s : Settings) (irad : Nat) (jet : J)
    (subjets : List J) (f : Fill) (h : LoopFillSpec K s irad jet subjets f) :
    ∃ s1 s2 val, subjets[f.isub]? = some s1 ∧ subjets[f.jsub]? = some s2 ∧
      obs_val K s f.isub f.jsub s1 s2 = Except.ok val ∧ K.pow (K.e jet) 2 ≠ 0 ∧
      f.irad = irad ∧ f.degeneracy = degeneracy s f.isub f.jsub ∧
      f.weight = K.pow (K.e s1 * K.e s2 / K.pow (K.e jet) 2) s.e_weight ∧
      f.ibin = K.bin_position val s.minbin s.maxbin s.nbins s.bin_scheme uflow oflow := by
  obtain ⟨_, _, s1, s2, val, h1, h2, h3, h4, hf⟩ := h
  refine ⟨s1, s2, val, h1, h2, h3, h4, ?_, ?_, ?_, ?_⟩
  · rw [hf]; rfl
  · conv_lhs => rw [hf]
    rfl
  · conv_lhs => rw [hf]
    rfl
  · conv_lhs => rw [hf]
    rfl

theorem loop_fill_contribution (K : Kernel J) (s : Settings) (irad : Nat) (jet : J)
    (subjets : List J) (r k : Nat) (f : Fill) (h : LoopFillSpec K s irad jet subjets f) :
    (if f.irad = r ∧ f.ibin = (k : Int) then f.amount else 0)
      = contribution K s irad jet r k (decide (f.isub = f.jsub))
          (subjets.getD f.isub jet) (subjets.getD f.jsub jet) := by
  obtain ⟨s1, s2, val, h1, h2, h3, _, hr, hd, hw, hb⟩ := loop_fill_data K s irad jet subjets f h
  unfold contribution Fill.amount
  rw [List.getD_eq_getElem?_getD, List.getD_eq_getElem?_getD, h1, h2, hr, hd, hw, hb]
  simp only [Option.getD_some]
  unfold obs_val at h3
  unfold degeneracy
  by_cases hij : f.jsub = f.isub
  · have hji : f.isub = f.jsub := hij.symm
    rw [if_pos hij] at h3
    have hs : s2 = s1 := by
      rw [hij, h1] at h2
      exact (Option.some.inj h2).symm
    simp only [hji, decide_True, if_true, h3, hs]
  · have hji : ¬ f.isub = f.jsub := fun e => hij e.symm
    rw [if_neg hij] at h3
    simp only [hji, hij, decide_False, Bool.false_eq_true, if_false, h3]

theorem completed_loop_bin (K : Kernel J) (s : Settings) (irad : Nat) (jet : J)
    (subjets : List J) (w : World) (hE : K.pow (K.e jet) 2 ≠ 0)
    (hok : (pair_loop K s irad jet subjets w).error = none) (r k : Nat) :
    (pair_loop K s irad jet subjets w).world.bin r k
      = w.bin r k + ((subjets.map (fun a => contribution K s irad jet r k true a a)).sum
          + pair_sum (contribution K s irad jet r k false) subjets) := by
  obtain ⟨hmap, hspec⟩ := completed_loop_fills K s irad jet subjets w hE hok
  rw [accumulates_new_fills (accumulates_pair_loop K s irad jet subjets) w r k,
    bin_total_eq_sum,
    sum_over_fills _ _ _
      (fun p => contribution K s irad jet r k (decide (p.1 = p.2))
        (subjets.getD p.1 jet) (subjets.getD p.2 jet)) hmap
      (fun f hf => loop_fill_contribution K s irad jet subjets r k f (hspec f hf)),
    sum_index_pairs (contribution K s irad jet r k) jet subjets]

theorem forEach_ok_mem {α : Type} {body : α → Block} {xs : List α} {w : World}
    (h : (forEach body xs w).error = none) : ∀ x ∈ xs, ∃ w1, (body x w1).error = none := by
  induction xs generalizing w with
  | nil => intro x hx; simp at hx
  | cons y xs ih =>
    rw [forEach_cons] at h
    obtain ⟨h1, h2⟩ := seq_none h
    rw [h2] at h
    intro x hx
    rcases List.mem_cons.mp hx with rfl | hx
    · exact ⟨w, h1⟩
    · exact ih h x hx

theorem completed_loop_obs (K : Kernel J) (s : Settings) (irad : Nat) (jet : J)
    (subjets : List J) (w : World) (hok : (pair_loop K s irad jet subjets w).error = none) :
    (∀ a ∈ subjets, ∃ val, contact_val K s.pair_obs a = Except.ok val) ∧
    List.Pairwise (fun a b => ∃ val, pair_val K s.pair_obs a b = Except.ok val) subjets := by
  rw [pair_loop_eq] at hok
  have key : ∀ i j, i ≤ j → j < subjets.length → ∃ s1 s2 val, subjets[i]? = some s1 ∧
      subjets[j]? = some s2 ∧ obs_val K s i j s1 s2 = Except.ok val := by
    intro i j hij hj
    obtain ⟨w1, hw1⟩ := forEach_ok_mem hok (i, j) (mem_index_pairs.mpr ⟨hij, hj⟩)
    rcases pair_body_cases K s irad jet subjets i j w1 with ⟨err, h⟩ |
      ⟨s1, s2, val, h1, h2, h3, _, _⟩ | ⟨s1, s2, val, h1, h2, h3, _, _⟩
    · dsimp only at hw1
      rw [h] at hw1
      exact absurd hw1 (by simp [raise])
    · exact ⟨s1, s2, val, h1, h2, h3⟩
    · exact ⟨s1, s2, val, h1, h2, h3⟩
  refine ⟨?_, ?_⟩
  · intro a ha
    obtain ⟨i, hi, rfl⟩ := List.mem_iff_getElem.mp ha
    obtain ⟨s1, s2, val, h1, _, h3⟩ := key i i (le_refl i) hi
    rw [List.getElem?_eq_getElem hi] at h1
    rw [← Option.some.inj h1] at h3
    unfold obs_val at h3
    rw [if_pos rfl] at h3
    exact ⟨val, h3⟩
  · rw [List.pairwise_iff_getElem]
    intro i j hi hj hij
    obtain ⟨s1, s2, val, h1, h2, h3⟩ := key i j (le_of_lt hij) hj
    rw [List.getElem?_eq_getElem hi] at h1
    rw [List.getElem?_eq_getElem hj] at h2
    rw [← Option.some.inj h1, ← Option.some.inj h2] at h3
    unfold obs_val at h3
    rw [if_neg (by omega)] at h3
    exact ⟨val, h3⟩

theorem keeps_shape_pair_loop (K : Kernel J) (s : Settings) (irad : Nat) (jet : J)
    (subjets : List J) : KeepsShape (pair_loop K s irad jet subjets) :=
  pair_loop_induct keeps_shape_seq (fun w => same_shape_refl w) K s irad jet subjets
    (fun isub jsub _ _ => keeps_shape_pair_body K s irad jet subjets isub jsub)

theorem hists_eq_of_bins (w1 w2 : World) (hshape : SameShape w1 w2)
    (hb : ∀ r k, w1.bin r k = w2.bin r k) : w1.ewoc_hists = w2.ewoc_hists := by
  have hlen : w1.ewoc_hists.length = w2.ewoc_hists.length := by
    have := congrArg List.length hshape
    simpa using this
  apply List.ext_getElem hlen
  intro r h1 h2
  have hl := same_shape_length hshape r
  rw [List.getD_eq_getElem?_getD, List.getD_eq_getElem?_getD, List.getElem?_eq_getElem h1,
    List.getElem?_eq_getElem h2] at hl
  simp only [Option.getD_some] at hl
  apply List.ext_getElem hl
  intro k hk1 hk2
  have := hb r k
  unfold World.bin Hist.bin at this
  simpa [List.getD_eq_getElem?_getD, List.getElem?_eq_getElem h1, List.getElem?_eq_getElem h2,
    List.getElem?_eq_getElem hk1, List.getElem?_eq_getElem hk2] using this

theorem contribution_symm (K : Kernel J) (s : Settings) (irad : Nat) (jet : J) (r k : Nat)
    (hsym : ∀ a b, pair_val K s.pair_obs a b = pair_val K s.pair_obs b a) (a b : J) :
    contribution K s irad jet r k false a b = contribution K s irad jet r k false b a := by
  unfold contribution
  simp only [Bool.false_eq_true, if_false]
  rw [hsym a b, mul_comm (K.e a) (K.e b)]

theorem spill_total_eq_sum (gs : List Spill) (r k : Nat) :
    spill_total gs r k
      = (gs.map (fun g => if g.irad = r ∧ g.ibin = (k : Int) then g.amount
          else Val.fin 0)).sum := by
  induction gs with
  | nil => rfl
  | cons g gs ih =>
    rw [List.map_cons, List.sum_cons, ← ih]
    unfold spill_total
    by_cases h : g.irad = r ∧ g.ibin = (k : Int)
    · simp [List.filter_cons, h]
    · simp only [List.filter_cons, h, decide_False, Bool.false_eq_true, if_false]
      exact (zero_add _).symm

theorem loop_spill_data (K : Kernel J) (s : Settings) (irad : Nat) (jet : J)
    (subjets : List J) (g : Spill) (h : LoopSpillSpec K s irad jet subjets g) :
    ∃ s1 s2 val, subjets[g.isub]? = some s1 ∧ subjets[g.jsub]? = some s2 ∧
      obs_val K s g.isub g.jsub s1 s2 = Except.ok val ∧
      g.irad = irad ∧ g.degeneracy = degeneracy s g.isub g.jsub ∧
      g.weight = K.pow_nonfinite (Val.div (K.e s1 * K.e s2) (K.pow (K.e jet) 2)) s.e_weight ∧
      g.ibin = K.bin_position val s.minbin s.maxbin s.nbins s.bin_scheme uflow oflow := by
  obtain ⟨_, _, s1, s2, val, h1, h2, h3, _, hg⟩ := h
  refine ⟨s1, s2, val, h1, h2, h3, ?_, ?_, ?_, ?_⟩
  · rw [hg]; rfl
  · conv_lhs => rw [hg]
    rfl
  · conv_lhs => rw [hg]
    rfl
  · conv_lhs => rw [hg]
    rfl

theorem loop_spill_contribution (K : Kernel J) (s : Settings) (irad : Nat) (jet : J)
    (subjets : List J) (r k : Nat) (g : Spill) (h : LoopSpillSpec K s irad jet subjets g) :
    (if g.irad = r ∧ g.ibin = (k : Int) then g.amount else Val.fin 0)
      = spill_contribution K s irad jet r k (decide (g.isub = g.jsub))
          (subjets.getD g.isub jet) (subjets.getD g.jsub jet) := by
  obtain ⟨s1, s2, val, h1, h2, h3, hr, hd, hw, hb⟩ := loop_spill_data K s irad jet subjets g h
  unfold spill_contribution Spill.amount
  rw [List.getD_eq_getElem?_getD, List.getD_eq_getElem?_getD, h1, h2, hr, hd, hw, hb]
  simp only [Option.getD_some]
  unfold obs_val at h3
  unfold degeneracy
  by_cases hij : g.jsub = g.isub
  · have hji : g.isub = g.jsub := hij.symm
    rw [if_pos hij] at h3
    have hs : s2 = s1 := by
      rw [hij, h1] at h2
      exact (Option.some.inj h2).symm
    simp only [hji, decide_True, if_true, h3, hs]
  · have hji : ¬ g.isub = g.jsub := fun e => hij e.symm
    rw [if_neg hij] at h3
    simp only [hji, hij, decide_False, Bool.false_eq_true, if_false, h3]

theorem completed_loop_spill_total (K : Kernel J) (s : Settings) (irad : Nat) (jet : J)
    (subjets : List J) (w : World) (hE : K.pow (K.e jet) 2 = 0)
    (hok : (pair_loop K s irad jet subjets w).error = none) (r k : Nat) :
    spill_total (new_spills w (pair_loop K s irad jet subjets w)) r k
      = (subjets.map (fun a => spill_contribution K s irad jet r k true a a)).sum
          + pair_sum (spill_contribution K s irad jet r k false) subjets := by
  have hmap : (new_spills w (pair_loop K s irad jet subjets w)).map Spill.pair
      = index_pairs subjets.length := by
    have h := (pair_loop_trace K s irad jet subjets w).2 hok
    unfold evaluated at h
    rw [((pair_loop_one_kind K s irad jet subjets w).2 hE).1] at h
    exact h
  have hspec := (logs_on_new_spills (pair_loop_spills K s irad jet subjets) w).2
  rw [spill_total_eq_sum,
    sum_over_spills _ _ _
      (fun p => spill_contribution K s irad jet r k (decide (p.1 = p.2))
        (subjets.getD p.1 jet) (subjets.getD p.2 jet)) hmap
      (fun g hg => loop_spill_contribution K s irad jet subjets r k g (hspec g hg)),
    sum_index_pairs (spill_contribution K s irad jet r k) jet subjets]

theorem spill_contribution_symm (K : Kernel J) (s : Settings) (irad : Nat) (jet : J)
    (r k : Nat) (hsym : ∀ a b, pair_val K s.pair_obs a b = pair_val K s.pair_obs b a)
    (a b : J) :
    spill_contribution K s irad jet r k false a b
      = spill_contribution K s irad jet r k false b a := by
  unfold spill_contribution
  simp only [Bool.false_eq_true, if_false]
  rw [hsym a b, mul_comm (K.e a) (K.e b)]

/-- C13. For a pair observable that is symmetric in its two arguments, bin
positions inside the histogram and a histogram of `nbins` bins: if the pair loop
of a jet completes on a subjet list, it completes on every permutation of the
list and leaves the same histograms, bin for bin: the same rational content
and, also for a jet of energy 0, the same value of every bin. -/
theorem subjet_order_irrelevant (K : Kernel J) (s : Settings) (irad : Nat) (jet : J)
    (subjets permuted : List J) (w : World) (hperm : subjets.Perm permuted)
    (hsym : ∀ a b, pair_val K s.pair_obs a b = pair_val K s.pair_obs b a)
    (hbins : BinsInRange K s) (hw : HistReady s irad w)
    (hok : (pair_loop K s irad jet subjets w).error = none) :
    (pair_loop K s irad jet permuted w).error = none ∧
    (∀ r k, (pair_loop K s irad jet permuted w).world.bin r k
      = (pair_loop K s irad jet subjets w).world.bin r k) ∧
    (pair_loop K s irad jet permuted w).world.ewoc_hists
      = (pair_loop K s irad jet subjets w).world.ewoc_hists ∧
    (∀ r k, (pair_loop K s irad jet permuted w).world.value r k
      = (pair_loop K s irad jet subjets w).world.value r k) := by
  obtain ⟨hcontact, hpair⟩ := completed_loop_obs K s irad jet subjets w hok
  have hok2 : (pair_loop K s irad jet permuted w).error = none := by
    by_cases hne : permuted = []
    · rw [hne]; rfl
    · have hpair2 : List.Pairwise
          (fun a b => ∃ val, pair_val K s.pair_obs a b = Except.ok val) permuted :=
        (hperm.pairwise_iff (fun {x y} h => by rw [hsym y x]; exact h)).mp hpair
      rw [List.pairwise_iff_getElem] at hpair2
      refine (pair_loop_completes K s irad jet permuted w ?_ hbins hw).1
      intro i j s1 s2 h1 h2
      have hi : i < permuted.length := by
        by_contra hge
        rw [List.getElem?_eq_none (by omega)] at h1
        exact Option.noConfusion h1
      have hj : j < permuted.length := by
        by_contra hge
        rw [List.getElem?_eq_none (by omega)] at h2
        exact Option.noConfusion h2
      rw [List.getElem?_eq_getElem hi] at h1
      rw [List.getElem?_eq_getElem hj] at h2
      have e1 := Option.some.inj h1
      have e2 := Option.some.inj h2
      unfold obs_val
      by_cases hji : j = i
      · rw [if_pos hji]
        exact hcontact s1 (hperm.mem_iff.mpr (e1 ▸ List.getElem_mem hi))
      · rw [if_neg hji]
        rcases Nat.lt_or_gt_of_ne hji with hlt | hgt
        · have := hpair2 j i hj hi hlt
          rw [e1, e2, hsym] at this
          exact this
        · have := hpair2 i j hi hj hgt
          rw [e1, e2] at this
          exact this
  have hb : ∀ r k, (pair_loop K s irad jet permuted w).world.bin r k
      = (pair_loop K s irad jet subjets w).world.bin r k := by
    intro r k
    by_cases hE : K.pow (K.e jet) 2 = 0
    · unfold World.bin
      rw [((pair_loop_one_kind K s irad jet permuted w).2 hE).2,
        ((pair_loop_one_kind K s irad jet subjets w).2 hE).2]
    · rw [completed_loop_bin K s irad jet permuted w hE hok2,
        completed_loop_bin K s irad jet subjets w hE hok,
        pair_sum_perm _ (contribution_symm K s irad jet r k hsym) hperm,
        (hperm.map (fun a => contribution K s irad jet r k true a a)).sum_eq]
  refine ⟨hok2, hb, ?_, ?_⟩
  · exact hists_eq_of_bins _ _
      (same_shape_trans (keeps_shape_pair_loop K s irad jet permuted w).symm
        (keeps_shape_pair_loop K s irad jet subjets w)) hb
  · intro r k
    unfold World.value
    rw [hb r k, (logs_on_new_spills (pair_loop_spills K s irad jet permuted) w).1,
      (logs_on_new_spills (pair_loop_spills K s irad jet subjets) w).1,
      spill_total_append, spill_total_append]
    congr 2
    by_cases hE : K.pow (K.e jet) 2 = 0
    · rw [completed_loop_spill_total K s irad jet permuted w hE hok2,
        completed_loop_spill_total K s irad jet subjets w hE hok,
        pair_sum_perm _ (spill_contribution_symm K s irad jet r k hsym) hperm,
        (hperm.map (fun a => spill_contribution K s irad jet r k true a a)).sum_eq]
    · rw [(pair_loop_one_kind K s irad jet permuted w).1 hE,
        (pair_loop_one_kind K s irad jet subjets w).1 hE]

/-- A witness of C13: the two subjets of the scenario in the other order, and
two subjets of energies 30 and -30 of a jet of energy 0 in the other order. -/
theorem subjet_order_irrelevant_witness :
    ((pair_loop collinear (scenario true true) 0 [30, 70] [[70], [30]] one_bin_world).error
        = none ∧
      (pair_loop collinear (scenario true true) 0 [30, 70] [[70], [30]]
          one_bin_world).world.ewoc_hists
        = (pair_loop collinear (scenario true true) 0 [30, 70] [[30], [70]]
          one_bin_world).world.ewoc_hists) ∧
    ((pair_loop collinear (scenario true true) 0 [30, -30] [[-30], [30]] one_bin_world).error
        = none ∧
      (pair_loop collinear (scenario true true) 0 [30, -30] [[-30], [30]]
          one_bin_world).world.value 0 0
        = (pair_loop collinear (scenario true true) 0 [30, -30] [[30], [-30]]
          one_bin_world).world.value 0 0) :=
  have h := subjet_order_irrelevant collinear (scenario true true) 0 [30, 70]
    [[30], [70]] [[70], [30]] one_bin_world (List.Perm.swap [70] [30] [])
    (fun a b => by simp [pair_val, scenario, str_eq, collinear])
    (scenario_bins_in_range true true) ⟨[0], rfl, rfl⟩ (by decide!)
  have h0 := subjet_order_irrelevant collinear (scenario true true) 0 [30, -30]
    [[30], [-30]] [[-30], [30]] one_bin_world (List.Perm.swap [-30] [30] [])
    (fun a b => by simp [pair_val, scenario, str_eq, collinear])
    (scenario_bins_in_range true true) ⟨[0], rfl, rfl⟩ (by decide!)
  ⟨⟨h.1, h.2.2.1⟩, ⟨h0.1, h0.2.2.2 0 0⟩⟩

/-! ## The sum rule -/

theorem sum_map_scaled {α : Type} (g : α → ℚ) (c x : ℚ) (l : List α) :
    (l.map (fun b => 2 * (x * g b / c))).sum = 2 * x * (l.map g).sum / c := by
  induction l with
  | nil => simp
  | cons y l ih =>
    simp only [List.map_cons, List.sum_cons, ih]
    ring

theorem sum_rule_pure {α : Type} (g : α → ℚ) (c : ℚ) (l : List α) :
    (l.map (fun a => 1 * (g a * g a / c))).sum + pair_sum (fun a b => 2 * (g a * g b / c)) l
      = ((l.map g).sum) ^ 2 / c := by
  induction l with
  | nil => simp [pair_sum]
  | cons x l ih =>
    simp only [List.map_cons, List.sum_cons, pair_sum, sum_map_scaled]
    linear_combination ih

theorem loop_fill_sum_rule_amount (K : Kernel J) (s : Settings)
    (hsq : ∀ x, K.pow x 2 = x ^ 2) (hone : ∀ x, K.pow x 1 = x) (hexp : s.e_weight = 1)
    (hp : s.pair_terms = true) (hc : s.contact_terms = true) (irad : Nat) (jet : J)
    (subjets : List J) (f : Fill) (h : LoopFillSpec K s irad jet subjets f) :
    f.amount = sum_rule_term K jet (decide (f.pair.1 = f.pair.2))
      (subjets.getD f.pair.1 jet) (subjets.getD f.pair.2 jet) := by
  obtain ⟨s1, s2, val, h1, h2, _, _, _, hd, hw, _⟩ := loop_fill_data K s irad jet subjets f h
  unfold Fill.amount sum_rule_term Fill.pair
  rw [List.getD_eq_getElem?_getD, List.getD_eq_getElem?_getD, h1, h2, hd, hw, hexp, hone, hsq]
  simp only [Option.getD_some]
  unfold degeneracy
  by_cases hij : f.jsub = f.isub
  · have hji : decide (f.isub = f.jsub) = true := decide_eq_true hij.symm
    rw [if_pos hij, if_pos hc, hji, if_pos rfl]
    norm_num
  · have hji : decide (f.isub = f.jsub) = false := decide_eq_false (fun e => hij e.symm)
    rw [if_neg hij, if_pos hp, hji, if_neg (by decide)]
    norm_num

theorem jet_sum_rule (K : Kernel J) (s : Settings)
    (hsq : ∀ x, K.pow x 2 = x ^ 2) (hone : ∀ x, K.pow x 1 = x) (hexp : s.e_weight = 1)
    (hp : s.pair_terms = true) (hc : s.contact_terms = true) (irad : Nat) (jet : J)
    (subjets : List J) (w : World) (hsum : (subjets.map K.e).sum = K.e jet)
    (hE : K.e jet ≠ 0) (hok : (pair_loop K s irad jet subjets w).error = none) :
    ((new_fills w (pair_loop K s irad jet subjets w)).map Fill.amount).sum = 1 := by
  have hE2 : K.pow (K.e jet) 2 ≠ 0 := by
    rw [hsq]
    exact pow_ne_zero 2 hE
  obtain ⟨hmap, hspec⟩ := completed_loop_fills K s irad jet subjets w hE2 hok
  rw [sum_over_fills _ _ Fill.amount
      (fun p => sum_rule_term K jet (decide (p.1 = p.2)) (subjets.getD p.1 jet)
        (subjets.getD p.2 jet)) hmap
      (fun f hf => loop_fill_sum_rule_amount K s hsq hone hexp hp hc irad jet subjets f
        (hspec f hf)),
    sum_index_pairs (sum_rule_term K jet) jet subjets]
  have e1 : (fun a => sum_rule_term K jet true a a)
      = (fun a => 1 * (K.e a * K.e a / (K.e jet) ^ 2)) := by
    funext a; simp [sum_rule_term]
  have e2 : sum_rule_term K jet false = (fun a b => 2 * (K.e a * K.e b / (K.e jet) ^ 2)) := by
    funext a b; simp [sum_rule_term]
  rw [e1, e2, sum_rule_pure K.e ((K.e jet) ^ 2) subjets, hsum]
  exact div_self (pow_ne_zero 2 hE)

/-! ## The content of a histogram and the number of jets -/

theorem amount_total_nil (r : Nat) : amount_total [] r = 0 := rfl

theorem amount_total_append (fs gs : List Fill) (r : Nat) :
    amount_total (fs ++ gs) r = amount_total fs r + amount_total gs r := by
  simp [amount_total, List.filter_append]

theorem amount_total_of_irad (fs : List Fill) (irad : Nat) (h : ∀ f ∈ fs, f.irad = irad)
    (r : Nat) : amount_total fs r = if irad = r then (fs.map Fill.amount).sum else 0 := by
  unfold amount_total
  by_cases hr : irad = r
  · rw [if_pos hr, List.filter_eq_self.mpr]
    intro f hf
    simp [h f hf, hr]
  · rw [if_neg hr, List.filter_eq_nil_iff.mpr]
    · rfl
    · intro f hf
      simp [h f hf, hr]

theorem gains_seq {c d : Nat → ℚ} {a b : Block} (ha : Gains c a) (hb : Gains d b) :
    Gains (fun r => c r + d r) (seq a b) := by
  intro w hok
  obtain ⟨hoka, hseq⟩ := seq_none hok
  rw [hseq] at hok ⊢
  obtain ⟨fs, hfs, hc⟩ := ha w hoka
  obtain ⟨gs, hgs, hd⟩ := hb _ hok
  refine ⟨fs ++ gs, by rw [hgs, hfs, List.append_assoc], ?_⟩
  intro r
  rw [amount_total_append, hc, hd]

theorem gains_raise (err : Err) (c : Nat → ℚ) : Gains c (raise err) := by
  intro w hok
  exact absurd hok (by simp [raise])

theorem gains_same {b : Block} (h : ∀ w, (b w).world.fills = w.fills) :
    Gains (fun _ => 0) b := by
  intro w _
  exact ⟨[], by simp [h w], fun _ => rfl⟩

theorem gains_congr {c d : Nat → ℚ} {b : Block} (h : Gains c b) (hcd : ∀ r, c r = d r) :
    Gains d b := by
  intro w hok
  obtain ⟨fs, hfs, hc⟩ := h w hok
  exact ⟨fs, hfs, fun r => by rw [hc, hcd]⟩

theorem gains_forEach {α : Type} {body : α → Block} (c : α → Nat → ℚ) (xs : List α)
    (h : ∀ x ∈ xs, Gains (c x) (body x)) :
    Gains (fun r => (xs.map (fun x => c x r)).sum) (forEach body xs) := by
  induction xs with
  | nil => exact gains_same (fun _ => rfl)
  | cons x xs ih =>
    rw [forEach_cons]
    exact gains_congr
      (gains_seq (h x (List.mem_cons_self x xs))
        (ih (fun y hy => h y (List.mem_cons_of_mem x hy))))
      (fun r => by simp)

theorem gains_jet_body (K : Kernel J) (s : Settings)
    (hsq : ∀ x, K.pow x 2 = x ^ 2) (hone : ∀ x, K.pow x 1 = x) (hexp : s.e_weight = 1)
    (hp : s.pair_terms = true) (hc : s.contact_terms = true) (irad : Nat)
    (sub_def : JetDefinition) (jet : J)
    (hsum : ((get_subjets K sub_def jet).map K.e).sum = K.e jet) (hE : K.e jet ≠ 0) :
    Gains (fun r => if irad = r then 1 else 0) (jet_body K s irad sub_def jet) := by
  intro w hok
  have hjb : jet_body K s irad sub_def jet w
      = pair_loop K s irad jet (get_subjets K sub_def jet)
          { w with njets_tot := w.njets_tot + 1 } := rfl
  rw [hjb] at hok ⊢
  obtain ⟨fs, hfs, hq⟩ := pair_loop_emits K s irad jet (get_subjets K sub_def jet)
    { w with njets_tot := w.njets_tot + 1 }
  have hnew : new_fills { w with njets_tot := w.njets_tot + 1 }
      (pair_loop K s irad jet (get_subjets K sub_def jet)
        { w with njets_tot := w.njets_tot + 1 }) = fs := by
    unfold new_fills
    rw [hfs, List.drop_left]
  have hone_sum := jet_sum_rule K s hsq hone hexp hp hc irad jet (get_subjets K sub_def jet)
    { w with njets_tot := w.njets_tot + 1 } hsum hE hok
  rw [hnew] at hone_sum
  refine ⟨fs, hfs, ?_⟩
  intro r
  have hirad : ∀ f ∈ fs, f.irad = irad := by
    intro f hf
    obtain ⟨_, _, _, _, _, _, _, hr, _⟩ := loop_fill_data K s irad jet _ f (hq f hf)
    exact hr
  rw [amount_total_of_irad fs irad hirad, hone_sum]

theorem sum_range_single (n r : Nat) (v : Nat → ℚ) :
    ((List.range n).map (fun i => if i = r then v i else 0)).sum = if r < n then v r else 0 := by
  induction n with
  | zero => simp
  | succ n ih =>
    rw [List.range_succ, List.map_append, List.sum_append, ih]
    simp only [List.map_cons, List.map_nil, List.sum_cons, List.sum_nil, add_zero]
    by_cases h1 : r < n
    · have h2 : ¬ n = r := by omega
      have h3 : r < n + 1 := by omega
      simp [h1, h2, h3]
    · by_cases h2 : n = r
      · subst h2
        simp
      · have h3 : ¬ r < n + 1 := by omega
        simp [h1, h2, h3]

theorem sum_const_ite {α : Type} (l : List α) (c : Prop) [Decidable c] :
    (l.map (fun _ => if c then (1 : ℚ) else 0)).sum = if c then (l.length : ℚ) else 0 := by
  by_cases h : c
  · simp [h]
  · simp [h]

theorem gains_radius_body (K : Kernel J) (s : Settings)
    (hsq : ∀ x, K.pow x 2 = x ^ 2) (hone : ∀ x, K.pow x 1 = x) (hexp : s.e_weight = 1)
    (hpt : s.pair_terms = true) (hct : s.contact_terms = true)
    (inp : Input J) (hcarry : SubjetsCarryEnergy K s inp) (iev : Nat) (particles : List J)
    (irad : Nat) (hp : s.use_opendata = false → inp.pythia iev = some particles) :
    Gains (fun r => if irad = r then ((good_jets K s inp iev irad).length : ℚ) else 0)
      (radius_body K s inp iev particles irad) := by
  have hjets : ∀ sub_rad jet_rad (jets : List J),
      s.radius_pairs[irad]? = some (jet_rad, sub_rad) →
      (∀ jet ∈ jets, jet ∈ good_jets K s inp iev irad) →
      Gains (fun r => if irad = r then (jets.length : ℚ) else 0)
        (forEach (jet_body K s irad (process_JetDef s.sub_alg sub_rad s.sub_recomb)) jets) := by
    intro sub_rad jet_rad jets hr hmem
    refine gains_congr (gains_forEach (fun _ r => if irad = r then 1 else 0) jets ?_)
      (fun r => sum_const_ite jets (irad = r))
    intro jet hjet
    obtain ⟨hE, hsum⟩ := hcarry iev irad jet_rad sub_rad jet hr (hmem jet hjet)
    exact gains_jet_body K s hsq hone hexp hpt hct irad _ jet hsum hE
  rw [radius_body_eq]
  rcases hr : s.radius_pairs[irad]? with _ | ⟨jet_rad, sub_rad⟩
  · exact gains_raise _ _
  · have hg : ∀ jets, good_jets K s inp iev irad = jets →
        Gains (fun r => if irad = r then ((good_jets K s inp iev irad).length : ℚ) else 0)
          (forEach (jet_body K s irad (process_JetDef s.sub_alg sub_rad s.sub_recomb)) jets) := by
      intro jets hj
      rw [hj]
      exact hjets sub_rad jet_rad jets hr (fun jet hm => hj ▸ hm)
    dsimp only
    by_cases hod : s.use_opendata = true
    · simp only [hod, if_true]
      rcases opendata_radius_rejected s.jet_rads with _ | _ | _
      · exact gains_raise _ _
      · apply hg
        unfold good_jets
        simp [hr, hod]
      · exact gains_raise _ _
    · have hod2 : s.use_opendata = false := by simpa using hod
      simp only [hod2, Bool.false_eq_true, if_false]
      apply hg
      unfold good_jets
      simp [hr, hod2, hp hod2]

theorem good_jets_out_of_range (K : Kernel J) (s : Settings) (inp : Input J) (iev r : Nat)
    (h : ¬ r < s.radius_pairs.length) : good_jets K s inp iev r = [] := by
  unfold good_jets
  rw [List.getElem?_eq_none (by omega)]

theorem gains_event_body (K : Kernel J) (s : Settings)
    (hsq : ∀ x, K.pow x 2 = x ^ 2) (hone : ∀ x, K.pow x 1 = x) (hexp : s.e_weight = 1)
    (hpt : s.pair_terms = true) (hct : s.contact_terms = true)
    (inp : Input J) (hcarry : SubjetsCarryEnergy K s inp) (iev : Nat) :
    Gains (fun r => ((good_jets K s inp iev r).length : ℚ)) (event_body K s inp iev) := by
  have hcount : ∀ r, ((List.range s.radius_pairs.length).map
      (fun irad => if irad = r then ((good_jets K s inp iev irad).length : ℚ) else 0)).sum
        = ((good_jets K s inp iev r).length : ℚ) := by
    intro r
    rw [sum_range_single]
    by_cases h : r < s.radius_pairs.length
    · rw [if_pos h]
    · rw [if_neg h, good_jets_out_of_range K s inp iev r h]
      rfl
  have hrad : ∀ particles, (s.use_opendata = false → inp.pythia iev = some particles) →
      Gains (fun r => ((good_jets K s inp iev r).length : ℚ))
        (radius_loop K s inp iev particles) := by
    intro particles hp
    refine gains_congr (gains_forEach
      (fun irad r => if irad = r then ((good_jets K s inp iev irad).length : ℚ) else 0)
      (List.range s.radius_pairs.length)
      (fun irad _ => gains_radius_body K s hsq hone hexp hpt hct inp hcarry iev particles
        irad hp)) hcount
  unfold event_body
  refine gains_congr (gains_seq (gains_same (fun _ => rfl)) ?_) (fun r => zero_add _)
  by_cases hod : s.use_opendata = true
  · simp only [hod]
    exact hrad [] (fun h => by rw [hod] at h; exact Bool.noConfusion h)
  · have hod2 : s.use_opendata = false := by simpa using hod
    simp only [hod2]
    rcases hpy : inp.pythia iev with _ | particles
    · refine gains_congr (gains_same (fun _ => rfl)) ?_
      intro r
      have : good_jets K s inp iev r = [] := by
        unfold good_jets
        rcases s.radius_pairs[r]? with _ | ⟨jet_rad, sub_rad⟩
        · rfl
        · simp [hod2, hpy]
      rw [this]
      rfl
    · exact hrad particles (fun _ => hpy)

theorem forEach_fills_same {α : Type} {body : α → Block}
    (h : ∀ x w, (body x w).world.fills = w.fills) (xs : List α) (w : World) :
    (forEach body xs w).world.fills = w.fills := by
  induction xs generalizing w with
  | nil => rfl
  | cons x xs ih =>
    rw [forEach_cons]
    rcases seq_cases (body x) (forEach body xs) w with ⟨_, hseq⟩ | ⟨_, hseq⟩
    · rw [hseq, ih, h]
    · rw [hseq, h]

theorem gains_main (K : Kernel J) (s : Settings)
    (hsq : ∀ x, K.pow x 2 = x ^ 2) (hone : ∀ x, K.pow x 1 = x) (hexp : s.e_weight = 1)
    (hpt : s.pair_terms = true) (hct : s.contact_terms = true)
    (inp : Input J) (hcarry : SubjetsCarryEnergy K s inp) :
    Gains (fun r => (processed_jets K s inp r : ℚ)) (main K s inp) := by
  have hev : Gains (fun r => (processed_jets K s inp r : ℚ)) (event_loop K s inp) := by
    unfold event_loop
    refine gains_congr (gains_forEach (fun iev r => ((good_jets K s inp iev r).length : ℚ))
      (List.range s.n_events.toNat)
      (fun iev _ => gains_event_body K s hsq hone hexp hpt hct inp hcarry iev)) ?_
    intro r
    unfold processed_jets
    rw [Nat.cast_list_sum, List.map_map]
    rfl
  have hsame : ∀ {b : Block}, (∀ w, (b w).world.fills = w.fills) → Gains (fun _ => 0) b :=
    fun h => gains_same h
  unfold main
  refine gains_congr (gains_seq (hsame ?_) (gains_seq (hsame ?_) (gains_seq (hsame ?_)
    (gains_seq (hsame (fun _ => rfl)) (gains_seq hev (hsame ?_)))))) (fun r => by simp)
  · intro w; unfold check_terms; split <;> rfl
  · exact forEach_fills_same (setup_body_fills s) _
  · intro w; unfold alloc_events; split <;> rfl
  · exact forEach_fills_same (write_body_fills K s inp) _

theorem fills_in_range_seq (a b : Block)
    (ha : ∀ w, FillsInRange w → FillsInRange (a w).world)
    (hb : ∀ w, FillsInRange w → FillsInRange (b w).world) :
    ∀ w, FillsInRange w → FillsInRange (seq a b w).world := by
  intro w hw
  rcases seq_cases a b w with ⟨_, h⟩ | ⟨_, h⟩
  · rw [h]; exact hb _ (ha w hw)
  · rw [h]; exact ha w hw

theorem fills_in_range_of_same {b : Block}
    (h : ∀ w, (b w).world.fills = w.fills ∧ (b w).world.ewoc_hists = w.ewoc_hists) :
    ∀ w, FillsInRange w → FillsInRange (b w).world := by
  intro w hw f hf
  rw [(h w).1] at hf
  rw [(h w).2]
  exact hw f hf

theorem fills_in_range_fill (f : Fill) : ∀ w, FillsInRange w → FillsInRange (fill f w).world := by
  intro w hw
  have hshape := keeps_shape_fill f w
  rcases fill_cases f w with hf | ⟨h, h1, hh, hadd, hf⟩
  · rw [hf]; exact hw
  · intro g hg
    rw [← same_shape_length hshape g.irad]
    rw [hf] at hg
    simp only [done, List.mem_append, List.mem_singleton] at hg
    rcases hg with hg | hg
    · exact hw g hg
    · rw [hg]
      unfold Hist.add at hadd
      split at hadd
      · rename_i hidx
        rw [List.getD_eq_getElem?_getD, hh]
        exact hidx
      · exact Option.noConfusion hadd

theorem fills_in_range_setup_body (s : Settings) (irad : Nat) :
    ∀ w, FillsInRange w → FillsInRange (setup_body s irad w).world := by
  intro w hw
  unfold setup_body
  rcases s.radius_pairs[irad]? with _ | rad_pair
  · exact hw
  · dsimp only
    split
    · exact hw
    · intro g hg
      obtain ⟨h0, h1⟩ := hw g hg
      refine ⟨h0, ?_⟩
      simp only [done]
      have hlt : g.irad < w.ewoc_hists.length := by
        by_contra hge
        rw [List.getD_eq_getElem?_getD, List.getElem?_eq_none (by omega)] at h1
        simp at h1
      rw [List.getD_eq_getElem?_getD, List.getElem?_append_left hlt,
        ← List.getD_eq_getElem?_getD]
      exact h1

theorem fills_in_range_main (K : Kernel J) (s : Settings) (inp : Input J) :
    ∀ w, FillsInRange w → FillsInRange (main K s inp w).world := by
  apply main_induct fills_in_range_seq (fun _ h => h) (fun _ _ h => h)
  · exact fills_in_range_setup_body s
  · exact fills_in_range_of_same (fun _ => ⟨rfl, rfl⟩)
  · exact fills_in_range_of_same (fun _ => ⟨rfl, rfl⟩)
  · intro irad sub_def jet
    unfold jet_body
    apply fills_in_range_seq _ _ (fills_in_range_of_same (fun _ => ⟨rfl, rfl⟩))
    apply pair_loop_induct fills_in_range_seq (fun _ h => h)
    intro isub jsub _ _ w hw
    rcases pair_body_cases K s irad jet (get_subjets K sub_def jet) isub jsub w with ⟨err, h⟩ |
      ⟨s1, s2, val, _, _, _, _, h5⟩ | ⟨s1, s2, val, _, _, _, _, h5⟩
    · rw [h]; exact hw
    · rw [h5]; exact fills_in_range_fill _ w hw
    · rw [h5]
      exact fills_in_range_of_same (fun w1 => ⟨(spill_same _ w1).1, (spill_same _ w1).2.1⟩) w hw
  · intro irad
    exact fills_in_range_of_same
      (fun w => ⟨write_body_fills K s inp irad w, (write_body_hists K s inp irad w).1⟩)

theorem sum_bin_total (fs : List Fill) (r n : Nat)
    (h : ∀ f ∈ fs, f.irad = r → 0 ≤ f.ibin ∧ f.ibin.toNat < n) :
    ((List.range n).map (bin_total fs r)).sum = amount_total fs r := by
  induction fs with
  | nil =>
    rw [amount_total_nil]
    apply List.sum_eq_zero
    intro x hx
    obtain ⟨k, _, rfl⟩ := List.mem_map.mp hx
    rfl
  | cons f fs ih =>
    have ih2 := ih (fun g hg => h g (List.mem_cons_of_mem f hg))
    have e : bin_total (f :: fs) r = (fun k =>
        (if k = f.ibin.toNat then (if f.irad = r ∧ 0 ≤ f.ibin then f.amount else 0) else 0)
          + bin_total fs r k) := by
      funext k
      rw [bin_total_cons]
      congr 1
      by_cases hk : k = f.ibin.toNat
      · by_cases hr : f.irad = r ∧ 0 ≤ f.ibin
        · have : f.ibin = (k : Int) := by
            have := Int.toNat_of_nonneg hr.2
            omega
          rw [if_pos hk, if_pos hr, if_pos ⟨hr.1, this⟩]
        · have : ¬ (f.irad = r ∧ f.ibin = (k : Int)) := by
            rintro ⟨h1, h2⟩
            exact hr ⟨h1, by omega⟩
          rw [if_pos hk, if_neg hr, if_neg this]
      · have : ¬ (f.irad = r ∧ f.ibin = (k : Int)) := by
          rintro ⟨_, h2⟩
          exact hk (by omega)
        rw [if_neg hk, if_neg this]
    rw [e, List.sum_map_add, ih2, sum_range_single]
    have hat : amount_total (f :: fs) r
        = (if f.irad = r then f.amount else 0) + amount_total fs r := by
      unfold amount_total
      by_cases hr : f.irad = r
      · simp [List.filter_cons, hr]
      · simp [List.filter_cons, hr]
    rw [hat]
    congr 1
    by_cases hr : f.irad = r
    · obtain ⟨h0, h1⟩ := h f (List.mem_cons_self f fs) hr
      rw [if_pos h1, if_pos ⟨hr, h0⟩, if_pos hr]
    · simp [hr]

theorem list_sum_eq_range (l : List ℚ) :
    l.sum = ((List.range l.length).map (fun k => l.getD k 0)).sum := by
  rw [map_getD_range]

theorem run_total_eq_amount (K : Kernel J) (s : Settings) (inp : Input J) (r : Nat) :
    (run K s inp).world.total r = amount_total (run K s inp).world.fills r := by
  have hin : FillsInRange (run K s inp).world :=
    fills_in_range_main K s inp World.init (fun f hf => by simp [World.init] at hf)
  unfold World.total
  rw [list_sum_eq_range]
  have e : (fun k => ((run K s inp).world.ewoc_hists.getD r []).getD k 0)
      = bin_total (run K s inp).world.fills r := by
    funext k
    rw [← run_bin_eq_total]
    rfl
  rw [e]
  exact sum_bin_total _ r _ (fun f hf hr => hr ▸ hin f hf)

/-- C15. With `pow(x, 2.)` the square, `pow(x, 1) = x`, exponent 1 and both
term kinds enabled: for every jet of non-zero energy that is the sum of the
energies of its subjets, `sum_i E_i^2 / E_jet^2 + sum_(i<j) 2 E_i E_j / E_jet^2 = 1`,
and the amounts `degeneracy * weight` the completed pair loop of the jet adds sum
to 1. So in a completed run in which every processed jet is such a jet, no
amount is computed through a division by zero and the sum of the raw bins of
every configuration is the number of jets processed for that configuration. -/
theorem energy_sum_rule (K : Kernel J) (s : Settings)
    (hsq : ∀ x, K.pow x 2 = x ^ 2) (hone : ∀ x, K.pow x 1 = x) (hexp : s.e_weight = 1)
    (hp : s.pair_terms = true) (hc : s.contact_terms = true) :
    (∀ irad jet subjets w, (subjets.map K.e).sum = K.e jet → K.e jet ≠ 0 →
      ((subjets.map (fun a => K.e a * K.e a / (K.e jet) ^ 2)).sum
          + pair_sum (fun a b => 2 * (K.e a * K.e b / (K.e jet) ^ 2)) subjets = 1) ∧
      ((pair_loop K s irad jet subjets w).error = none →
        ((new_fills w (pair_loop K s irad jet subjets w)).map
          (fun f => (f.degeneracy : ℚ) * f.weight)).sum = 1)) ∧
    (∀ inp, SubjetsCarryEnergy K s inp → (run K s inp).error = none →
      (run K s inp).world.spills = [] ∧
      ∀ irad, ((run K s inp).world.ewoc_hists.getD irad []).sum
        = (processed_jets K s inp irad : ℚ)) := by
  constructor
  · intro irad jet subjets w hsum hE
    constructor
    · have h := sum_rule_pure K.e ((K.e jet) ^ 2) subjets
      simp only [one_mul] at h
      rw [h, hsum]
      exact div_self (pow_ne_zero 2 hE)
    · intro hok
      exact jet_sum_rule K s hsq hone hexp hp hc irad jet subjets w hsum hE hok
  · intro inp hcarry hok
    have hgood : ∀ iev irad jet, jet ∈ good_jets K s inp iev irad →
        K.pow (K.e jet) 2 ≠ 0 := by
      intro iev irad jet hm
      rcases hr : s.radius_pairs[irad]? with _ | ⟨jet_rad, sub_rad⟩
      · unfold good_jets at hm
        rw [hr] at hm
        simp at hm
      · rw [hsq]
        exact pow_ne_zero 2 (hcarry iev irad jet_rad sub_rad jet hr hm).1
    refine ⟨(run_no_spills K s inp hgood).1, ?_⟩
    intro irad
    have ht := run_total_eq_amount K s inp irad
    unfold World.total at ht
    rw [ht]
    obtain ⟨fs, hfs, hq⟩ := gains_main K s hsq hone hexp hp hc inp hcarry World.init hok
    have hf : (run K s inp).world.fills = fs := by
      unfold run
      rw [hfs]
      rfl
    rw [hf, hq]

theorem scenario_carries_energy :
    SubjetsCarryEnergy collinear (scenario true true) scenario_input := by
  intro iev irad jet_rad sub_rad jet hr hm
  cases irad with
  | zero =>
    have hpair : (jet_rad, sub_rad) = (1 / 2, 0) := by
      have : (scenario true true).radius_pairs[0]? = some (1 / 2, 0) := rfl
      rw [this] at hr
      exact (Option.some.inj hr).symm
    have hsr : sub_rad = 0 := congrArg Prod.snd hpair
    have hj : jet = [30, 70] := by
      have h0 : good_jets collinear (scenario true true) scenario_input iev 0
          = good_jets collinear (scenario true true) scenario_input 0 0 := rfl
      have h1 : good_jets collinear (scenario true true) scenario_input 0 0 = [[30, 70]] := by
        decide!
      rw [h0, h1] at hm
      exact List.mem_singleton.mp hm
    subst hsr hj
    exact ⟨by decide!, by decide!⟩
  | succ n =>
    have : (scenario true true).radius_pairs[n + 1]? = none := rfl
    rw [this] at hr
    exact Option.noConfusion hr

/-- A witness of C15: the run of the two-subjet scenario has one jet and a
histogram whose bins sum to 1. -/
theorem energy_sum_rule_witness :
    ((run collinear (scenario true true) scenario_input).world.ewoc_hists.getD 0 []).sum = 1 ∧
    processed_jets collinear (scenario true true) scenario_input 0 = 1 :=
  ⟨(((energy_sum_rule collinear (scenario true true) collinear_pow_two collinear_pow_one
      rfl rfl rfl).2 scenario_input scenario_carries_energy (by decide!)).2 0).trans
      (by decide!),
    by decide!⟩

end Ewocs
